import Mathlib

/-!
# qfilt: the record parser (`seq.cpp`) and the fragment extractor (`main.cpp`)

A shallow embedding of the two parts of the program and theorems about them.

Conventions of the embedding.

* A C `char` is an `Int` (its value as a signed 8-bit character, so that the byte
  `0xFF` is `-1`, the value of `EOF`).  A C `long` is an `Int`; the quantities
  here are bounded by the record length, so no wrap-around is modelled.
* `str_t` and `vec_t<long>` are lists; `extend`, `append`, `clear` and
  `length` are list operations, and `v[i]` on an index outside the list is
  recorded as a fault rather than given a value.
* Loops are structural recursions on a fuel argument.
-/

namespace Qfilt

set_option maxRecDepth 1000000

/-! ## Characters -/

/-- The value of the C constant `EOF`. -/
def EOF : Int := -1

/-- The newline character. -/
def NL : Int := 10

/-- The C function `toupper` in the "C" locale, on a `char` promoted to `int`. -/
def toupper (c : Int) : Int :=
  if 97 ≤ c ∧ c ≤ 122 then c - 32 else c

/-- The characters of a string literal as C `char`s (meant for ASCII text). -/
def cstr (s : String) : List Int :=
  s.toList.map (fun c => (c.toNat : Int))

/-! ## The fragment extractor (`main.cpp`, the body of the record loop) -/

/-- The fields of `args_t` read by the record loop (the type is declared in
`argparse.hpp`). -/
structure args_t where
  min_length : Int
  min_qscore : Int
  split : Bool
  hpoly : Bool
  ambig : Bool
  tag : List Int
  tag_length : Int
  tag_mismatch : Int
deriving DecidableEq, Repr

/-- The record `seq_t` filled by the parser: `id`, `seq`, `quals` and `length`. -/
structure seq_t where
  id : List Int
  seq : List Int
  quals : List Int
  length : Int
deriving DecidableEq, Repr

/-- One emitted fragment: `from`, `to` (exclusive) and `nambigs` at the point
where the record loop prints it. -/
structure Fragment where
  start : Int
  stop : Int
  nambigs : Int
deriving DecidableEq, Repr

/-- How a run of the record loop body ended: `done` when the loop was left by
one of its `break`s (or the `continue` of the tag check), `fault` when an index
outside `seq` , `quals` or `tag` was read, `running` when the fuel given to the
`while ( true )` loop ran out before it was left. -/
inductive Status where
  | done
  | fault
  | running
deriving DecidableEq, Repr

/-- The fragments printed for one record, in order, and how the run ended. -/
structure Output where
  frags : List Fragment
  status : Status
deriving DecidableEq, Repr

/-- Put one more fragment in front of the output of the rest of the run. -/
def Output.emit (f : Fragment) (o : Output) : Output :=
  { o with frags := f :: o.frags }

/-- The tag loop `for ( to = 0; to < args.tag_length; ++to )`: the number of
mismatches, or `none` when `seq[to]` or `tag[to]` is outside its array.
`n` is the number of iterations left, `to` the cursor. -/
def tagLoop (args : args_t) (seq : seq_t) : Nat → Nat → Int → Option Int
  | 0, _, mismatch => some mismatch
  | n + 1, to_, mismatch =>
    match seq.seq[to_]?, args.tag[to_]? with
    | some s, some t =>
      if toupper s ≠ toupper t then tagLoop args seq n (to_ + 1) (mismatch + 1)
      else tagLoop args seq n (to_ + 1) mismatch
    | _, _ => none

/-- The candidate-start search
`while ( ( to <= maxto ) && ( quals[to] < min_qscore ) ) to += 1;`:
the cursor after the loop, or `none` when `quals[to]` is outside the array. -/
def startSearch (args : args_t) (seq : seq_t) (maxto : Int) : Nat → Nat → Option Nat
  | 0, to_ => some to_
  | n + 1, to_ =>
    if (to_ : Int) ≤ maxto then
      match seq.quals[to_]? with
      | none => none
      | some q => if q < args.min_qscore then startSearch args seq maxto n (to_ + 1) else some to_
    else some to_

/-- The inner scan `for ( ; to < seq.length; ++to )`: the cursor and `nambigs`
after the loop, or `none` when `seq[to]` or `quals[to]` is outside its array.
`last` is declared in the loop body and so is `-1` at the comparison in every
iteration. -/
def innerScan (args : args_t) (seq : seq_t) : Nat → Nat → Int → Option (Nat × Int)
  | 0, to_, nambigs => some (to_, nambigs)
  | n + 1, to_, nambigs =>
    if (to_ : Int) < seq.length then
      match seq.seq[to_]?, seq.quals[to_]? with
      | some curr, some q =>
        let last : Int := -1
        if q < args.min_qscore then
          if args.hpoly ∧ toupper last = toupper curr then
            innerScan args seq n (to_ + 1) nambigs
          else if args.ambig ∧ (curr = 78 ∨ curr = 110) then
            innerScan args seq n (to_ + 1) (nambigs + 1)
          else some (to_, nambigs)
        else innerScan args seq n (to_ + 1) nambigs
      | _, _ => none
    else some (to_, nambigs)

/-- The loop `while ( true )` of the record loop, started with the cursor at
`to`; each unit of fuel is one pass through the loop body.  Of the printing of
a fragment only the fragment itself is kept; the counters `nfragment` and
`ncontrib` and the length statistics, which decide no branch, are left out. -/
def fragmentLoop (args : args_t) (seq : seq_t) (maxto : Int) : Nat → Nat → Output
  | 0, _ => ⟨[], .running⟩
  | fuel + 1, to_ =>
    match startSearch args seq maxto (maxto + 1 - to_).toNat to_ with
    | none => ⟨[], .fault⟩
    | some to1 =>
      if (to1 : Int) > maxto then ⟨[], .done⟩
      else
        match innerScan args seq (seq.length - to1).toNat to1 0 with
        | none => ⟨[], .fault⟩
        | some (to2, nambigs) =>
          if (to2 : Int) - to1 - nambigs < args.min_length then
            fragmentLoop args seq maxto fuel to2
          else if ¬ args.split then ⟨[⟨to1, to2, nambigs⟩], .done⟩
          else (fragmentLoop args seq maxto fuel to2).emit ⟨to1, to2, nambigs⟩

/-- The body of the record loop for one record: the tag check, then the
fragment loop.  `fuel` bounds the number of passes through `while ( true )`. -/
def extract (fuel : Nat) (args : args_t) (seq : seq_t) : Output :=
  let maxto := seq.length - args.min_length
  if args.tag_length ≠ 0 then
    match tagLoop args seq args.tag_length.toNat 0 0 with
    | none => ⟨[], .fault⟩
    | some mismatch =>
      if mismatch > args.tag_mismatch then ⟨[], .done⟩
      else fragmentLoop args seq maxto fuel args.tag_length.toNat
  else fragmentLoop args seq maxto fuel 0

/-! ## Files, positions and the token reader (`seq.cpp`) -/

/-- A `FILE *` opened for reading: the bytes of the file as `char`s, the read
position and the end-of-file indicator. -/
structure FILE where
  data : List Int
  pos : Nat
  eof : Bool
deriving DecidableEq, Repr

/-- The position `pos_t`: file name, line and column. -/
structure pos_t where
  file : Option String
  line : Int
  col : Int
deriving DecidableEq, Repr

/-- The messages given to `parse_error`. -/
inductive Msg where
  | malformed
  | missing_id
  | missing_sequence
  | missing_quality
  | length_mismatch (seqlen quallen : Nat)
deriving DecidableEq, Repr

/-- The text of a message; the last one is the `sprintf` of `next`. -/
def Msg.text : Msg → String
  | .malformed => "malformed file"
  | .missing_id => "malformed file: missing ID"
  | .missing_sequence => "malformed file: missing sequence"
  | .missing_quality => "malformed file: missing quality scores"
  | .length_mismatch a b =>
    "malformed file: sequence length (" ++ toString a ++
      ") does not match the number of quality scores (" ++ toString b ++ ")"

/-- The ways a call does not return: `parse` is `parse_error` (which prints the
position and the message and exits), `malfunction` is `MALFUNCTION()`,
`undefined` is a step whose behaviour C leaves undefined (`buf[-1]`, a null
`FILE *`, an `atoi` result outside `int`), `fuel` is a loop of the embedding
running out of fuel. -/
inductive Error where
  | parse (pos : pos_t) (msg : Msg)
  | malfunction
  | undefined
  | fuel
deriving DecidableEq, Repr

/-- The C function `fgetc`, its result converted to `char`. -/
def fgetc (f : FILE) : Int × FILE :=
  match f.data[f.pos]? with
  | some c => (c, { f with pos := f.pos + 1 })
  | none => (EOF, { f with eof := true })

/-- The call `fseek(file, off, SEEK_CUR)`: it fails, changing nothing, when the
new position would be negative, and otherwise clears the end-of-file indicator. -/
def fseek_cur (f : FILE) (off : Int) : FILE :=
  if (f.pos : Int) + off < 0 then f
  else { f with pos := ((f.pos : Int) + off).toNat, eof := false }

/-- The characters `fgets` stores from `rest`: at most `n`, up to and
including the first newline. -/
def fgets_chunk : Nat → List Int → List Int
  | 0, _ => []
  | _, [] => []
  | n + 1, c :: cs => if c = NL then [c] else c :: fgets_chunk n cs

/-- The call `fgets(buf, size, file)`: `none` for a null result (end of file
and nothing read), else the characters stored in `buf` before the final NUL.
The end-of-file indicator is set when the end of the file stopped the read. -/
def fgets (size : Nat) (f : FILE) : Option (List Int) × FILE :=
  let chunk := fgets_chunk (size - 1) (f.data.drop f.pos)
  if chunk.length = 0 then (none, { f with eof := true })
  else (some chunk,
    { f with pos := f.pos + chunk.length,
             eof := f.eof || (decide (chunk.length < size - 1) && chunk.getLast? != some NL) })

/-- The C function `strlen` on a buffer holding `buf` followed by a NUL. -/
def strlen (buf : List Int) : Nat :=
  (buf.takeWhile (fun c => c ≠ 0)).length

/-- The loop of `fgetc_skip_ws`; each unit of fuel is one pass. -/
def fgetc_skip_ws_loop : Nat → FILE → pos_t → Int × FILE × pos_t
  | 0, file, pos => (EOF, file, pos)
  | n + 1, file, pos =>
    let r := fgetc file
    let c := r.1
    let pos1 : pos_t :=
      if c = NL then { pos with line := pos.line + 1, col := 0 }
      else if c ≠ EOF then { pos with col := pos.col + 1 }
      else pos
    if c = 32 ∨ c = 9 ∨ c = NL ∨ c = 13 then fgetc_skip_ws_loop n r.2 pos1
    else (c, r.2, pos1)

/-- The function `fgetc_skip_ws`: the first character that is not a space, tab,
newline or carriage return (or `EOF`), with the file and position after it.
One pass per remaining character and one more are all the loop can make. -/
def fgetc_skip_ws (file : FILE) (pos : pos_t) : Int × FILE × pos_t :=
  fgetc_skip_ws_loop (file.data.length - file.pos + 1) file pos

/-- How the `for` loop of `extend_until` is left: by `return total` (the
delimiter was hit), or by `break` or the end of the buffer. -/
inductive ForExit where
  | returned (str : List Int) (total : Int) (file : FILE) (pos : pos_t)
  | left (str : List Int) (total : Int) (pos : pos_t)
deriving DecidableEq, Repr

/-- The loop `for (i = 0; i < len; ++i)` of `extend_until` over the characters
`buf[i], buf[i+1], ...` still to visit (the first argument). -/
def forLoop (until_ : Int) (buf : List Int) (len : Nat) (file : FILE) :
    List Int → Nat → List Int → Int → pos_t → ForExit
  | [], _, str, total, pos => .left str total pos
  | c :: cs, i, str, total, pos =>
    let str1 := if c = NL ∨ c = until_ then str ++ buf.take i else str
    let total1 := if c = NL ∨ c = until_ then total + i else total
    if c = until_ then
      .returned str1 total1 (fseek_cur file ((i : Int) - len + 1)) pos
    else if c = NL then .left str1 total1 pos
    else forLoop until_ buf len file cs (i + 1) str1 total1 { pos with col := pos.col + 1 }

/-- The loop `while (fgets(buf, 256, file))` of `extend_until`; each unit of
fuel is one call of `fgets`.  The result is the returned count with the
string, file and position after the call. -/
def extend_until_loop (until_ : Int) (trim : Bool) :
    Nat → List Int → Int → FILE → pos_t → Except Error (Int × List Int × FILE × pos_t)
  | 0, _, _, _, _ => .error .fuel
  | n + 1, str, total, file, pos =>
    match fgets 256 file with
    | (none, file1) => .ok (total, str, file1, pos)
    | (some buf, file1) =>
      let len := strlen buf
      match forLoop until_ buf len file1 (buf.take len) 0 str total pos with
      | .returned str1 total1 file2 pos1 => .ok (total1, str1, file2, pos1)
      | .left str1 total1 pos1 =>
        if len = 0 then .error .undefined
        else if buf[len - 1]? = some NL then
          let pos2 : pos_t := { pos1 with line := pos1.line + 1, col := 0 }
          if ¬ trim then extend_until_loop until_ trim n (str1 ++ [NL]) total1 file1 pos2
          else
            let r := fgetc_skip_ws file1 pos2
            if r.1 = until_ ∨ r.1 = EOF then .ok (total1, str1, r.2.1, r.2.2)
            else extend_until_loop until_ trim n (str1 ++ [r.1]) (total1 + 1) r.2.1 r.2.2
        else extend_until_loop until_ trim n str1 total1 file1 pos1

/-- The function `extend_until`.  Every pass of its loop but the last reads at
least one character, so one pass per remaining character and one more are all
the loop can make. -/
def extend_until (str : List Int) (until_ : Int) (file : FILE) (pos : pos_t) (trim : Bool) :
    Except Error (Int × List Int × FILE × pos_t) :=
  extend_until_loop until_ trim (file.data.length - file.pos + 1) str 0 file pos

/-! ## The record parser (`seq.cpp`, `parser_t::next`) -/

/-- The characters at which `strtok` is told to split: space, tab, newline and
carriage return. -/
def isDelim (c : Int) : Bool :=
  c = 32 ∨ c = 9 ∨ c = 10 ∨ c = 13

/-- The tokens returned by `strtok(s, " \t\n\r")` and the calls
`strtok(NULL, " \t\n\r")` after it: the maximal runs of characters of `s`
that are not delimiters.  `cur` is the token being gathered. -/
def strtok_all : List Int → List Int → List (List Int)
  | [], cur => if cur = [] then [] else [cur]
  | c :: cs, cur =>
    if isDelim c then
      (if cur = [] then strtok_all cs [] else cur :: strtok_all cs [])
    else strtok_all cs (cur ++ [c])

/-- The C function `isspace` in the "C" locale. -/
def isspace (c : Int) : Bool :=
  c = 32 ∨ (9 ≤ c ∧ c ≤ 13)

/-- The value of the leading decimal digits of `s`, continuing from `acc`. -/
def digitsValue : List Int → Int → Int
  | [], acc => acc
  | c :: cs, acc => if 48 ≤ c ∧ c ≤ 57 then digitsValue cs (acc * 10 + (c - 48)) else acc

/-- The C function `atoi`: white space, an optional sign, decimal digits.  The
result is `none` when the value is outside `int` (32 bits), where C leaves the
behaviour undefined. -/
def atoi (s : List Int) : Option Int :=
  let s1 := s.dropWhile isspace
  let v : Int :=
    match s1 with
    | [] => 0
    | c :: r =>
      if c = 45 then - digitsValue r 0
      else if c = 43 then digitsValue r 0
      else digitsValue (c :: r) 0
  if -2147483648 ≤ v ∧ v ≤ 2147483647 then some v else none

/-- The text `c_str()` hands to a C function: the characters before the first
NUL. -/
def c_str (s : List Int) : List Int :=
  s.takeWhile (fun c => c ≠ 0)

/-- The states `state_t` of the parser. -/
inductive state_t where
  | UNKNOWN
  | ID
  | SEQUENCE
  | QUALITY
deriving DecidableEq, Repr

/-- The file types `filetype_t`. -/
inductive filetype_t where
  | FASTA
  | FASTQ
  | QUAL
deriving DecidableEq, Repr

/-- The parser `parser_t`: the three file handles (null when `none`), a position
and a state for the primary file and for the quality file, and the two scratch
strings `qid` and `qs`. -/
structure parser_t where
  fastq : Option FILE
  fasta : Option FILE
  qual : Option FILE
  fpos : pos_t
  qpos : pos_t
  fstate : state_t
  qstate : state_t
  qid : List Int
  qs : List Int
deriving DecidableEq, Repr

/-- The constructor `parser_t(fastq_file)` on a file that opens, with the
scratch strings empty. -/
def parser_t.open_fastq (name : String) (data : List Int) : parser_t :=
  { fastq := some ⟨data, 0, false⟩, fasta := none, qual := none,
    fpos := ⟨some name, 0, 0⟩, qpos := ⟨none, 0, 0⟩,
    fstate := .UNKNOWN, qstate := .UNKNOWN, qid := [], qs := [] }

/-- The constructor `parser_t(fasta_file, qual_file)` on files that open, with
the scratch strings empty. -/
def parser_t.open_fasta_qual (fname : String) (fdata : List Int)
    (qname : String) (qdata : List Int) : parser_t :=
  { fastq := none, fasta := some ⟨fdata, 0, false⟩, qual := some ⟨qdata, 0, false⟩,
    fpos := ⟨some fname, 0, 0⟩, qpos := ⟨some qname, 0, 0⟩,
    fstate := .UNKNOWN, qstate := .UNKNOWN, qid := [], qs := [] }

/-- What the locals `file`, `pos` and `state` of `next` point to, with the
scratch strings and the record being filled. -/
structure Machine where
  file : FILE
  pos : pos_t
  state : state_t
  qid : List Int
  qs : List Int
  seq : seq_t
deriving DecidableEq, Repr

/-- The rewind `if (!feof(file)) fseek(file, -1, SEEK_CUR);`. -/
def unpeek (file : FILE) : FILE :=
  if ¬ file.eof then fseek_cur file (-1) else file

/-- One pass through the `switch (*state)` of `next`.  The flag is `false` for
`return false`. -/
def step (hdr sep : Int) (filetype : filetype_t) (m : Machine) : Except Error (Bool × Machine) :=
  match m.state with
  | .UNKNOWN =>
    let r := fgetc_skip_ws m.file m.pos
    if r.1 = hdr then .ok (true, { m with file := r.2.1, pos := r.2.2, state := .ID })
    else if r.1 = EOF then .ok (false, { m with file := r.2.1, pos := r.2.2 })
    else .error (.parse r.2.2 .malformed)
  | .ID =>
    match filetype with
    | .FASTA | .FASTQ =>
      match extend_until m.seq.id NL m.file m.pos true with
      | .error e => .error e
      | .ok (nelem, str, file, pos) =>
        if nelem < 1 then .error (.parse pos .missing_id)
        else .ok (true, { m with file := file, pos := pos, seq := { m.seq with id := str },
                                 state := .SEQUENCE })
    | .QUAL =>
      match extend_until m.qid NL m.file m.pos true with
      | .error e => .error e
      | .ok (nelem, _, file, pos) =>
        if nelem < 1 then .error (.parse pos .missing_id)
        else .ok (true, { m with file := file, pos := pos, qid := [], state := .QUALITY })
  | .SEQUENCE =>
    match filetype with
    | .FASTA | .FASTQ =>
      match extend_until m.seq.seq sep m.file m.pos true with
      | .error e => .error e
      | .ok (nelem, str, file, pos) =>
        if nelem < 1 then .error (.parse pos .missing_sequence)
        else if filetype = .FASTA then
          .ok (true, { m with file := unpeek file, pos := { pos with col := pos.col - 1 },
                              seq := { m.seq with seq := str }, state := .UNKNOWN })
        else
          .ok (true, { m with file := file, pos := pos, seq := { m.seq with seq := str },
                              state := .QUALITY })
    | .QUAL => .error .malfunction
  | .QUALITY =>
    match extend_until m.qs hdr m.file m.pos false with
    | .error e => .error e
    | .ok (nelem, str, file, pos) =>
      if nelem < 1 then .error (.parse pos .missing_quality)
      else
        let decoded : Option (List Int) :=
          if filetype = .QUAL then (strtok_all (c_str str) []).mapM atoi
          else some (str.map (fun c => c - 33))
        match decoded with
        | none => .error .undefined
        | some scores =>
          .ok (true, { m with file := unpeek file, pos := { pos with col := pos.col - 1 },
                              qs := [], seq := { m.seq with quals := m.seq.quals ++ scores },
                              state := .UNKNOWN })

/-- The loop `do { switch (*state) ... } while (*state != UNKNOWN);`.  Each
unit of fuel is one pass; a pass moves the state forward in the order
`UNKNOWN`, `ID`, `SEQUENCE`, `QUALITY`, `UNKNOWN`, so four passes are the
most the loop makes. -/
def machine (hdr sep : Int) (filetype : filetype_t) : Nat → Machine → Except Error (Bool × Machine)
  | 0, _ => .error .fuel
  | n + 1, m =>
    match step hdr sep filetype m with
    | .error e => .error e
    | .ok (false, m1) => .ok (false, m1)
    | .ok (true, m1) =>
      if m1.state ≠ .UNKNOWN then machine hdr sep filetype n m1 else .ok (true, m1)

/-- The part of `next` up to the length check: the loop on the primary file
and then, when `qual && file == fasta`, the loop on the quality file.  The
flag is `false` for `return false`; the second flag tells whether `file == qual`
holds at the end. -/
def next_read (p : parser_t) (seq : seq_t) : Except Error (Bool × Bool × parser_t × seq_t) :=
  let hdr : Int := if p.fastq.isSome then 64 else 62
  let sep : Int := if p.fastq.isSome then 43 else 62
  let filetype : filetype_t := if p.fastq.isSome then .FASTQ else .FASTA
  match (if p.fastq.isSome then p.fastq else p.fasta) with
  | none => .error .undefined
  | some file =>
    match machine hdr sep filetype 4 ⟨file, p.fpos, p.fstate, p.qid, p.qs, seq⟩ with
    | .error e => .error e
    | .ok (more, m) =>
      let p1 : parser_t :=
        if p.fastq.isSome then
          { p with fastq := some m.file, fpos := m.pos, fstate := m.state, qid := m.qid, qs := m.qs }
        else
          { p with fasta := some m.file, fpos := m.pos, fstate := m.state, qid := m.qid, qs := m.qs }
      if ¬ more then .ok (false, false, p1, m.seq)
      else
        match p.qual with
        | some qfile =>
          if p.fastq.isNone then
            match machine hdr sep .QUAL 4 ⟨qfile, p1.qpos, p1.qstate, p1.qid, p1.qs, m.seq⟩ with
            | .error e => .error e
            | .ok (more2, m2) =>
              .ok (more2, true,
                { p1 with qual := some m2.file, qpos := m2.pos, qstate := m2.state,
                          qid := m2.qid, qs := m2.qs }, m2.seq)
          else .ok (true, false, p1, m.seq)
        | none => .ok (true, false, p1, m.seq)

/-- The function `parser_t::next`: `(true, _, _)` with the parser and the
record after the call when a record was read, `(false, _, _)` when there are no
more records. -/
def next (p : parser_t) (seq : seq_t) : Except Error (Bool × parser_t × seq_t) :=
  match next_read p seq with
  | .error e => .error e
  | .ok (false, _, p1, seq1) => .ok (false, p1, seq1)
  | .ok (true, at_qual, p1, seq1) =>
    if at_qual ∧ seq1.seq.length ≠ seq1.quals.length then
      .error (.parse p1.qpos (.length_mismatch seq1.seq.length seq1.quals.length))
    else .ok (true, p1, { seq1 with length := seq1.seq.length })

/-- The record after `seq.clear()`, and the record `seq_t()` the driver starts
with: no identifier, letters or scores. -/
def seq_t.empty : seq_t :=
  { id := [], seq := [], quals := [], length := 0 }

/-! ## Definitions used to state the theorems -/

/-- The number of positions `i < n` at which `s` and `t` both have a letter
and the two letters differ when compared case-insensitively: the mismatch
count of the tag check as the specification words it. -/
def mismatchCount (s t : List Int) (n : Nat) : Nat :=
  ((s.take n).zip (t.take n)).countP (fun p => toupper p.1 ≠ toupper p.2)

/-- A record of length `n` whose quality is below the threshold at position
`p` and nowhere else. -/
def SingleLow (args : args_t) (seq : seq_t) (n p : Nat) : Prop :=
  seq.length = n ∧ seq.seq.length = n ∧ seq.quals.length = n ∧ p < n ∧
    ∀ i, ∀ h : i < seq.quals.length, (seq.quals[i] < args.min_qscore ↔ i = p)

instance (args : args_t) (seq : seq_t) (n p : Nat) : Decidable (SingleLow args seq n p) := by
  unfold SingleLow; infer_instance

/-- The fragments the single-low-base scenario names: `[0,p)` when `p >= L`
and `[p+1,n)` when `n-p-1 >= L`, in this order. -/
def singleLowFragments (L : Int) (n p : Nat) : List Fragment :=
  (if L ≤ (p : Int) then [⟨0, p, 0⟩] else []) ++
    (if L ≤ (n : Int) - p - 1 then [⟨(p : Int) + 1, n, 0⟩] else [])

/-- Whether the quality at position `i` is below the threshold. -/
def isLow (args : args_t) (seq : seq_t) (i : Nat) : Bool :=
  match seq.quals[i]? with
  | some q => decide (q < args.min_qscore)
  | none => false

/-- The number of positions of `[a, b)` whose quality is below the threshold. -/
def lowCount (args : args_t) (seq : seq_t) (a b : Nat) : Nat :=
  (List.range' a (b - a)).countP (isLow args seq)

/-- What C14 says of one fragment: it starts at a position at or above the
threshold, each position of it below the threshold holds `N` or `n` and
ambiguous tolerance is enabled, and `nambigs` counts those positions. -/
def FragmentSound (args : args_t) (seq : seq_t) (f : Fragment) : Prop :=
  ∃ a b : Nat, f.start = a ∧ f.stop = b ∧
    (∃ q, seq.quals[a]? = some q ∧ args.min_qscore ≤ q) ∧
    (∀ i, a ≤ i → i < b → ∃ q c, seq.quals[i]? = some q ∧ seq.seq[i]? = some c ∧
      (q < args.min_qscore → args.ambig = true ∧ (c = 78 ∨ c = 110))) ∧
    f.nambigs = (lowCount args seq a b : Nat)

/-- Whether an error is the consistency error of `next`. -/
def Error.isMismatch : Error → Bool
  | .parse _ (.length_mismatch _ _) => true
  | _ => false

/-- The characters of the file from the read position on. -/
def FILE.rest (file : FILE) : List Int :=
  file.data.drop file.pos

/-- Only white space (space, tab, newline, carriage return) is left to read. -/
def OnlyWhitespaceLeft (file : FILE) : Prop :=
  ∀ c ∈ file.rest, isDelim c = true

instance (file : FILE) : Decidable (OnlyWhitespaceLeft file) := by
  unfold OnlyWhitespaceLeft; infer_instance

/-- The place of a state in the order in which `next` goes through the
states. -/
def state_t.rank : state_t → Nat
  | .UNKNOWN => 0
  | .ID => 1
  | .SEQUENCE => 2
  | .QUALITY => 3

/-! ### Two-file renderings of records -/

/-- A letter `A`-`Z` or `a`-`z`. -/
def isLetter (c : Int) : Bool :=
  (65 ≤ c ∧ c ≤ 90) ∨ (97 ≤ c ∧ c ≤ 122)

/-- A decimal digit. -/
def isDigit (c : Int) : Bool :=
  48 ≤ c ∧ c ≤ 57

/-- The number written by a string of decimal digits. -/
def decimalDigitsValue (ds : List Int) : Int :=
  ds.foldl (fun a d => a * 10 + (d - 48)) 0

/-- The integer a token writes in decimal: digits, with an optional sign in
front; `none` when the token is not of this form. -/
def decimalValue : List Int → Option Int
  | [] => none
  | c :: ds =>
    if c = 45 then (if ds ≠ [] ∧ ds.all isDigit then some (- decimalDigitsValue ds) else none)
    else if c = 43 then (if ds ≠ [] ∧ ds.all isDigit then some (decimalDigitsValue ds) else none)
    else if (c :: ds).all isDigit then some (decimalDigitsValue (c :: ds)) else none

/-- The text of a list of lines, each ended by a newline. -/
def linesText (lines : List (List Int)) : List Int :=
  (lines.map (fun l => l ++ [NL])).flatten

/-- One line of a quality body: tokens, each with the spaces written before
it, and the spaces written after the last token. -/
structure QualLine where
  entries : List (List Int × List Int)
  trail : List Int
deriving DecidableEq, Repr

/-- The characters of a quality line, without its newline. -/
def QualLine.text (q : QualLine) : List Int :=
  (q.entries.map (fun e => e.1 ++ e.2)).flatten ++ q.trail

/-- The tokens of a quality line. -/
def QualLine.tokens (q : QualLine) : List (List Int) :=
  q.entries.map (fun e => e.2)

/-- A quality line of at most 254 characters whose tokens are decimal
integers separated by one or more spaces. -/
def QualLine.WF (q : QualLine) : Prop :=
  q.text.length ≤ 254 ∧ (∀ c ∈ q.trail, c = 32) ∧
    (∀ e ∈ q.entries, (∀ c ∈ e.1, c = 32) ∧ (decimalValue e.2).isSome = true) ∧
    (∀ e ∈ q.entries.tail, e.1 ≠ [])

instance (q : QualLine) : Decidable q.WF := by
  unfold QualLine.WF; infer_instance

/-- How a record is written to the two files: the identifier, the lines of the
sequence body and the lines of the quality body. -/
structure Layout where
  id : List Int
  seqLines : List (List Int)
  qualLines : List QualLine
deriving DecidableEq, Repr

/-- The record of a layout in the sequence file: `>`, the identifier line and
the body lines. -/
def Layout.seqText (l : Layout) : List Int :=
  62 :: (l.id ++ NL :: linesText l.seqLines)

/-- The record of a layout in the quality file: `>`, the identifier line and
the body lines. -/
def Layout.qualText (l : Layout) : List Int :=
  62 :: (l.id ++ NL :: linesText (l.qualLines.map QualLine.text))

/-- The tokens of the quality body of a layout, in order. -/
def Layout.tokens (l : Layout) : List (List Int) :=
  (l.qualLines.map QualLine.tokens).flatten

/-- The sequence file that holds the records of the layouts in order. -/
def seqFile (ls : List Layout) : List Int :=
  (ls.map Layout.seqText).flatten

/-- The quality file that holds the records of the layouts in order. -/
def qualFile (ls : List Layout) : List Int :=
  (ls.map Layout.qualText).flatten

/-- The layout `l` writes the record `r` as the round trip is stated: the
identifier is a non-empty text without newline (or NUL), the sequence is a
non-empty string of letters wrapped over lines of at most 254 characters,
there is one score per letter, each written as a decimal integer, on lines of
at most 254 characters, and `length` is the number of letters. -/
def Written (l : Layout) (r : seq_t) : Prop :=
  r.id = l.id ∧ l.id ≠ [] ∧ (∀ c ∈ l.id, c ≠ 10 ∧ c ≠ 0) ∧
    r.seq = l.seqLines.flatten ∧ r.seq ≠ [] ∧ (∀ c ∈ r.seq, isLetter c = true) ∧
    (∀ ln ∈ l.seqLines, ln.length ≤ 254) ∧
    (∀ q ∈ l.qualLines, q.WF) ∧
    l.tokens.map decimalValue = r.quals.map some ∧
    r.quals.length = r.seq.length ∧ r.length = r.seq.length

instance (l : Layout) (r : seq_t) : Decidable (Written l r) := by
  unfold Written; infer_instance

/-- The layout `l` writes the record `r`, the identifier has at most 254
characters and every score fits in `int`. -/
def Renders (l : Layout) (r : seq_t) : Prop :=
  Written l r ∧ l.id.length ≤ 254 ∧ ∀ q ∈ r.quals, -2147483648 ≤ q ∧ q ≤ 2147483647

instance (l : Layout) (r : seq_t) : Decidable (Renders l r) := by
  unfold Renders; infer_instance

/-- A parser in two-file mode, between two calls of `next`, whose files still
hold the records of the layouts `ls`. -/
def Ready (p : parser_t) (ls : List Layout) : Prop :=
  p.fastq = none ∧ p.fstate = .UNKNOWN ∧ p.qstate = .UNKNOWN ∧ p.qs = [] ∧
    ∃ f q, p.fasta = some f ∧ p.qual = some q ∧ f.rest = seqFile ls ∧ q.rest = qualFile ls

/-- The records returned by up to `n` successive calls of `next`, each on a
cleared record, with the parser after them; the calls stop at the first that
returns `false`. -/
def readRecords : Nat → parser_t → Except Error (List seq_t × parser_t)
  | 0, p => .ok ([], p)
  | n + 1, p =>
    match next p seq_t.empty with
    | .error e => .error e
    | .ok (false, p1, _) => .ok ([], p1)
    | .ok (true, p1, s) =>
      match readRecords n p1 with
      | .error e => .error e
      | .ok (ss, p2) => .ok (s :: ss, p2)

/-- What `extend_until` does after an end of line when trimming: skip white
space, stop at the delimiter or the end of the input, else append the
character met and go on with the loop. -/
def after_eol_trim (until_ : Int) (n : Nat) (str : List Int) (total : Int) (file : FILE)
    (pos : pos_t) : Except Error (Int × List Int × FILE × pos_t) :=
  let r := fgetc_skip_ws file pos
  if r.1 = until_ ∨ r.1 = EOF then .ok (total, str, r.2.1, r.2.2)
  else extend_until_loop until_ true n (str ++ [r.1]) (total + 1) r.2.1 r.2.2

/-- The file after a body of `k` characters was read: at the end of the input
when nothing follows the body, else just after the `>` that follows it. -/
def fileAfter (file : FILE) (k : Nat) (tail : List Int) : FILE :=
  if tail = [] then ⟨file.data, file.pos + k, true⟩ else ⟨file.data, file.pos + k + 1, false⟩

/-- What may follow a body in the file: nothing, or a `>` such that the
characters `fgets` reads from there hold no NUL. -/
def TailOK (tail : List Int) : Prop :=
  tail = [] ∨ ∃ t, tail = 62 :: t ∧ ∀ c ∈ fgets_chunk 255 tail, c ≠ 0

/-- A line of at most 254 characters, none of them a newline, a `>` or a NUL. -/
def LineOK (l : List Int) : Prop :=
  l.length ≤ 254 ∧ ∀ c ∈ l, c ≠ NL ∧ c ≠ 62 ∧ c ≠ 0

/-! ### Example policies, records and files -/

/-- The policy of the scenarios: threshold 20, minimum length 4, no tag, no
tolerance; splitting as given. -/
def scenarioArgs (split : Bool) : args_t :=
  { min_length := 4, min_qscore := 20, split := split, hpoly := false, ambig := false,
    tag := [], tag_length := 0, tag_mismatch := 0 }

/-- Nine bases with scores 40,40,40,40,2,40,40,40,40. -/
def nineBases : seq_t :=
  { id := cstr "r1", seq := cstr "ACGTAACGT",
    quals := [40, 40, 40, 40, 2, 40, 40, 40, 40], length := 9 }

/-- A policy with the tag `ACG`, no mismatch tolerated. -/
def tagArgs : args_t :=
  { min_length := 4, min_qscore := 20, split := true, hpoly := false, ambig := false,
    tag := cstr "ACG", tag_length := 3, tag_mismatch := 0 }

/-- A record whose first three letters differ from `ACG` in one position. -/
def tagRecord : seq_t :=
  { id := cstr "r2", seq := cstr "AGGTACGT",
    quals := [40, 40, 40, 40, 40, 40, 40, 40], length := 8 }


/-- The interleaved scenario: one record of eight bases, every quality
character `I`. -/
def fastqScenario : parser_t :=
  parser_t.open_fastq "in.fastq" (cstr "@r1\nACGTACGT\n+\nIIIIIIII\n")

/-- An interleaved record of four bases whose quality line has one character. -/
def fastqShortQuality : parser_t :=
  parser_t.open_fastq "in.fastq" (cstr "@r1\nACGT\n+\nI\n")

/-- A sequence file of one record of four letters and a quality file with
three scores for it. -/
def fastaQualOneFewer : parser_t :=
  parser_t.open_fasta_qual "in.fasta" (cstr ">r1\nACGT\n") "in.qual" (cstr ">r1\n40 40 40\n")

/-- An interleaved file holding only white space. -/
def fastqBlank : parser_t :=
  parser_t.open_fastq "in.fastq" (cstr " \n\t\r\n")

/-- A sequence file of one record and a quality file holding only white
space. -/
def fastaQualBlank : parser_t :=
  parser_t.open_fasta_qual "in.fasta" (cstr ">r1\nACGT\n") "in.qual" (cstr "\n \n")

/-- A sequence body of one line of 255 letters `A`. -/
def longLine : FILE :=
  ⟨List.replicate 255 65 ++ [10], 0, false⟩

/-- Two records as written to the two files: `r1` with six letters on two
lines and six scores on two lines, `r2` with two letters and two scores. -/
def twoLayouts : List Layout :=
  [ { id := cstr "r1", seqLines := [cstr "ACGT", cstr "AC"],
      qualLines := [⟨[([], cstr "40"), ([32], cstr "40"), ([32], cstr "40")], []⟩,
                    ⟨[([], cstr "40"), ([32], cstr "30"), ([32, 32], cstr "20")], [32]⟩] },
    { id := cstr "r2", seqLines := [cstr "GG"],
      qualLines := [⟨[([], cstr "10"), ([32], cstr "-5")], []⟩] } ]

/-- The two records written by `twoLayouts`. -/
def twoRecords : List seq_t :=
  [ ⟨cstr "r1", cstr "ACGTAC", [40, 40, 40, 40, 30, 20], 6⟩,
    ⟨cstr "r2", cstr "GG", [10, -5], 2⟩ ]

/-- A record whose identifier has 255 characters. -/
def longIdLayout : Layout :=
  { id := List.replicate 255 97, seqLines := [cstr "ACGT"],
    qualLines := [⟨[([], cstr "40"), ([32], cstr "40"), ([32], cstr "40"), ([32], cstr "40")],
      []⟩] }

/-- The record written by `longIdLayout`. -/
def longIdRecord : seq_t :=
  ⟨List.replicate 255 97, cstr "ACGT", [40, 40, 40, 40], 4⟩

/-- A record of one letter whose score, 2147483648, does not fit in `int`. -/
def bigScoreLayout : Layout :=
  { id := cstr "r1", seqLines := [cstr "A"],
    qualLines := [⟨[([], cstr "2147483648")], []⟩] }

/-- The record written by `bigScoreLayout`. -/
def bigScoreRecord : seq_t :=
  ⟨cstr "r1", cstr "A", [2147483648], 1⟩

/-- Nine bases `A` with scores 40,40,40,40,2,40,40,40,40. -/
def nineA : seq_t :=
  { id := cstr "r3", seq := cstr "AAAAAAAAA",
    quals := [40, 40, 40, 40, 2, 40, 40, 40, 40], length := 9 }

/-- The policy of the scenarios with homopolymer tolerance as given and no
splitting. -/
def hpolyArgs (hpoly : Bool) : args_t :=
  { min_length := 4, min_qscore := 20, split := false, hpoly := hpoly, ambig := false,
    tag := [], tag_length := 0, tag_mismatch := 0 }

/-- Eight bases with an `N` of score 2 at position 3, every other score 40. -/
def ambigRecord : seq_t :=
  { id := cstr "r4", seq := cstr "ACGNACGT",
    quals := [40, 40, 40, 2, 40, 40, 40, 40], length := 8 }

/-- The policy of the scenarios with ambiguous tolerance enabled. -/
def ambigArgs : args_t :=
  { min_length := 4, min_qscore := 20, split := true, hpoly := false, ambig := true,
    tag := [], tag_length := 0, tag_mismatch := 0 }

/-- The record `ACGTACGT`, every score 40. -/
def tagMatchRecord : seq_t :=
  { id := cstr "r5", seq := cstr "ACGTACGT",
    quals := [40, 40, 40, 40, 40, 40, 40, 40], length := 8 }

/-- An interleaved file whose first character is a letter, not `@`. -/
def noHeaderFastq : parser_t :=
  parser_t.open_fastq "in.fastq" (cstr "ACGT\n")

/-- A sequence file whose first character is a letter, not `>`, with a
well-formed quality file. -/
def noHeaderFasta : parser_t :=
  parser_t.open_fasta_qual "in.fasta" (cstr "ACGT\n") "in.qual" (cstr ">r1\n40 40 40 40\n")

/-- An interleaved file whose first byte is 0xFF, which the signed `char` of
`fgetc_skip_ws` holds as -1. -/
def firstByteFF : parser_t :=
  parser_t.open_fastq "in.fastq" ([-1] ++ cstr "r1\nACGT\n+\nIIII\n")

/-- A stream at the start of a line in which `>` follows two letters. -/
def delimiterInLine : FILE :=
  ⟨cstr "AC>id\n", 0, false⟩

/-- An interleaved record whose quality line starts with `@`. -/
def atFirstInQuality : parser_t :=
  parser_t.open_fastq "in.fastq" (cstr "@r1\nACGT\n+\n@III\n")

/-- An interleaved record whose quality line holds `@` after two characters. -/
def atInsideQuality : parser_t :=
  parser_t.open_fastq "in.fastq" (cstr "@r1\nACGT\n+\nII@II\n")

/-- A character that the trimming reader keeps as it stands wherever it meets it:
not white space, not NUL, not the delimiter `sep` and not the byte that reads as
`EOF`. -/
def isBodyChar (sep c : Int) : Bool :=
  c ≠ NL ∧ c ≠ sep ∧ c ≠ 0 ∧ c ≠ EOF ∧ isDelim c = false

/-- The parts of an interleaved record up to the first `@` that follows its `+`:
the identifier, the lines of the sequence, the complete lines between the `+` and
the line holding that `@` (the first of them is what follows `+` on its own line),
and the characters of that line before the `@`. -/
structure Interleaved where
  id : List Int
  seqLines : List (List Int)
  plusLines : List (List Int)
  qpre : List Int
deriving DecidableEq, Repr

/-- The text of the record, from its `@` to the `@` met after the `+`, followed by
`tl`. -/
def Interleaved.text (l : Interleaved) (tl : List Int) : List Int :=
  64 :: (l.id ++ NL :: (linesText l.seqLines ++ 43 :: (linesText l.plusLines ++
    (l.qpre ++ 64 :: tl))))

/-- The characters between the `+` and the `@`, newlines left out. -/
def Interleaved.scoreChars (l : Interleaved) : List Int :=
  l.plusLines.flatten ++ l.qpre

/-- The bounds on the lines of the record: an identifier of 1 to 254 characters
without NUL; sequence lines of at most 254 characters each, at least one
character in all, none of them white space, NUL, `+` or the byte read as `EOF`;
lines after the `+` of at most 254 characters without `@` or NUL; and no NUL in
the piece `fgets` reads from the line holding the `@`. -/
def Interleaved.WF (l : Interleaved) (tl : List Int) : Prop :=
  (l.id ≠ [] ∧ l.id.length ≤ 254 ∧ ∀ c ∈ l.id, c ≠ NL ∧ c ≠ 0) ∧
  (l.seqLines.flatten ≠ [] ∧
    ∀ x ∈ l.seqLines, x.length ≤ 254 ∧ ∀ c ∈ x, isBodyChar 43 c = true) ∧
  (∀ x ∈ l.plusLines, x.length ≤ 254 ∧ ∀ c ∈ x, c ≠ NL ∧ c ≠ 64 ∧ c ≠ 0) ∧
  (l.qpre.length ≤ 254 ∧ ∀ c ∈ l.qpre, c ≠ NL ∧ c ≠ 64) ∧
  ∀ c ∈ fgets_chunk 255 (l.qpre ++ 64 :: tl), c ≠ 0

/-- The record `r1` with the letters `ACGT` on two lines, a bare `+` line and the
quality line `II@II`. -/
def atInsideTwoLines : Interleaved :=
  ⟨cstr "r1", [cstr "AC", cstr "GT"], [[]], cstr "II"⟩

/-- The record `r1` with the letters `ACGT`, a bare `+` line and a quality line
that starts with `@`. -/
def atFirstLayout : Interleaved :=
  ⟨cstr "r1", [cstr "ACGT"], [[]], []⟩
/-! ## Theorems about the fragment extractor -/

theorem fragmentLoop_bounds (args : args_t) (seq : seq_t) (maxto : Int) (fuel : Nat) :
    ∀ to_ : Nat, ∀ f ∈ (fragmentLoop args seq maxto fuel to_).frags,
      args.min_length ≤ f.stop - f.start - f.nambigs ∧ f.start ≤ maxto := by
  induction fuel with
  | zero => intro to_ f hf; simp [fragmentLoop] at hf
  | succ fuel ih =>
    intro to_ f hf
    unfold fragmentLoop at hf
    split at hf
    · simp at hf
    · rename_i to1 _
      split at hf
      · simp at hf
      · rename_i hle
        split at hf
        · simp at hf
        · rename_i to2 nambigs _
          split at hf
          · exact ih _ f hf
          · rename_i hlen
            split at hf
            · simp at hf
              subst hf
              simp only
              omega
            · simp only [Output.emit, List.mem_cons] at hf
              rcases hf with hf | hf
              · subst hf
                simp only
                omega
              · exact ih _ f hf

theorem fragmentLoop_nosplit (args : args_t) (seq : seq_t) (maxto : Int) (fuel : Nat)
    (hs : args.split = false) :
    ∀ to_ : Nat, (fragmentLoop args seq maxto fuel to_).frags.length ≤ 1 := by
  induction fuel with
  | zero => intro to_; simp [fragmentLoop]
  | succ fuel ih =>
    intro to_
    unfold fragmentLoop
    split
    · simp
    · split
      · simp
      · split
        · simp
        · split
          · exact ih _
          · simp [hs]

theorem tagLoop_count (args : args_t) (seq : seq_t) (n : Nat) :
    ∀ (to_ : Nat) (m0 m : Int), tagLoop args seq n to_ m0 = some m →
      m = m0 + (mismatchCount (seq.seq.drop to_) (args.tag.drop to_) n : Nat) := by
  induction n with
  | zero => intro to_ m0 m h; simp [tagLoop] at h; simp [mismatchCount, h]
  | succ n ih =>
    intro to_ m0 m h
    unfold tagLoop at h
    split at h
    · rename_i s t hs ht
      have hs1 : seq.seq.drop to_ = s :: seq.seq.drop (to_ + 1) := by
        rw [List.getElem?_eq_some_iff] at hs
        obtain ⟨hlt, rfl⟩ := hs
        exact List.drop_eq_getElem_cons hlt
      have ht1 : args.tag.drop to_ = t :: args.tag.drop (to_ + 1) := by
        rw [List.getElem?_eq_some_iff] at ht
        obtain ⟨hlt, rfl⟩ := ht
        exact List.drop_eq_getElem_cons hlt
      split at h
      · rename_i hne
        have := ih _ _ _ h
        rw [this, hs1, ht1]
        simp [mismatchCount, List.countP_cons, hne]
        omega
      · rename_i heq
        have := ih _ _ _ h
        rw [this, hs1, ht1]
        simp only [ne_eq, Decidable.not_not] at heq
        simp [mismatchCount, List.countP_cons, heq]
    · simp at h

theorem startSearch_skip (args : args_t) (seq : seq_t) (maxto : Int) (n to_ : Nat) (q : Int)
    (hle : (to_ : Int) ≤ maxto) (hq : seq.quals[to_]? = some q) (hlow : q < args.min_qscore) :
    startSearch args seq maxto (n + 1) to_ = startSearch args seq maxto n (to_ + 1) := by
  simp [startSearch, hle, hq, hlow]

theorem startSearch_stay (args : args_t) (seq : seq_t) (maxto : Int) (n to_ : Nat) (q : Int)
    (hq : seq.quals[to_]? = some q) (hok : args.min_qscore ≤ q) :
    startSearch args seq maxto n to_ = some to_ := by
  cases n with
  | zero => rfl
  | succ n =>
    simp only [startSearch, hq]
    split
    · rw [if_neg (by omega)]
    · rfl

theorem startSearch_past (args : args_t) (seq : seq_t) (maxto : Int) (n to_ : Nat)
    (hgt : maxto < (to_ : Int)) :
    startSearch args seq maxto n to_ = some to_ := by
  cases n with
  | zero => rfl
  | succ n => simp only [startSearch]; rw [if_neg (by omega)]

theorem innerScan_past (args : args_t) (seq : seq_t) (n to_ : Nat) (a : Int)
    (hge : seq.length ≤ (to_ : Int)) :
    innerScan args seq n to_ a = some (to_, a) := by
  cases n with
  | zero => rfl
  | succ n => simp only [innerScan]; rw [if_neg (by omega)]

theorem innerScan_good (args : args_t) (seq : seq_t) (k : Nat) :
    ∀ (m to_ : Nat) (a : Int),
      (∀ i, to_ ≤ i → i < to_ + k →
        (i : Int) < seq.length ∧ i < seq.seq.length ∧
          ∃ q, seq.quals[i]? = some q ∧ args.min_qscore ≤ q) →
      innerScan args seq (k + m) to_ a = innerScan args seq m (to_ + k) a := by
  induction k with
  | zero => intro m to_ a _; simp
  | succ k ih =>
    intro m to_ a h
    obtain ⟨h1, h2, q, h3, h4⟩ := h to_ (le_refl _) (by omega)
    have hs : seq.seq[to_]? = some (seq.seq[to_]) := List.getElem?_eq_getElem h2
    have e : k + 1 + m = (k + m) + 1 := by omega
    rw [e]
    simp only [innerScan, h1, if_true, hs, h3]
    rw [if_neg (by omega)]
    rw [ih m (to_ + 1) a (fun i hi1 hi2 => h i (by omega) (by omega))]
    congr 1
    omega

theorem innerScan_stop (args : args_t) (seq : seq_t) (n to_ : Nat) (a q : Int)
    (hlt : (to_ : Int) < seq.length) (hs : to_ < seq.seq.length)
    (hq : seq.quals[to_]? = some q) (hlow : q < args.min_qscore)
    (hh : args.hpoly = false) (ha : args.ambig = false) :
    innerScan args seq (n + 1) to_ a = some (to_, a) := by
  have hs1 : seq.seq[to_]? = some (seq.seq[to_]) := List.getElem?_eq_getElem hs
  simp [innerScan, hlt, hs1, hq, hlow, hh, ha]

theorem fragmentLoop_after_low (args : args_t) (seq : seq_t) (n p fuel : Nat)
    (h : SingleLow args seq n p) (hL : 1 ≤ args.min_length) :
    fragmentLoop args seq ((n : Int) - args.min_length) (fuel + 2) p =
      ⟨if args.min_length ≤ (n : Int) - p - 1 then [⟨(p : Int) + 1, n, 0⟩] else [], .done⟩ := by
  obtain ⟨hn, hs, hq, hp, hlow⟩ := h
  have hqp : seq.quals[p]? = some (seq.quals[p]) := List.getElem?_eq_getElem (by omega)
  have hplow : seq.quals[p] < args.min_qscore := (hlow p (by omega)).2 rfl
  have hgood : ∀ i, i ≠ p → i < n →
      ∃ q, seq.quals[i]? = some q ∧ args.min_qscore ≤ q := by
    intro i hi hin
    refine ⟨seq.quals[i], List.getElem?_eq_getElem (by omega), ?_⟩
    have := (hlow i (by omega)).not.2 hi
    omega
  by_cases hpm : (p : Int) ≤ (n : Int) - args.min_length
  · -- the search steps over `p`
    have e1 : ((n : Int) - args.min_length + 1 - (p : Int)).toNat
        = ((n : Int) - args.min_length - p).toNat + 1 := by omega
    have hsearch : startSearch args seq ((n : Int) - args.min_length)
        ((n : Int) - args.min_length + 1 - (p : Int)).toNat p = some (p + 1) := by
      rw [e1, startSearch_skip args seq _ _ p _ hpm hqp hplow]
      by_cases hp1 : ((p + 1 : Nat) : Int) ≤ (n : Int) - args.min_length
      · obtain ⟨q, hq1, hq2⟩ := hgood (p + 1) (by omega) (by omega)
        exact startSearch_stay args seq _ _ _ q hq1 hq2
      · exact startSearch_past args seq _ _ _ (by omega)
    rw [fragmentLoop, hsearch]
    by_cases hp1 : ((p + 1 : Nat) : Int) ≤ (n : Int) - args.min_length
    · have hscan : innerScan args seq (seq.length - ((p + 1 : Nat) : Int)).toNat (p + 1) 0
          = some (n, 0) := by
        have e2 : (seq.length - ((p + 1 : Nat) : Int)).toNat = (n - (p + 1)) + 0 := by omega
        rw [e2, innerScan_good args seq (n - (p + 1)) 0 (p + 1) 0]
        · have e3 : p + 1 + (n - (p + 1)) = n := by omega
          rw [e3]
          exact innerScan_past args seq 0 n 0 (by omega)
        · intro i hi1 hi2
          exact ⟨by omega, by omega, hgood i (by omega) (by omega)⟩
      simp only [hscan]
      have c1 : ¬ (((p + 1 : Nat) : Int) > (n : Int) - args.min_length) := by omega
      have c2 : ¬ ((n : Int) - ((p + 1 : Nat) : Int) - 0 < args.min_length) := by
        push_cast; omega
      have c3 : args.min_length ≤ (n : Int) - p - 1 := by push_cast at hp1; omega
      rw [if_neg c1, if_neg c2, if_pos c3]
      have hend : fragmentLoop args seq ((n : Int) - args.min_length) (fuel + 1) n
          = ⟨[], .done⟩ := by
        rw [fragmentLoop, startSearch_past args seq _ _ _ (by omega)]
        simp only
        rw [if_pos (by omega)]
      cases hsp : args.split
      · simp
      · simp [hend, Output.emit]
    · simp only
      have c1 : ((p + 1 : Nat) : Int) > (n : Int) - args.min_length := by omega
      have c3 : ¬ args.min_length ≤ (n : Int) - p - 1 := by push_cast at hp1; omega
      rw [if_pos c1, if_neg c3]
  · rw [fragmentLoop, startSearch_past args seq _ _ _ (by omega)]
    simp only
    rw [if_pos (by omega), if_neg (by omega)]

theorem fragmentLoop_single_low (args : args_t) (seq : seq_t) (n p fuel : Nat)
    (h : SingleLow args seq n p) (hh : args.hpoly = false) (ha : args.ambig = false)
    (hL : 1 ≤ args.min_length) :
    fragmentLoop args seq ((n : Int) - args.min_length) (fuel + 3) 0 =
      ⟨if args.split then singleLowFragments args.min_length n p
        else (singleLowFragments args.min_length n p).take 1, .done⟩ := by
  have h2 := fragmentLoop_after_low args seq n p fuel h hL
  have h3 := fragmentLoop_after_low args seq n p (fuel + 1) h hL
  obtain ⟨hn, hs, hq, hp, hlow⟩ := h
  by_cases hp0 : p = 0
  · subst hp0
    rw [h3]
    have : ¬ args.min_length ≤ ((0 : Nat) : Int) := by omega
    simp only [singleLowFragments, this, if_false, List.nil_append]
    split <;> split <;> simp
  · have hq0 : seq.quals[0]? = some (seq.quals[0]) := List.getElem?_eq_getElem (by omega)
    have hgood : ∀ i, i ≠ p → i < n →
        ∃ q, seq.quals[i]? = some q ∧ args.min_qscore ≤ q := by
      intro i hi hin
      refine ⟨seq.quals[i], List.getElem?_eq_getElem (by omega), ?_⟩
      have := (hlow i (by omega)).not.2 hi
      omega
    obtain ⟨q0, hq01, hq02⟩ := hgood 0 (by omega) (by omega)
    rw [fragmentLoop, startSearch_stay args seq _ _ 0 q0 hq01 hq02]
    simp only
    by_cases hm : ((0 : Nat) : Int) > (n : Int) - args.min_length
    · rw [if_pos hm]
      have e1 : ¬ args.min_length ≤ (p : Int) := by omega
      have e2 : ¬ args.min_length ≤ (n : Int) - p - 1 := by omega
      simp [singleLowFragments, e1, e2]
    · rw [if_neg hm]
      have hscan : innerScan args seq (seq.length - ((0 : Nat) : Int)).toNat 0 0
          = some (p, 0) := by
        have e2 : (seq.length - ((0 : Nat) : Int)).toNat = p + ((n - p - 1) + 1) := by omega
        rw [e2, innerScan_good args seq p _ 0 0]
        · rw [Nat.zero_add]
          exact innerScan_stop args seq _ p 0 _ (by omega) (by omega)
            (List.getElem?_eq_getElem (by omega)) ((hlow p (by omega)).2 rfl) hh ha
        · intro i hi1 hi2
          exact ⟨by omega, by omega, hgood i (by omega) (by omega)⟩
      simp only [hscan]
      by_cases hpl : args.min_length ≤ (p : Int)
      · rw [if_neg (by push_cast; omega)]
        cases hsp : args.split
        · simp [singleLowFragments, hpl]
        · simp [singleLowFragments, hpl, h2, Output.emit]
      · rw [if_pos (by push_cast; omega), h2]
        simp only [singleLowFragments, hpl, if_false, List.nil_append]
        split <;> split <;> simp

/-! ## More lemmas about the fragment extractor -/

theorem toupper_ascii_ne (c : Int) (h : 0 ≤ c) : ¬ (toupper (-1) = toupper c) := by
  simp only [toupper]
  split <;> split <;> omega

theorem innerScan_hpoly (a1 a2 : args_t) (seq : seq_t)
    (hq : a1.min_qscore = a2.min_qscore) (ha : a1.ambig = a2.ambig)
    (hascii : ∀ c ∈ seq.seq, 0 ≤ c ∧ c ≤ 127) (n : Nat) :
    ∀ (to_ : Nat) (nambigs : Int),
      innerScan a1 seq n to_ nambigs = innerScan a2 seq n to_ nambigs := by
  induction n with
  | zero => intro to_ nambigs; rfl
  | succ n ih =>
    intro to_ nambigs
    simp only [innerScan]
    split
    · split
      · rename_i curr q hc _
        have hmem : curr ∈ seq.seq := List.getElem?_mem hc
        have hne := toupper_ascii_ne curr (hascii curr hmem).1
        simp only [hne, and_false, if_false, hq, ha, ih]
      · rfl
    · rfl

theorem startSearch_congr (a1 a2 : args_t) (seq : seq_t) (maxto : Int)
    (hq : a1.min_qscore = a2.min_qscore) (n : Nat) :
    ∀ to_ : Nat, startSearch a1 seq maxto n to_ = startSearch a2 seq maxto n to_ := by
  induction n with
  | zero => intro to_; rfl
  | succ n ih =>
    intro to_
    simp only [startSearch, hq, ih]

theorem fragmentLoop_hpoly (a1 a2 : args_t) (seq : seq_t) (maxto : Int)
    (hq : a1.min_qscore = a2.min_qscore) (ha : a1.ambig = a2.ambig)
    (hl : a1.min_length = a2.min_length) (hs : a1.split = a2.split)
    (hascii : ∀ c ∈ seq.seq, 0 ≤ c ∧ c ≤ 127) (fuel : Nat) :
    ∀ to_ : Nat, fragmentLoop a1 seq maxto fuel to_ = fragmentLoop a2 seq maxto fuel to_ := by
  induction fuel with
  | zero => intro to_; rfl
  | succ fuel ih =>
    intro to_
    simp only [fragmentLoop, startSearch_congr a1 a2 seq maxto hq,
      innerScan_hpoly a1 a2 seq hq ha hascii, hl, hs, ih]

theorem tagLoop_congr (a1 a2 : args_t) (seq : seq_t) (ht : a1.tag = a2.tag) (n : Nat) :
    ∀ (to_ : Nat) (m : Int), tagLoop a1 seq n to_ m = tagLoop a2 seq n to_ m := by
  induction n with
  | zero => intro to_ m; rfl
  | succ n ih =>
    intro to_ m
    simp only [tagLoop, ht, ih]

theorem startSearch_spec (args : args_t) (seq : seq_t) (maxto : Int) (n : Nat) :
    ∀ (to_ t1 : Nat), startSearch args seq maxto n to_ = some t1 →
      to_ ≤ t1 ∧ t1 ≤ to_ + n ∧
      (t1 = to_ + n ∨ maxto < (t1 : Int) ∨
        ∃ q, seq.quals[t1]? = some q ∧ args.min_qscore ≤ q) ∧
      (∀ i, to_ ≤ i → i < t1 →
        (i : Int) ≤ maxto ∧ ∃ q, seq.quals[i]? = some q ∧ q < args.min_qscore) := by
  induction n with
  | zero =>
    intro to_ t1 h
    simp only [startSearch, Option.some.injEq] at h
    subst h
    exact ⟨le_refl _, le_refl _, Or.inl rfl, fun i h1 h2 => by omega⟩
  | succ n ih =>
    intro to_ t1 h
    simp only [startSearch] at h
    split at h
    · rename_i hle
      split at h
      · cases h
      · rename_i q hq
        split at h
        · rename_i hlow
          obtain ⟨h1, h2, h3, h4⟩ := ih _ _ h
          refine ⟨by omega, by omega, ?_, ?_⟩
          · rcases h3 with h3 | h3 | h3
            · left; omega
            · right; left; exact h3
            · right; right; exact h3
          · intro i hi1 hi2
            by_cases hi : i = to_
            · subst hi
              exact ⟨hle, q, hq, hlow⟩
            · exact h4 i (by omega) hi2
        · rename_i hok
          simp only [Option.some.injEq] at h
          subst h
          exact ⟨le_refl _, by omega, Or.inr (Or.inr ⟨q, hq, by omega⟩),
            fun i h1 h2 => by omega⟩
    · rename_i hgt
      simp only [Option.some.injEq] at h
      subst h
      exact ⟨le_refl _, by omega, Or.inr (Or.inl (by omega)), fun i h1 h2 => by omega⟩

theorem startSearch_start (args : args_t) (seq : seq_t) (maxto : Int) (to_ t1 : Nat)
    (h : startSearch args seq maxto (maxto + 1 - to_).toNat to_ = some t1)
    (hle : (t1 : Int) ≤ maxto) :
    to_ ≤ t1 ∧ ∃ q, seq.quals[t1]? = some q ∧ args.min_qscore ≤ q := by
  obtain ⟨h1, _, h3, _⟩ := startSearch_spec args seq maxto _ _ _ h
  refine ⟨h1, ?_⟩
  rcases h3 with h3 | h3 | h3
  · omega
  · omega
  · exact h3

theorem startSearch_after_low (args : args_t) (seq : seq_t) (maxto : Int) (to_ t1 : Nat)
    (q : Int) (hq : seq.quals[to_]? = some q) (hlow : q < args.min_qscore)
    (h : startSearch args seq maxto (maxto + 1 - to_).toNat to_ = some t1)
    (hle : (t1 : Int) ≤ maxto) : to_ < t1 := by
  obtain ⟨h1, hq1⟩ := startSearch_start args seq maxto to_ t1 h hle
  obtain ⟨q1, hq2, hq3⟩ := hq1
  by_contra hcon
  have : t1 = to_ := by omega
  subst this
  rw [hq] at hq2
  cases hq2
  omega

theorem innerScan_general (args : args_t) (seq : seq_t) (n : Nat) :
    ∀ (to_ : Nat) (a : Int) (t2 : Nat) (a2 : Int),
      innerScan args seq n to_ a = some (t2, a2) →
      to_ ≤ t2 ∧ t2 ≤ to_ + n ∧ a ≤ a2 ∧
      ((to_ : Int) ≤ seq.length → (t2 : Int) ≤ seq.length) ∧
      (∀ i, to_ ≤ i → i < t2 → (i : Int) < seq.length ∧ i < seq.seq.length ∧
        i < seq.quals.length) ∧
      (t2 = to_ + n ∨ seq.length ≤ (t2 : Int) ∨
        ∃ q, seq.quals[t2]? = some q ∧ q < args.min_qscore) ∧
      (∀ q, 0 < n → (to_ : Int) < seq.length → seq.quals[to_]? = some q →
        args.min_qscore ≤ q → to_ < t2) := by
  induction n with
  | zero =>
    intro to_ a t2 a2 h
    simp only [innerScan, Option.some.injEq, Prod.mk.injEq] at h
    obtain ⟨rfl, rfl⟩ := h
    exact ⟨le_refl _, le_refl _, le_refl _, fun h => h, fun i h1 h2 => by omega, Or.inl rfl,
      fun q h => by omega⟩
  | succ n ih =>
    intro to_ a t2 a2 h
    simp only [innerScan] at h
    split at h
    · rename_i hlt
      split at h
      · rename_i curr q hc hq
        have hin : to_ < seq.seq.length ∧ to_ < seq.quals.length :=
          ⟨(List.getElem?_eq_some.1 hc).1, (List.getElem?_eq_some.1 hq).1⟩
        have step : ∀ a1, a ≤ a1 → innerScan args seq n (to_ + 1) a1 = some (t2, a2) →
            to_ ≤ t2 ∧ t2 ≤ to_ + (n + 1) ∧ a ≤ a2 ∧
            ((to_ : Int) ≤ seq.length → (t2 : Int) ≤ seq.length) ∧
            (∀ i, to_ ≤ i → i < t2 → (i : Int) < seq.length ∧ i < seq.seq.length ∧
              i < seq.quals.length) ∧
            (t2 = to_ + (n + 1) ∨ seq.length ≤ (t2 : Int) ∨
              ∃ q, seq.quals[t2]? = some q ∧ q < args.min_qscore) ∧
            (∀ q, 0 < n + 1 → (to_ : Int) < seq.length → seq.quals[to_]? = some q →
              args.min_qscore ≤ q → to_ < t2) := by
          intro a1 ha1 h'
          obtain ⟨h1, h2, h3, h4, h5, h6, _⟩ := ih _ _ _ _ h'
          refine ⟨by omega, by omega, by omega, fun _ => h4 (by push_cast; omega), ?_, ?_,
            fun _ _ _ _ _ => by omega⟩
          · intro i hi1 hi2
            by_cases hi : i = to_
            · subst hi; exact ⟨hlt, hin.1, hin.2⟩
            · exact h5 i (by omega) hi2
          · rcases h6 with h6 | h6 | h6
            · left; omega
            · right; left; exact h6
            · right; right; exact h6
        split at h
        · rename_i hlow
          split at h
          · exact step a (le_refl _) h
          · split at h
            · exact step (a + 1) (by omega) h
            · simp only [Option.some.injEq, Prod.mk.injEq] at h
              obtain ⟨rfl, rfl⟩ := h
              refine ⟨le_refl _, by omega, le_refl _, fun h => h, fun i h1 h2 => by omega,
                Or.inr (Or.inr ⟨q, hq, hlow⟩), ?_⟩
              intro q' _ _ hq' hok
              rw [hq] at hq'
              cases hq'
              omega
        · exact step a (le_refl _) h
      · cases h
    · rename_i hge
      simp only [Option.some.injEq, Prod.mk.injEq] at h
      obtain ⟨rfl, rfl⟩ := h
      exact ⟨le_refl _, by omega, le_refl _, fun h => h, fun i h1 h2 => by omega,
        Or.inr (Or.inl (by omega)), fun q _ h => by omega⟩
theorem fragmentLoop_start_ge (args : args_t) (seq : seq_t) (maxto : Int) (fuel : Nat) :
    ∀ to_ : Nat, ∀ f ∈ (fragmentLoop args seq maxto fuel to_).frags, (to_ : Int) ≤ f.start := by
  induction fuel with
  | zero => intro to_ f hf; simp [fragmentLoop] at hf
  | succ fuel ih =>
    intro to_ f hf
    unfold fragmentLoop at hf
    split at hf
    · simp at hf
    · rename_i to1 hs
      have h1 := (startSearch_spec args seq maxto _ _ _ hs).1
      split at hf
      · simp at hf
      · split at hf
        · simp at hf
        · rename_i to2 nambigs hi
          have h2 := (innerScan_general args seq _ _ _ _ _ hi).1
          have hrec : ∀ g ∈ (fragmentLoop args seq maxto fuel to2).frags,
              (to_ : Int) ≤ g.start := by
            intro g hg
            have := ih to2 g hg
            omega
          split at hf
          · exact hrec f hf
          · split at hf
            · simp at hf
              subst hf
              simp only
              omega
            · simp only [Output.emit, List.mem_cons] at hf
              rcases hf with hf | hf
              · subst hf
                simp only
                omega
              · exact hrec f hf

theorem fragmentLoop_range (args : args_t) (seq : seq_t) (hL : 1 ≤ args.min_length)
    (fuel : Nat) :
    ∀ to_ : Nat, ∀ f ∈ (fragmentLoop args seq (seq.length - args.min_length) fuel to_).frags,
      f.start < f.stop ∧ f.stop ≤ seq.length := by
  induction fuel with
  | zero => intro to_ f hf; simp [fragmentLoop] at hf
  | succ fuel ih =>
    intro to_ f hf
    unfold fragmentLoop at hf
    split at hf
    · simp at hf
    · rename_i to1 hs
      split at hf
      · simp at hf
      · rename_i hle
        obtain ⟨_, q, hq, hok⟩ := startSearch_start args seq _ to_ to1 hs (by omega)
        split at hf
        · simp at hf
        · rename_i to2 nambigs hi
          obtain ⟨_, _, _, h4, _, _, h7⟩ := innerScan_general args seq _ _ _ _ _ hi
          have hlt : to1 < to2 := h7 q (by omega) (by omega) hq hok
          have hst : (to2 : Int) ≤ seq.length := h4 (by omega)
          split at hf
          · exact ih to2 f hf
          · split at hf
            · simp at hf
              subst hf
              simp only
              omega
            · simp only [Output.emit, List.mem_cons] at hf
              rcases hf with hf | hf
              · subst hf
                simp only
                omega
              · exact ih to2 f hf

theorem fragmentLoop_blocked (args : args_t) (seq : seq_t) (hL : 1 ≤ args.min_length)
    (fuel to_ : Nat)
    (hb : seq.length ≤ (to_ : Int) ∨ ∃ q, seq.quals[to_]? = some q ∧ q < args.min_qscore) :
    ∀ f ∈ (fragmentLoop args seq (seq.length - args.min_length) fuel to_).frags,
      (to_ : Int) < f.start := by
  cases fuel with
  | zero => intro f hf; simp [fragmentLoop] at hf
  | succ fuel =>
    intro f hf
    unfold fragmentLoop at hf
    split at hf
    · simp at hf
    · rename_i to1 hs
      split at hf
      · simp at hf
      · rename_i hle
        have h1 := (startSearch_spec args seq _ _ _ _ hs).1
        have hlt : to_ < to1 := by
          rcases hb with hb | ⟨q, hq, hlow⟩
          · omega
          · exact startSearch_after_low args seq _ to_ to1 q hq hlow hs (by omega)
        split at hf
        · simp at hf
        · rename_i to2 nambigs hi
          have h2 := (innerScan_general args seq _ _ _ _ _ hi).1
          have hrec : ∀ g ∈ (fragmentLoop args seq (seq.length - args.min_length) fuel to2).frags,
              (to_ : Int) < g.start := by
            intro g hg
            have := fragmentLoop_start_ge args seq _ fuel to2 g hg
            omega
          split at hf
          · exact hrec f hf
          · split at hf
            · simp at hf
              subst hf
              simp only
              omega
            · simp only [Output.emit, List.mem_cons] at hf
              rcases hf with hf | hf
              · subst hf
                simp only
                omega
              · exact hrec f hf

theorem fragmentLoop_pairwise (args : args_t) (seq : seq_t) (hL : 1 ≤ args.min_length)
    (fuel : Nat) :
    ∀ to_ : Nat, List.Pairwise (fun a b : Fragment => a.stop < b.start)
      (fragmentLoop args seq (seq.length - args.min_length) fuel to_).frags := by
  induction fuel with
  | zero => intro to_; simp [fragmentLoop]
  | succ fuel ih =>
    intro to_
    unfold fragmentLoop
    split
    · simp
    · rename_i to1 hs
      split
      · simp
      · rename_i hle
        split
        · simp
        · rename_i to2 nambigs hi
          split
          · exact ih to2
          · split
            · simp
            · simp only [Output.emit, List.pairwise_cons]
              refine ⟨?_, ih to2⟩
              intro g hg
              obtain ⟨_, _, _, _, _, h6, _⟩ := innerScan_general args seq _ _ _ _ _ hi
              apply fragmentLoop_blocked args seq hL fuel to2 _ g hg
              rcases h6 with h6 | h6 | h6
              · left; omega
              · left; exact h6
              · right; exact h6

theorem fragmentLoop_terminates (args : args_t) (seq : seq_t) (hL : 1 ≤ args.min_length)
    (fuel : Nat) :
    ∀ to_ : Nat, 1 ≤ fuel → seq.length + 1 ≤ (fuel : Int) + to_ →
      (fragmentLoop args seq (seq.length - args.min_length) fuel to_).status ≠ .running := by
  induction fuel with
  | zero => intro to_ h; omega
  | succ fuel ih =>
    intro to_ _ hf
    unfold fragmentLoop
    split
    · simp
    · rename_i to1 hs
      split
      · simp
      · rename_i hle
        obtain ⟨h1, q, hq, hok⟩ := startSearch_start args seq _ to_ to1 hs (by omega)
        split
        · simp
        · rename_i to2 nambigs hi
          obtain ⟨_, _, _, _, _, _, h7⟩ := innerScan_general args seq _ _ _ _ _ hi
          have hlt : to1 < to2 := h7 q (by omega) (by omega) hq hok
          have hrec := ih to2 (by omega) (by push_cast at hf ⊢; omega)
          split
          · exact hrec
          · split
            · simp
            · simpa [Output.emit] using hrec
theorem lowCount_self (args : args_t) (seq : seq_t) (a : Nat) : lowCount args seq a a = 0 := by
  simp [lowCount]

theorem lowCount_step (args : args_t) (seq : seq_t) (a b : Nat) (h : a < b) :
    lowCount args seq a b = (if isLow args seq a then 1 else 0) + lowCount args seq (a + 1) b := by
  unfold lowCount
  have e : b - a = (b - (a + 1)) + 1 := by omega
  rw [e, List.range'_succ, List.countP_cons]
  split <;> omega

theorem innerScan_ascii (args : args_t) (seq : seq_t)
    (hascii : ∀ c ∈ seq.seq, 0 ≤ c ∧ c ≤ 127) (n : Nat) :
    ∀ (to_ : Nat) (a : Int) (t2 : Nat) (a2 : Int),
      innerScan args seq n to_ a = some (t2, a2) →
      a2 = a + (lowCount args seq to_ t2 : Nat) ∧
      (∀ i, to_ ≤ i → i < t2 → ∃ q c, seq.quals[i]? = some q ∧ seq.seq[i]? = some c ∧
        (q < args.min_qscore → args.ambig = true ∧ (c = 78 ∨ c = 110))) := by
  induction n with
  | zero =>
    intro to_ a t2 a2 h
    simp only [innerScan, Option.some.injEq, Prod.mk.injEq] at h
    obtain ⟨rfl, rfl⟩ := h
    exact ⟨by simp [lowCount_self], fun i h1 h2 => by omega⟩
  | succ n ih =>
    intro to_ a t2 a2 h
    have hge := (innerScan_general args seq _ _ _ _ _ h).1
    simp only [innerScan] at h
    split at h
    · split at h
      · rename_i curr q hc hq
        have hne := toupper_ascii_ne curr (hascii curr (List.getElem?_mem hc)).1
        simp only [hne, and_false, if_false] at h
        split at h
        · rename_i hlow
          split at h
          · rename_i hamb
            have hge1 := (innerScan_general args seq _ _ _ _ _ h).1
            obtain ⟨h1, h2⟩ := ih _ _ _ _ h
            constructor
            · rw [h1, lowCount_step args seq to_ t2 (by omega)]
              have : isLow args seq to_ = true := by simp [isLow, hq, hlow]
              simp only [this, if_true]
              push_cast
              ring
            · intro i hi1 hi2
              by_cases hi : i = to_
              · subst hi
                exact ⟨q, curr, hq, hc, fun _ => hamb⟩
              · exact h2 i (by omega) hi2
          · simp only [Option.some.injEq, Prod.mk.injEq] at h
            obtain ⟨rfl, rfl⟩ := h
            exact ⟨by simp [lowCount_self], fun i h1 h2 => by omega⟩
        · rename_i hok
          have hge1 := (innerScan_general args seq _ _ _ _ _ h).1
          obtain ⟨h1, h2⟩ := ih _ _ _ _ h
          constructor
          · rw [h1, lowCount_step args seq to_ t2 (by omega)]
            have : isLow args seq to_ = false := by simp [isLow, hq, hok]
            simp [this]
          · intro i hi1 hi2
            by_cases hi : i = to_
            · subst hi
              exact ⟨q, curr, hq, hc, fun h => absurd h hok⟩
            · exact h2 i (by omega) hi2
      · cases h
    · simp only [Option.some.injEq, Prod.mk.injEq] at h
      obtain ⟨rfl, rfl⟩ := h
      exact ⟨by simp [lowCount_self], fun i h1 h2 => by omega⟩

theorem fragmentLoop_sound (args : args_t) (seq : seq_t) (maxto : Int)
    (hascii : ∀ c ∈ seq.seq, 0 ≤ c ∧ c ≤ 127) (fuel : Nat) :
    ∀ to_ : Nat, ∀ f ∈ (fragmentLoop args seq maxto fuel to_).frags,
      FragmentSound args seq f := by
  induction fuel with
  | zero => intro to_ f hf; simp [fragmentLoop] at hf
  | succ fuel ih =>
    intro to_ f hf
    unfold fragmentLoop at hf
    split at hf
    · simp at hf
    · rename_i to1 hs
      split at hf
      · simp at hf
      · rename_i hle
        obtain ⟨_, hq⟩ := startSearch_start args seq _ to_ to1 hs (by omega)
        split at hf
        · simp at hf
        · rename_i to2 nambigs hi
          obtain ⟨h1, h2⟩ := innerScan_ascii args seq hascii _ _ _ _ _ hi
          have hthis : FragmentSound args seq ⟨to1, to2, nambigs⟩ :=
            ⟨to1, to2, rfl, rfl, hq, h2, by rw [h1]; simp⟩
          split at hf
          · exact ih to2 f hf
          · split at hf
            · simp at hf
              subst hf
              exact hthis
            · simp only [Output.emit, List.mem_cons] at hf
              rcases hf with hf | hf
              · subst hf
                exact hthis
              · exact ih to2 f hf
theorem lowCount_zero (args : args_t) (seq : seq_t) (a b : Nat)
    (h : ∀ i, a ≤ i → i < b → isLow args seq i = false) : lowCount args seq a b = 0 := by
  unfold lowCount
  rw [List.countP_eq_zero]
  intro i hi
  rw [List.mem_range'_1] at hi
  simp [h i hi.1 (by omega)]

theorem startSearch_some (args : args_t) (seq : seq_t) (maxto : Int)
    (hin : ∀ i : Nat, (i : Int) ≤ maxto → i < seq.quals.length) (n : Nat) :
    ∀ to_ : Nat, ∃ t1, startSearch args seq maxto n to_ = some t1 := by
  induction n with
  | zero => intro to_; exact ⟨to_, rfl⟩
  | succ n ih =>
    intro to_
    simp only [startSearch]
    split
    · rename_i hle
      have := hin to_ hle
      rw [List.getElem?_eq_getElem this]
      simp only
      split
      · exact ih _
      · exact ⟨_, rfl⟩
    · exact ⟨_, rfl⟩

theorem innerScan_some (args : args_t) (seq : seq_t)
    (hin : ∀ i : Nat, (i : Int) < seq.length → i < seq.seq.length ∧ i < seq.quals.length)
    (n : Nat) :
    ∀ (to_ : Nat) (a : Int), ∃ r, innerScan args seq n to_ a = some r := by
  induction n with
  | zero => intro to_ a; exact ⟨_, rfl⟩
  | succ n ih =>
    intro to_ a
    simp only [innerScan]
    split
    · rename_i hlt
      have := hin to_ hlt
      rw [List.getElem?_eq_getElem this.1, List.getElem?_eq_getElem this.2]
      simp only
      split
      · split
        · exact ih _ _
        · split
          · exact ih _ _
          · exact ⟨_, rfl⟩
      · exact ih _ _
    · exact ⟨_, rfl⟩

theorem tagLoop_some (args : args_t) (seq : seq_t) (n : Nat) :
    ∀ (to_ : Nat) (m : Int), to_ + n ≤ seq.seq.length → to_ + n ≤ args.tag.length →
      ∃ r, tagLoop args seq n to_ m = some r := by
  induction n with
  | zero => intro to_ m _ _; exact ⟨_, rfl⟩
  | succ n ih =>
    intro to_ m h1 h2
    simp only [tagLoop]
    rw [List.getElem?_eq_getElem (by omega : to_ < seq.seq.length),
      List.getElem?_eq_getElem (by omega : to_ < args.tag.length)]
    simp only
    split
    · exact ih _ _ (by omega) (by omega)
    · exact ih _ _ (by omega) (by omega)

theorem fragmentLoop_no_fault (args : args_t) (seq : seq_t)
    (hs : (seq.seq.length : Int) = seq.length) (hq : (seq.quals.length : Int) = seq.length)
    (hL : 1 ≤ args.min_length) (fuel : Nat) :
    ∀ to_ : Nat,
      (fragmentLoop args seq (seq.length - args.min_length) fuel to_).status ≠ .fault := by
  induction fuel with
  | zero => intro to_; simp [fragmentLoop]
  | succ fuel ih =>
    intro to_
    unfold fragmentLoop
    obtain ⟨t1, h1⟩ := startSearch_some args seq (seq.length - args.min_length)
      (fun i hi => by omega) (seq.length - args.min_length + 1 - to_).toNat to_
    rw [h1]
    simp only
    split
    · simp
    · obtain ⟨r, h2⟩ := innerScan_some args seq (fun i hi => ⟨by omega, by omega⟩)
        (seq.length - t1).toNat t1 0
      rw [h2]
      simp only
      split
      · exact ih _
      · split
        · simp
        · simpa [Output.emit] using ih r.1
/-! ## Lemmas about the token reader and the parser -/

theorem rest_cons {file : FILE} {c : Int} {tl : List Int} (h : file.rest = c :: tl) :
    file.data[file.pos]? = some c ∧ file.data.drop (file.pos + 1) = tl := by
  unfold FILE.rest at h
  constructor
  · rw [← List.head?_drop, h]; rfl
  · rw [← List.tail_drop, h]; rfl

theorem rest_nil {file : FILE} (h : file.rest = []) : file.data[file.pos]? = none := by
  unfold FILE.rest at h
  rw [← List.head?_drop, h]; rfl

theorem fgetc_cons {file : FILE} {c : Int} {tl : List Int} (h : file.rest = c :: tl) :
    fgetc file = (c, { file with pos := file.pos + 1 }) := by
  simp [fgetc, (rest_cons h).1]

theorem fgetc_nil {file : FILE} (h : file.rest = []) :
    fgetc file = (EOF, { file with eof := true }) := by
  simp [fgetc, rest_nil h]

theorem fgetc_skip_ws_loop_eof (n : Nat) :
    ∀ (file : FILE) (pos : pos_t), file.rest.length < n →
      OnlyWhitespaceLeft file → (fgetc_skip_ws_loop n file pos).1 = EOF := by
  induction n with
  | zero => intro file pos h; omega
  | succ n ih =>
    intro file pos hlen hws
    unfold fgetc_skip_ws_loop
    cases hr : file.rest with
    | nil =>
      rw [fgetc_nil hr]
      simp [EOF, NL]
    | cons c tl =>
      rw [fgetc_cons hr]
      have hd : isDelim c = true := hws c (by rw [hr]; exact List.mem_cons_self _ _)
      have hd' : c = 32 ∨ c = 9 ∨ c = NL ∨ c = 13 := by
        simpa [isDelim, NL] using hd
      simp only [hd', if_true]
      have hrest : ({ file with pos := file.pos + 1 } : FILE).rest = tl := (rest_cons hr).2
      apply ih
      · rw [hrest]; rw [hr] at hlen; simp at hlen; omega
      · intro d hdm
        rw [hrest] at hdm
        exact hws d (by rw [hr]; exact List.mem_cons_of_mem _ hdm)

theorem fgetc_skip_ws_eof (file : FILE) (pos : pos_t) (hws : OnlyWhitespaceLeft file) :
    (fgetc_skip_ws file pos).1 = EOF := by
  unfold fgetc_skip_ws
  apply fgetc_skip_ws_loop_eof _ _ _ _ hws
  simp [FILE.rest]

theorem extend_until_loop_error (until_ : Int) (trim : Bool) (n : Nat) :
    ∀ (str : List Int) (total : Int) (file : FILE) (pos : pos_t) (e : Error),
      extend_until_loop until_ trim n str total file pos = .error e → e.isMismatch = false := by
  induction n with
  | zero =>
    intro str total file pos e h
    simp only [extend_until_loop] at h
    cases h
    rfl
  | succ n ih =>
    intro str total file pos e h
    unfold extend_until_loop at h
    dsimp only at h
    repeat' first
      | (cases h; done)
      | (cases h; rfl)
      | exact ih _ _ _ _ _ h
      | split at h

theorem extend_until_error (str : List Int) (until_ : Int) (file : FILE) (pos : pos_t)
    (trim : Bool) (e : Error) (h : extend_until str until_ file pos trim = .error e) :
    e.isMismatch = false :=
  extend_until_loop_error _ _ _ _ _ _ _ _ h

theorem step_error (hdr sep : Int) (filetype : filetype_t) (m : Machine) (e : Error)
    (h : step hdr sep filetype m = .error e) : e.isMismatch = false := by
  unfold step at h
  dsimp only at h
  repeat' first
    | (cases h; done)
    | (cases h; rfl)
    | (rename_i e1 he; cases h; exact extend_until_error _ _ _ _ _ _ he)
    | split at h

theorem machine_error (hdr sep : Int) (filetype : filetype_t) (n : Nat) :
    ∀ (m : Machine) (e : Error), machine hdr sep filetype n m = .error e →
      e.isMismatch = false := by
  induction n with
  | zero => intro m e h; simp only [machine] at h; cases h; rfl
  | succ n ih =>
    intro m e h
    unfold machine at h
    repeat' first
      | (cases h; done)
      | exact ih _ _ h
      | (rename_i e1 he; cases h; exact step_error _ _ _ _ _ he)
      | split at h

theorem next_read_error (p : parser_t) (seq : seq_t) (e : Error)
    (h : next_read p seq = .error e) : e.isMismatch = false := by
  unfold next_read at h
  dsimp only at h
  repeat' first
    | (cases h; done)
    | (cases h; rfl)
    | (rename_i e1 he; cases h; exact machine_error _ _ _ _ _ _ he)
    | split at h

theorem next_read_fastq (p : parser_t) (seq : seq_t) (file : FILE)
    (h : p.fastq = some file) :
    next_read p seq =
      match machine 64 43 .FASTQ 4 ⟨file, p.fpos, p.fstate, p.qid, p.qs, seq⟩ with
      | .error e => .error e
      | .ok (more, m) =>
        .ok (more, false,
          { p with fastq := some m.file, fpos := m.pos, fstate := m.state,
                   qid := m.qid, qs := m.qs }, m.seq) := by
  unfold next_read
  simp only [h, Option.isSome_some, if_true, Option.isNone_some]
  cases machine 64 43 .FASTQ 4 ⟨file, p.fpos, p.fstate, p.qid, p.qs, seq⟩ with
  | error e => rfl
  | ok r =>
    obtain ⟨more, m⟩ := r
    cases more <;> cases p.qual <;> simp

theorem next_read_fasta (p : parser_t) (seq : seq_t) (file qfile : FILE)
    (h1 : p.fastq = none) (h2 : p.fasta = some file) (h3 : p.qual = some qfile) :
    next_read p seq =
      match machine 62 62 .FASTA 4 ⟨file, p.fpos, p.fstate, p.qid, p.qs, seq⟩ with
      | .error e => .error e
      | .ok (false, m) =>
        .ok (false, false,
          { p with fasta := some m.file, fpos := m.pos, fstate := m.state,
                   qid := m.qid, qs := m.qs }, m.seq)
      | .ok (true, m) =>
        match machine 62 62 .QUAL 4 ⟨qfile, p.qpos, p.qstate, m.qid, m.qs, m.seq⟩ with
        | .error e => .error e
        | .ok (more2, m2) =>
          .ok (more2, true,
            { p with fasta := some m.file, fpos := m.pos, fstate := m.state,
                     qual := some m2.file, qpos := m2.pos, qstate := m2.state,
                     qid := m2.qid, qs := m2.qs }, m2.seq) := by
  unfold next_read
  simp only [h1, h2, h3, Option.isSome_none, Bool.false_eq_true, if_false, Option.isNone_none,
    if_true]
  cases machine 62 62 .FASTA 4 ⟨file, p.fpos, p.fstate, p.qid, p.qs, seq⟩ with
  | error e => rfl
  | ok r =>
    obtain ⟨more, m⟩ := r
    cases more
    · simp
    · simp only [Bool.not_eq_true, Bool.true_eq_false, if_false]
      cases machine 62 62 .QUAL 4 ⟨qfile, p.qpos, p.qstate, m.qid, m.qs, m.seq⟩ with
      | error e => rfl
      | ok r2 => rfl

theorem next_read_fastq_flag (p : parser_t) (seq : seq_t) (hq : p.fastq.isSome = true)
    (more flag : Bool) (p1 : parser_t) (s1 : seq_t)
    (h : next_read p seq = .ok (more, flag, p1, s1)) : flag = false := by
  obtain ⟨file, hf⟩ := Option.isSome_iff_exists.1 hq
  rw [next_read_fastq p seq file hf] at h
  split at h
  · cases h
  · cases h; rfl

theorem machine_exhausted (hdr sep : Int) (filetype : filetype_t) (n : Nat) (m : Machine)
    (hs : m.state = .UNKNOWN) (hws : OnlyWhitespaceLeft m.file) (hh : hdr ≠ EOF) :
    machine hdr sep filetype (n + 1) m =
      .ok (false, { m with file := (fgetc_skip_ws m.file m.pos).2.1,
                           pos := (fgetc_skip_ws m.file m.pos).2.2 }) := by
  have he := fgetc_skip_ws_eof m.file m.pos hws
  have hne : ¬ EOF = hdr := fun h => hh h.symm
  simp only [machine, step, hs, hne, he, if_false, if_true]

theorem next_of_read_false (p : parser_t) (seq : seq_t) (flag : Bool) (p1 : parser_t)
    (s1 : seq_t) (h : next_read p seq = .ok (false, flag, p1, s1)) :
    next p seq = .ok (false, p1, s1) := by
  simp only [next, h]

theorem next_of_read_true (p : parser_t) (seq : seq_t) (flag : Bool) (p1 : parser_t)
    (s1 : seq_t) (h : next_read p seq = .ok (true, flag, p1, s1)) :
    next p seq =
      if flag = true ∧ s1.seq.length ≠ s1.quals.length then
        .error (.parse p1.qpos (.length_mismatch s1.seq.length s1.quals.length))
      else .ok (true, p1, { s1 with length := s1.seq.length }) := by
  simp only [next, h]

theorem next_read_fasta_flag (p : parser_t) (seq : seq_t)
    (h1 : p.fastq = none) (h2 : p.qual.isSome = true)
    (flag : Bool) (p1 : parser_t) (s1 : seq_t)
    (h : next_read p seq = .ok (true, flag, p1, s1)) : flag = true := by
  obtain ⟨qfile, h3⟩ := Option.isSome_iff_exists.1 h2
  cases h4 : p.fasta with
  | none => simp [next_read, h1, h4] at h
  | some file =>
    rw [next_read_fasta p seq file qfile h1 h4 h3] at h
    repeat' first
      | (cases h; done)
      | (cases h; rfl)
      | split at h

theorem rest_advance (file : FILE) (k : Nat) (e : Bool) :
    (⟨file.data, file.pos + k, e⟩ : FILE).rest = file.rest.drop k := by
  simp [FILE.rest, List.drop_drop, Nat.add_comm]

theorem fgets_chunk_line (l tl : List Int) (hl : ∀ c ∈ l, c ≠ NL) :
    ∀ n, l.length < n → fgets_chunk n (l ++ NL :: tl) = l ++ [NL] := by
  induction l with
  | nil =>
    intro n hn
    obtain ⟨m, rfl⟩ : ∃ m, n = m + 1 := ⟨n - 1, by simp at hn; omega⟩
    simp [fgets_chunk]
  | cons c cs ih =>
    intro n hn
    obtain ⟨m, rfl⟩ : ∃ m, n = m + 1 := ⟨n - 1, by simp at hn; omega⟩
    have hc : c ≠ NL := hl c (List.mem_cons_self _ _)
    rw [List.cons_append]
    simp only [fgets_chunk, hc, if_false]
    rw [ih (fun d hd => hl d (List.mem_cons_of_mem _ hd)) m (by simp at hn; omega)]
    rfl

theorem fgets_line (file : FILE) (l tl : List Int) (hr : file.rest = l ++ NL :: tl)
    (hl : ∀ c ∈ l, c ≠ NL) (hlen : l.length ≤ 254) :
    fgets 256 file = (some (l ++ [NL]), ⟨file.data, file.pos + (l.length + 1), file.eof⟩) := by
  have hc : fgets_chunk (256 - 1) (file.data.drop file.pos) = l ++ [NL] := by
    have : file.data.drop file.pos = l ++ NL :: tl := hr
    rw [this]
    exact fgets_chunk_line l tl hl _ (by omega)
  simp only [fgets, hc]
  simp

theorem fgets_nil (file : FILE) (hr : file.rest = []) :
    fgets 256 file = (none, { file with eof := true }) := by
  have : file.data.drop file.pos = [] := hr
  simp [fgets, this, fgets_chunk]

theorem strlen_eq (buf : List Int) (h : ∀ c ∈ buf, c ≠ 0) : strlen buf = buf.length := by
  unfold strlen
  congr 1
  rw [List.takeWhile_eq_self_iff]
  intro c hc
  simpa using h c hc

theorem forLoop_line (until_ : Int) (buf : List Int) (len : Nat) (file : FILE)
    (l : List Int) :
    ∀ (pre str : List Int) (total : Int) (pos : pos_t), buf = pre ++ l ++ [NL] →
      (∀ c ∈ l, c ≠ NL ∧ c ≠ until_) → until_ ≠ NL →
      forLoop until_ buf len file (l ++ [NL]) pre.length str total pos =
        .left (str ++ (pre ++ l)) (total + ((pre ++ l).length : Nat))
          { pos with col := pos.col + (l.length : Nat) } := by
  induction l with
  | nil =>
    intro pre str total pos hb _ hu
    have hu' : ¬ NL = until_ := fun h => hu h.symm
    simp only [List.nil_append, forLoop, true_or, if_true, hu', if_false, List.append_nil]
    subst hb
    simp
  | cons c cs ih =>
    intro pre str total pos hb hl hu
    have hc := hl c (List.mem_cons_self _ _)
    rw [List.cons_append]
    simp only [forLoop, hc.1, hc.2, or_self, if_false]
    have := ih (pre ++ [c]) str total { pos with col := pos.col + 1 }
      (by rw [hb]; simp) (fun d hd => hl d (List.mem_cons_of_mem _ hd)) hu
    simp only [List.length_append, List.length_singleton] at this
    rw [this]
    simp only [List.append_assoc, List.singleton_append, List.length_cons, List.length_append]
    congr 1
    · push_cast; ring
    · simp only [pos_t.mk.injEq, true_and]; push_cast; ring

theorem fgetc_skip_ws_loop_char (ws : List Int) (c : Int) (tl : List Int)
    (hws : ∀ w ∈ ws, isDelim w = true) (hc : isDelim c = false) :
    ∀ (n : Nat) (file : FILE) (pos : pos_t), file.rest = ws ++ c :: tl → ws.length < n →
      ∃ pos1, fgetc_skip_ws_loop n file pos =
        (c, ⟨file.data, file.pos + (ws.length + 1), file.eof⟩, pos1) := by
  induction ws with
  | nil =>
    intro n file pos hr hn
    obtain ⟨m, rfl⟩ : ∃ m, n = m + 1 := ⟨n - 1, by simp at hn; omega⟩
    have hc' : ¬ (c = 32 ∨ c = 9 ∨ c = NL ∨ c = 13) := by
      simpa [isDelim, NL] using hc
    simp only [fgetc_skip_ws_loop, fgetc_cons hr, hc', if_false, List.length_nil, Nat.zero_add]
    exact ⟨_, rfl⟩
  | cons w ws ih =>
    intro n file pos hr hn
    obtain ⟨m, rfl⟩ : ∃ m, n = m + 1 := ⟨n - 1, by simp at hn; omega⟩
    have hw : w = 32 ∨ w = 9 ∨ w = NL ∨ w = 13 := by
      simpa [isDelim, NL] using hws w (List.mem_cons_self _ _)
    rw [List.cons_append] at hr
    simp only [fgetc_skip_ws_loop, fgetc_cons hr, hw, if_true]
    have hr1 : ({ file with pos := file.pos + 1 } : FILE).rest = ws ++ c :: tl := (rest_cons hr).2
    obtain ⟨pos1, h1⟩ := ih (fun x hx => hws x (List.mem_cons_of_mem _ hx)) m
      { file with pos := file.pos + 1 } _ hr1 (by simp at hn; omega)
    refine ⟨pos1, ?_⟩
    rw [h1]
    simp only [List.length_cons]
    congr 3
    omega

theorem fgetc_skip_ws_char (file : FILE) (pos : pos_t) (ws : List Int) (c : Int)
    (tl : List Int) (hr : file.rest = ws ++ c :: tl)
    (hws : ∀ w ∈ ws, isDelim w = true) (hc : isDelim c = false) :
    ∃ pos1, fgetc_skip_ws file pos =
      (c, ⟨file.data, file.pos + (ws.length + 1), file.eof⟩, pos1) := by
  unfold fgetc_skip_ws
  apply fgetc_skip_ws_loop_char ws c tl hws hc _ _ _ hr
  have : file.rest.length = file.data.length - file.pos := by simp [FILE.rest]
  rw [hr] at this
  simp at this
  omega

theorem fgetc_skip_ws_loop_end (ws : List Int) (hws : ∀ w ∈ ws, isDelim w = true) :
    ∀ (n : Nat) (file : FILE) (pos : pos_t), file.rest = ws → ws.length < n →
      ∃ pos1, fgetc_skip_ws_loop n file pos =
        (EOF, ⟨file.data, file.pos + ws.length, true⟩, pos1) := by
  induction ws with
  | nil =>
    intro n file pos hr hn
    obtain ⟨m, rfl⟩ : ∃ m, n = m + 1 := ⟨n - 1, by simp at hn; omega⟩
    have hc' : ¬ (EOF = 32 ∨ EOF = 9 ∨ EOF = NL ∨ EOF = 13) := by decide
    simp only [fgetc_skip_ws_loop, fgetc_nil hr, hc', if_false, List.length_nil, Nat.add_zero]
    exact ⟨_, rfl⟩
  | cons w ws ih =>
    intro n file pos hr hn
    obtain ⟨m, rfl⟩ : ∃ m, n = m + 1 := ⟨n - 1, by simp at hn; omega⟩
    have hw : w = 32 ∨ w = 9 ∨ w = NL ∨ w = 13 := by
      simpa [isDelim, NL] using hws w (List.mem_cons_self _ _)
    simp only [fgetc_skip_ws_loop, fgetc_cons hr, hw, if_true]
    have hr1 : ({ file with pos := file.pos + 1 } : FILE).rest = ws := (rest_cons hr).2
    obtain ⟨pos1, h1⟩ := ih (fun x hx => hws x (List.mem_cons_of_mem _ hx)) m
      { file with pos := file.pos + 1 } _ hr1 (by simp at hn; omega)
    refine ⟨pos1, ?_⟩
    rw [h1]
    simp only [List.length_cons]
    congr 3
    omega

theorem fgetc_skip_ws_end (file : FILE) (pos : pos_t) (ws : List Int)
    (hr : file.rest = ws) (hws : ∀ w ∈ ws, isDelim w = true) :
    ∃ pos1, fgetc_skip_ws file pos =
      (EOF, ⟨file.data, file.pos + ws.length, true⟩, pos1) := by
  unfold fgetc_skip_ws
  apply fgetc_skip_ws_loop_end ws hws _ _ _ hr
  have : file.rest.length = file.data.length - file.pos := by simp [FILE.rest]
  rw [hr] at this
  omega

theorem forLoop_until (until_ : Int) (buf : List Int) (len : Nat) (file : FILE)
    (l tl : List Int) :
    ∀ (pre str : List Int) (total : Int) (pos : pos_t), buf = pre ++ l ++ until_ :: tl →
      (∀ c ∈ l, c ≠ NL ∧ c ≠ until_) →
      ∃ pos1, forLoop until_ buf len file (l ++ until_ :: tl) pre.length str total pos =
        .returned (str ++ (pre ++ l)) (total + ((pre ++ l).length : Nat))
          (fseek_cur file ((((pre ++ l).length : Nat) : Int) - len + 1)) pos1 := by
  induction l with
  | nil =>
    intro pre str total pos hb _
    simp only [List.nil_append, forLoop, or_true, if_true, List.append_nil]
    subst hb
    refine ⟨pos, ?_⟩
    simp
  | cons c cs ih =>
    intro pre str total pos hb hl
    have hc := hl c (List.mem_cons_self _ _)
    rw [List.cons_append]
    simp only [forLoop, hc.1, hc.2, or_self, if_false]
    obtain ⟨pos1, h1⟩ := ih (pre ++ [c]) str total { pos with col := pos.col + 1 }
      (by rw [hb]; simp) (fun d hd => hl d (List.mem_cons_of_mem _ hd))
    simp only [List.length_append, List.length_singleton] at h1
    refine ⟨pos1, ?_⟩
    rw [h1]
    simp only [List.append_assoc, List.singleton_append, List.length_cons, List.length_append]
    have e : pre.length + 1 + cs.length = pre.length + (cs.length + 1) := by omega
    rw [e]

theorem extend_loop_line (until_ : Int) (trim : Bool) (n : Nat) (str : List Int) (total : Int)
    (file : FILE) (pos : pos_t) (l X : List Int) (hr : file.rest = l ++ NL :: X)
    (hl : ∀ c ∈ l, c ≠ NL ∧ c ≠ until_ ∧ c ≠ 0) (hlen : l.length ≤ 254) (hu : until_ ≠ NL) :
    ∃ pos1, extend_until_loop until_ trim (n + 1) str total file pos =
      if trim = true then
        after_eol_trim until_ n (str ++ l) (total + (l.length : Nat))
          ⟨file.data, file.pos + (l.length + 1), file.eof⟩ pos1
      else
        extend_until_loop until_ trim n (str ++ l ++ [NL]) (total + (l.length : Nat))
          ⟨file.data, file.pos + (l.length + 1), file.eof⟩ pos1 := by
  have hg := fgets_line file l X hr (fun c hc => (hl c hc).1) hlen
  have hlen0 : strlen (l ++ [NL]) = l.length + 1 := by
    rw [strlen_eq]
    · simp
    · intro c hc
      rcases List.mem_append.1 hc with h | h
      · exact (hl c h).2.2
      · simp at h; subst h; decide
  have htake : (l ++ [NL]).take (l.length + 1) = l ++ [NL] := by
    rw [List.take_of_length_le]; simp
  have hfor := forLoop_line until_ (l ++ [NL]) (l.length + 1)
    ⟨file.data, file.pos + (l.length + 1), file.eof⟩ l [] str total pos (by simp)
    (fun c hc => ⟨(hl c hc).1, (hl c hc).2.1⟩) hu
  simp only [List.length_nil, List.nil_append] at hfor
  have hlast : (l ++ [NL])[l.length + 1 - 1]? = some NL := by
    simp
  refine ⟨{ pos with line := pos.line + 1, col := 0 }, ?_⟩
  simp only [extend_until_loop, hg, hlen0, htake, hfor, hlast, if_true]
  cases trim
  · simp
  · simp [after_eol_trim]

theorem extend_loop_end_nil (until_ : Int) (trim : Bool) (n : Nat) (str : List Int)
    (total : Int) (file : FILE) (pos : pos_t) (hr : file.rest = []) :
    extend_until_loop until_ trim (n + 1) str total file pos =
      .ok (total, str, ⟨file.data, file.pos, true⟩, pos) := by
  simp only [extend_until_loop, fgets_nil file hr]

theorem extend_loop_end_until (until_ : Int) (trim : Bool) (n : Nat) (str : List Int)
    (total : Int) (file : FILE) (pos : pos_t) (t : List Int)
    (hr : file.rest = until_ :: t) (h0 : ∀ c ∈ fgets_chunk 255 (until_ :: t), c ≠ 0) :
    extend_until_loop until_ trim (n + 1) str total file pos =
      .ok (total, str, ⟨file.data, file.pos + 1, false⟩, pos) := by
  obtain ⟨ch, hch⟩ : ∃ ch, fgets_chunk 255 (until_ :: t) = until_ :: ch := by
    simp only [fgets_chunk]
    split
    · exact ⟨[], rfl⟩
    · exact ⟨_, rfl⟩
  have hd : file.data.drop file.pos = until_ :: t := hr
  have hg : fgets 256 file = (some (until_ :: ch),
      ⟨file.data, file.pos + (ch.length + 1),
        file.eof || (decide (ch.length + 1 < 255) && (until_ :: ch).getLast? != some NL)⟩) := by
    simp only [fgets, hd, hch]
    simp
  rw [hch] at h0
  have hlen0 : strlen (until_ :: ch) = ch.length + 1 := by
    rw [strlen_eq _ h0]; simp
  simp only [extend_until_loop, hg, hlen0]
  rw [List.take_of_length_le (by simp)]
  simp only [forLoop, or_true, if_true, List.take_zero, List.append_nil]
  simp only [fseek_cur]
  rw [if_neg (by push_cast; omega)]
  simp only [Nat.cast_zero, add_zero]
  have e : ((((file.pos + (ch.length + 1) : Nat) : Int)) + (0 - ((ch.length + 1 : Nat) : Int) + 1)).toNat
      = file.pos + 1 := by
    push_cast
    omega
  rw [e]

theorem linesText_cons (l : List Int) (more : List (List Int)) :
    linesText (l :: more) = l ++ NL :: linesText more := by
  simp [linesText]

theorem linesText_nil : linesText [] = [] := rfl

theorem linesText_length (lines : List (List Int)) :
    (linesText lines).length = lines.flatten.length + lines.length := by
  induction lines with
  | nil => rfl
  | cons l more ih =>
    rw [linesText_cons]
    simp only [List.length_append, List.length_cons, ih, List.flatten_cons]
    omega

theorem extend_loop_lines_notrim (tail : List Int) (htail : TailOK tail)
    (lines : List (List Int)) :
    ∀ (n : Nat) (str : List Int) (total : Int) (file : FILE) (pos : pos_t),
      file.rest = linesText lines ++ tail → file.eof = false →
      (∀ l ∈ lines, LineOK l) → lines.length < n →
      ∃ pos1, extend_until_loop 62 false n str total file pos =
        .ok (total + (lines.flatten.length : Nat), str ++ linesText lines,
          fileAfter file (linesText lines).length tail, pos1) := by
  induction lines with
  | nil =>
    intro n str total file pos hr he _ hn
    obtain ⟨m, rfl⟩ : ∃ m, n = m + 1 := ⟨n - 1, by simp at hn; omega⟩
    simp only [linesText_nil, List.nil_append] at hr
    rcases htail with h | ⟨t, h, h0⟩
    · subst h
      refine ⟨pos, ?_⟩
      rw [extend_loop_end_nil 62 false m str total file pos hr]
      simp [fileAfter, linesText_nil]
    · subst h
      refine ⟨pos, ?_⟩
      rw [extend_loop_end_until 62 false m str total file pos t hr h0]
      simp [fileAfter, linesText_nil]
  | cons l more ih =>
    intro n str total file pos hr he hok hn
    obtain ⟨m, rfl⟩ : ∃ m, n = m + 1 := ⟨n - 1, by simp at hn; omega⟩
    have hl := hok l (List.mem_cons_self _ _)
    rw [linesText_cons, List.append_assoc, List.cons_append] at hr
    obtain ⟨pos1, h1⟩ := extend_loop_line 62 false m str total file pos l _ hr
      (fun c hc => hl.2 c hc) hl.1 (by decide)
    simp only [Bool.false_eq_true, if_false] at h1
    have hr1 : (⟨file.data, file.pos + (l.length + 1), file.eof⟩ : FILE).rest
        = linesText more ++ tail := by
      rw [rest_advance, hr]
      have : l ++ NL :: (linesText more ++ tail) = (l ++ [NL]) ++ (linesText more ++ tail) := by
        simp
      rw [this, List.drop_left' (by simp)]
    obtain ⟨pos2, h2⟩ := ih m (str ++ l ++ [NL]) (total + (l.length : Nat))
      ⟨file.data, file.pos + (l.length + 1), file.eof⟩ pos1 hr1 he
      (fun x hx => hok x (List.mem_cons_of_mem _ hx)) (by simp at hn; omega)
    refine ⟨pos2, ?_⟩
    rw [h1, h2]
    simp only [linesText_cons, List.flatten_cons, List.length_append, List.length_cons,
      fileAfter]
    congr 2
    · push_cast; ring
    · congr 1
      · simp
      · congr 1
        split <;> simp <;> omega

theorem isLetter_facts {c : Int} (h : isLetter c = true) :
    c ≠ NL ∧ c ≠ 62 ∧ c ≠ 0 ∧ c ≠ EOF ∧ isDelim c = false := by
  simp only [isLetter, Bool.or_eq_true, Bool.and_eq_true, decide_eq_true_eq] at h
  simp only [NL, EOF, isDelim, ne_eq, Bool.or_eq_false_iff, decide_eq_false_iff_not]
  omega

theorem after_eol_lines (tail : List Int) (htail : tail = [] ∨ ∃ t, tail = 62 :: t)
    (more : List (List Int)) :
    ∀ (ws : List Int) (n : Nat) (str : List Int) (total : Int) (file : FILE) (pos : pos_t),
      file.rest = ws ++ (linesText more ++ tail) → file.eof = false →
      (∀ w ∈ ws, isDelim w = true) →
      (∀ l ∈ more, l.length ≤ 254 ∧ ∀ c ∈ l, isLetter c = true) → more.length ≤ n →
      ∃ pos1, after_eol_trim 62 n str total file pos =
        .ok (total + (more.flatten.length : Nat), str ++ more.flatten,
          fileAfter file (ws.length + (linesText more).length) tail, pos1) := by
  induction more with
  | nil =>
    intro ws n str total file pos hr he hws _ _
    simp only [linesText_nil, List.nil_append] at hr
    rcases htail with h | ⟨t, h⟩
    · subst h
      simp only [List.append_nil] at hr
      obtain ⟨pos1, h1⟩ := fgetc_skip_ws_end file pos ws hr hws
      refine ⟨pos1, ?_⟩
      simp [after_eol_trim, h1, fileAfter, linesText_nil]
    · subst h
      obtain ⟨pos1, h1⟩ := fgetc_skip_ws_char file pos ws 62 t hr hws (by decide)
      refine ⟨pos1, ?_⟩
      simp [after_eol_trim, h1, fileAfter, linesText_nil, he]
      omega
  | cons l more ih =>
    intro ws n str total file pos hr he hws hok hn
    cases l with
    | nil =>
      simp only [linesText_cons, List.nil_append, List.cons_append] at hr
      have hr' : file.rest = (ws ++ [NL]) ++ (linesText more ++ tail) := by
        rw [hr]; simp
      obtain ⟨pos1, h1⟩ := ih (ws ++ [NL]) n str total file pos hr' he
        (by
          intro w hw
          rcases List.mem_append.1 hw with h | h
          · exact hws w h
          · simp at h; subst h; decide)
        (fun x hx => hok x (List.mem_cons_of_mem _ hx)) (by simp at hn; omega)
      refine ⟨pos1, ?_⟩
      rw [h1]
      simp only [List.flatten_cons, List.nil_append, linesText_cons, List.length_append,
        List.length_cons, List.length_nil, fileAfter]
      congr 3
      split <;> simp <;> omega
    | cons c body =>
      obtain ⟨m, rfl⟩ : ∃ m, n = m + 1 := ⟨n - 1, by simp at hn; omega⟩
      have hl := hok (c :: body) (List.mem_cons_self _ _)
      have hc := isLetter_facts (hl.2 c (List.mem_cons_self _ _))
      simp only [linesText_cons, List.cons_append, List.append_assoc] at hr
      obtain ⟨pos1, h1⟩ := fgetc_skip_ws_char file pos ws c _ hr hws hc.2.2.2.2
      have hr1 : (⟨file.data, file.pos + (ws.length + 1), file.eof⟩ : FILE).rest
          = body ++ NL :: (linesText more ++ tail) := by
        rw [rest_advance, hr]
        have : ws ++ c :: (body ++ NL :: (linesText more ++ tail))
            = (ws ++ [c]) ++ (body ++ NL :: (linesText more ++ tail)) := by simp
        rw [this, List.drop_left' (by simp)]
      obtain ⟨pos2, h2⟩ := extend_loop_line 62 true m (str ++ [c]) (total + 1)
        ⟨file.data, file.pos + (ws.length + 1), file.eof⟩ pos1 body _ hr1
        (by
          intro d hd
          have := isLetter_facts (hl.2 d (List.mem_cons_of_mem _ hd))
          exact ⟨this.1, this.2.1, this.2.2.1⟩)
        (by have := hl.1; simp at this; omega) (by decide)
      simp only [if_true] at h2
      have hr2 : (⟨file.data, file.pos + (ws.length + 1) + (body.length + 1), file.eof⟩ : FILE).rest
          = [] ++ (linesText more ++ tail) := by
        have := rest_advance ⟨file.data, file.pos + (ws.length + 1), file.eof⟩
          (body.length + 1) file.eof
        simp only at this
        rw [this, hr1]
        have : body ++ NL :: (linesText more ++ tail)
            = (body ++ [NL]) ++ (linesText more ++ tail) := by simp
        rw [this, List.drop_left' (by simp)]
        rfl
      obtain ⟨pos3, h3⟩ := ih [] m (str ++ [c] ++ body) (total + 1 + (body.length : Nat))
        ⟨file.data, file.pos + (ws.length + 1) + (body.length + 1), file.eof⟩ pos2 hr2 he
        (by simp) (fun x hx => hok x (List.mem_cons_of_mem _ hx)) (by simp at hn; omega)
      refine ⟨pos3, ?_⟩
      have hne1 : ¬ (c = 62 ∨ c = EOF) := by
        intro h; rcases h with h | h
        · exact hc.2.1 h
        · exact hc.2.2.2.1 h
      simp only [after_eol_trim, h1, hne1, if_false]
      rw [h2, h3]
      simp only [List.flatten_cons, linesText_cons, List.length_append, List.length_cons,
        List.length_nil, fileAfter]
      congr 2
      · push_cast; ring
      · congr 1
        · simp
        · congr 1
          split <;> simp <;> omega

theorem rest_length (file : FILE) : file.data.length - file.pos = file.rest.length := by
  simp [FILE.rest]

theorem extend_until_id (str : List Int) (file : FILE) (pos : pos_t) (id X : List Int)
    (hr : file.rest = id ++ NL :: X) (hid : ∀ c ∈ id, c ≠ NL ∧ c ≠ 0)
    (hlen : id.length ≤ 254) :
    ∃ pos1, extend_until str NL file pos true =
      .ok ((id.length : Nat), str ++ id, ⟨file.data, file.pos + (id.length + 1), false⟩, pos1) := by
  have hg := fgets_line file id X hr (fun c hc => (hid c hc).1) hlen
  have hlen0 : strlen (id ++ [NL]) = id.length + 1 := by
    rw [strlen_eq]
    · simp
    · intro c hc
      rcases List.mem_append.1 hc with h | h
      · exact (hid c h).2
      · simp at h; subst h; decide
  have htake : (id ++ [NL]).take (id.length + 1) = id ++ [NL] := by
    rw [List.take_of_length_le]; simp
  obtain ⟨pos1, hfor⟩ := forLoop_until NL (id ++ [NL]) (id.length + 1)
    ⟨file.data, file.pos + (id.length + 1), file.eof⟩ id [] [] str 0 pos (by simp)
    (fun c hc => ⟨(hid c hc).1, (hid c hc).1⟩)
  simp only [List.length_nil, List.nil_append] at hfor
  refine ⟨pos1, ?_⟩
  unfold extend_until
  simp only [extend_until_loop, hg, hlen0, htake, hfor]
  simp only [fseek_cur]
  rw [if_neg (by push_cast; omega)]
  have e : ((((file.pos + (id.length + 1) : Nat) : Int)) +
      (((id.length : Nat) : Int) - ((id.length + 1 : Nat) : Int) + 1)).toNat
      = file.pos + (id.length + 1) := by
    push_cast
    omega
  rw [e]
  simp

theorem extend_until_seq (str : List Int) (file : FILE) (pos : pos_t)
    (l : List Int) (more : List (List Int)) (tail : List Int)
    (hr : file.rest = linesText (l :: more) ++ tail) (he : file.eof = false)
    (htail : tail = [] ∨ ∃ t, tail = 62 :: t)
    (hok : ∀ x ∈ l :: more, x.length ≤ 254 ∧ ∀ c ∈ x, isLetter c = true) :
    ∃ pos1, extend_until str 62 file pos true =
      .ok (((l :: more).flatten.length : Nat), str ++ (l :: more).flatten,
        fileAfter file (linesText (l :: more)).length tail, pos1) := by
  have hl := hok l (List.mem_cons_self _ _)
  have hr0 := hr
  simp only [linesText_cons, List.cons_append, List.append_assoc] at hr
  have hfuel : file.data.length - file.pos + 1 = file.rest.length + 1 := by
    rw [rest_length]
  obtain ⟨pos1, h1⟩ := extend_loop_line 62 true file.rest.length str 0 file pos l _ hr
    (by
      intro d hd
      have := isLetter_facts (hl.2 d hd)
      exact ⟨this.1, this.2.1, this.2.2.1⟩)
    hl.1 (by decide)
  simp only [if_true] at h1
  have hr1 : (⟨file.data, file.pos + (l.length + 1), file.eof⟩ : FILE).rest
      = [] ++ (linesText more ++ tail) := by
    rw [rest_advance, hr]
    have : l ++ NL :: (linesText more ++ tail) = (l ++ [NL]) ++ (linesText more ++ tail) := by
      simp
    rw [this, List.drop_left' (by simp)]
    rfl
  have hlen : more.length ≤ file.rest.length := by
    rw [hr0]
    simp only [List.length_append, linesText_length, List.length_cons]
    omega
  obtain ⟨pos2, h2⟩ := after_eol_lines tail htail more [] file.rest.length (str ++ l)
    (0 + (l.length : Nat)) ⟨file.data, file.pos + (l.length + 1), file.eof⟩ pos1 hr1 he
    (by simp) (fun x hx => hok x (List.mem_cons_of_mem _ hx)) hlen
  refine ⟨pos2, ?_⟩
  unfold extend_until
  rw [hfuel, h1, h2]
  simp only [List.flatten_cons, linesText_cons, List.length_append, List.length_cons,
    List.length_nil, fileAfter]
  congr 2
  · push_cast; ring
  · congr 1
    · simp
    · congr 1
      split <;> simp <;> omega

theorem extend_until_qual (str : List Int) (file : FILE) (pos : pos_t)
    (lines : List (List Int)) (tail : List Int)
    (hr : file.rest = linesText lines ++ tail) (he : file.eof = false)
    (htail : TailOK tail) (hok : ∀ l ∈ lines, LineOK l) :
    ∃ pos1, extend_until str 62 file pos false =
      .ok ((lines.flatten.length : Nat), str ++ linesText lines,
        fileAfter file (linesText lines).length tail, pos1) := by
  have hlen : lines.length < file.data.length - file.pos + 1 := by
    rw [rest_length, hr]
    simp only [List.length_append, linesText_length]
    omega
  obtain ⟨pos1, h1⟩ := extend_loop_lines_notrim tail htail lines _ str 0 file pos hr he hok hlen
  refine ⟨pos1, ?_⟩
  unfold extend_until
  rw [h1]
  simp

theorem strtok_all_delims (sp X : List Int) (hsp : ∀ c ∈ sp, isDelim c = true) :
    strtok_all (sp ++ X) [] = strtok_all X [] := by
  induction sp with
  | nil => rfl
  | cons c cs ih =>
    rw [List.cons_append]
    simp only [strtok_all, hsp c (List.mem_cons_self _ _), if_true]
    exact ih (fun d hd => hsp d (List.mem_cons_of_mem _ hd))

theorem strtok_all_token (tok X : List Int) (htok : ∀ c ∈ tok, isDelim c = false) :
    ∀ cur, strtok_all (tok ++ X) cur = strtok_all X (cur ++ tok) := by
  induction tok with
  | nil => intro cur; simp
  | cons c cs ih =>
    intro cur
    rw [List.cons_append]
    simp only [strtok_all, htok c (List.mem_cons_self _ _), Bool.false_eq_true, if_false]
    rw [ih (fun d hd => htok d (List.mem_cons_of_mem _ hd))]
    simp

theorem strtok_all_flush (X cur : List Int) (hcur : cur ≠ [])
    (hX : ∀ d Y, X = d :: Y → isDelim d = true) :
    strtok_all X cur = cur :: strtok_all X [] := by
  cases X with
  | nil => simp [strtok_all, hcur]
  | cons d Y =>
    have hd := hX d Y rfl
    simp [strtok_all, hd, hcur]

theorem decimalValue_chars {tok : List Int} (h : (decimalValue tok).isSome = true) :
    tok ≠ [] ∧ ∀ c ∈ tok, c = 45 ∨ c = 43 ∨ isDigit c = true := by
  cases tok with
  | nil => simp [decimalValue] at h
  | cons c ds =>
    refine ⟨by simp, ?_⟩
    simp only [decimalValue] at h
    split at h
    · rename_i hc
      split at h
      · rename_i hd
        intro x hx
        rcases List.mem_cons.1 hx with hx | hx
        · left; rw [hx, hc]
        · right; right; exact List.all_eq_true.1 hd.2 x hx
      · simp at h
    · split at h
      · rename_i hc
        split at h
        · rename_i hd
          intro x hx
          rcases List.mem_cons.1 hx with hx | hx
          · right; left; rw [hx, hc]
          · right; right; exact List.all_eq_true.1 hd.2 x hx
        · simp at h
      · split at h
        · rename_i hd
          intro x hx
          right; right
          exact List.all_eq_true.1 hd x hx
        · simp at h

theorem token_char_facts {c : Int} (h : c = 45 ∨ c = 43 ∨ isDigit c = true) :
    isDelim c = false ∧ c ≠ 0 ∧ c ≠ NL ∧ c ≠ 62 ∧ isspace c = false := by
  simp only [isDigit, Bool.and_eq_true, decide_eq_true_eq] at h
  simp only [NL, isDelim, isspace, ne_eq, Bool.or_eq_false_iff, decide_eq_false_iff_not,
    Bool.and_eq_false_iff, Bool.decide_and]
  omega

theorem digitsValue_eq (ds : List Int) (hd : ∀ c ∈ ds, isDigit c = true) :
    ∀ acc, digitsValue ds acc = ds.foldl (fun a d => a * 10 + (d - 48)) acc := by
  induction ds with
  | nil => intro acc; rfl
  | cons c cs ih =>
    intro acc
    have hc := hd c (List.mem_cons_self _ _)
    simp only [isDigit, Bool.and_eq_true, decide_eq_true_eq] at hc
    simp only [digitsValue, hc, and_self, if_true, List.foldl_cons]
    exact ih (fun d hx => hd d (List.mem_cons_of_mem _ hx)) _

theorem atoi_decimal (tok : List Int) (q : Int) (h : decimalValue tok = some q)
    (hq : -2147483648 ≤ q ∧ q ≤ 2147483647) : atoi tok = some q := by
  have hs : (decimalValue tok).isSome = true := by rw [h]; rfl
  obtain ⟨hne, hch⟩ := decimalValue_chars hs
  cases tok with
  | nil => exact absurd rfl hne
  | cons c ds =>
    have hc := token_char_facts (hch c (List.mem_cons_self _ _))
    have hdrop : (c :: ds).dropWhile isspace = c :: ds := by
      simp [List.dropWhile, hc.2.2.2.2]
    simp only [decimalValue] at h
    unfold atoi
    simp only [hdrop]
    by_cases h45 : c = 45
    · subst h45
      simp only [if_true] at h
      split at h
      · rename_i hd
        cases h
        simp only [if_true]
        rw [digitsValue_eq ds (fun x hx => List.all_eq_true.1 hd.2 x hx)]
        simp only [decimalDigitsValue] at hq ⊢
        rw [if_pos hq]
      · cases h
    · simp only [h45, if_false] at h ⊢
      by_cases h43 : c = 43
      · subst h43
        simp only [if_true] at h
        split at h
        · rename_i hd
          cases h
          simp only [if_true]
          rw [digitsValue_eq ds (fun x hx => List.all_eq_true.1 hd.2 x hx)]
          simp only [decimalDigitsValue] at hq ⊢
          rw [if_pos hq]
        · cases h
      · simp only [h43, if_false] at h ⊢
        split at h
        · rename_i hd
          cases h
          rw [digitsValue_eq (c :: ds) (fun x hx => List.all_eq_true.1 hd x hx)]
          simp only [decimalDigitsValue] at hq ⊢
          rw [if_pos hq]
        · cases h

theorem mapM_atoi (toks : List (List Int)) :
    ∀ qs : List Int, toks.map decimalValue = qs.map some →
      (∀ q ∈ qs, -2147483648 ≤ q ∧ q ≤ 2147483647) → toks.mapM atoi = some qs := by
  induction toks with
  | nil =>
    intro qs h _
    cases qs with
    | nil => rfl
    | cons q qs => simp at h
  | cons t ts ih =>
    intro qs h hr
    cases qs with
    | nil => simp at h
    | cons q qs =>
      simp only [List.map_cons, List.cons.injEq] at h
      have h1 := atoi_decimal t q h.1 (hr q (List.mem_cons_self _ _))
      have h2 := ih qs h.2 (fun x hx => hr x (List.mem_cons_of_mem _ hx))
      rw [List.mapM_cons, h1, h2]
      rfl

theorem c_str_eq (s : List Int) (h : ∀ c ∈ s, c ≠ 0) : c_str s = s := by
  unfold c_str
  rw [List.takeWhile_eq_self_iff]
  intro c hc
  simpa using h c hc

theorem strtok_entries (Y : List Int) (hY : ∀ d Z, Y = d :: Z → isDelim d = true)
    (es : List (List Int × List Int)) :
    (∀ e ∈ es, (∀ c ∈ e.1, c = 32) ∧ (decimalValue e.2).isSome = true) →
      (∀ e ∈ es.tail, e.1 ≠ []) →
      strtok_all ((es.map (fun e => e.1 ++ e.2)).flatten ++ Y) [] =
        es.map (fun e => e.2) ++ strtok_all Y [] := by
  induction es with
  | nil => intro _ _; rfl
  | cons e es ih =>
    intro hes hsep
    have he := hes e (List.mem_cons_self _ _)
    obtain ⟨hne, hch⟩ := decimalValue_chars he.2
    have hR : ∀ d Z, (es.map (fun e => e.1 ++ e.2)).flatten ++ Y = d :: Z →
        isDelim d = true := by
      intro d Z hdz
      cases es with
      | nil => exact hY d Z (by simpa using hdz)
      | cons e2 es2 =>
        have h2 : e2.1 ≠ [] := hsep e2 (by simp)
        have h3 := (hes e2 (by simp)).1
        cases h4 : e2.1 with
        | nil => exact absurd h4 h2
        | cons s ss =>
          simp only [List.map_cons, List.flatten_cons, h4, List.cons_append,
            List.cons.injEq] at hdz
          have : s = 32 := h3 s (by rw [h4]; exact List.mem_cons_self _ _)
          rw [← hdz.1, this]
          decide
    simp only [List.map_cons, List.flatten_cons, List.append_assoc]
    rw [strtok_all_delims e.1 _ (fun c hc => by rw [he.1 c hc]; decide)]
    rw [strtok_all_token e.2 _ (fun c hc => (token_char_facts (hch c hc)).1)]
    rw [List.nil_append, strtok_all_flush _ e.2 hne hR]
    rw [ih (fun x hx => hes x (List.mem_cons_of_mem _ hx))
      (fun x hx => hsep x (by
        simp only [List.tail_cons]
        exact List.mem_of_mem_tail hx))]
    rfl

theorem strtok_lines (qls : List QualLine) (hwf : ∀ q ∈ qls, q.WF) :
    strtok_all (linesText (qls.map QualLine.text)) [] =
      (qls.map QualLine.tokens).flatten := by
  induction qls with
  | nil => rfl
  | cons q qs ih =>
    obtain ⟨_, htr, hes, hsep⟩ := hwf q (List.mem_cons_self _ _)
    simp only [List.map_cons, linesText_cons, QualLine.text, List.append_assoc,
      List.flatten_cons, QualLine.tokens]
    rw [strtok_entries (q.trail ++ NL :: linesText (qs.map QualLine.text)) ?_ q.entries hes hsep]
    · have : q.trail ++ NL :: linesText (qs.map QualLine.text)
          = (q.trail ++ [NL]) ++ linesText (qs.map QualLine.text) := by simp
      rw [this, strtok_all_delims]
      · rw [ih (fun x hx => hwf x (List.mem_cons_of_mem _ hx))]
      · intro c hc
        rcases List.mem_append.1 hc with h | h
        · rw [htr c h]; decide
        · simp at h; subst h; decide
    · intro d Z hdz
      cases htl : q.trail with
      | nil =>
        rw [htl] at hdz
        simp only [List.nil_append, List.cons.injEq] at hdz
        rw [← hdz.1]; decide
      | cons s ss =>
        rw [htl] at hdz
        simp only [List.cons_append, List.cons.injEq] at hdz
        rw [← hdz.1, htr s (by rw [htl]; exact List.mem_cons_self _ _)]
        decide

theorem qualLine_chars (q : QualLine) (hwf : q.WF) :
    ∀ c ∈ q.text, c ≠ NL ∧ c ≠ 62 ∧ c ≠ 0 := by
  obtain ⟨_, htr, hes, _⟩ := hwf
  intro c hc
  simp only [QualLine.text, List.mem_append, List.mem_flatten, List.mem_map] at hc
  rcases hc with ⟨l, ⟨e, he, rfl⟩, hc⟩ | hc
  · rcases List.mem_append.1 hc with h | h
    · rw [(hes e he).1 c h]; decide
    · have := token_char_facts ((decimalValue_chars (hes e he).2).2 c h)
      exact ⟨this.2.2.1, this.2.2.2.1, this.2.1⟩
  · rw [htr c hc]; decide

theorem qualLine_ok (q : QualLine) (hwf : q.WF) : LineOK q.text :=
  ⟨hwf.1, qualLine_chars q hwf⟩

theorem linesText_no_nul (lines : List (List Int))
    (h : ∀ l ∈ lines, ∀ c ∈ l, c ≠ 0) : ∀ c ∈ linesText lines, c ≠ 0 := by
  intro c hc
  simp only [linesText, List.mem_flatten, List.mem_map] at hc
  obtain ⟨x, ⟨l, hl, rfl⟩, hc⟩ := hc
  rcases List.mem_append.1 hc with h1 | h1
  · exact h l hl c h1
  · simp at h1; subst h1; decide

theorem step_unknown_hdr (sep : Int) (filetype : filetype_t) (m : Machine) (tl : List Int)
    (hs : m.state = .UNKNOWN) (hr : m.file.rest = 62 :: tl) :
    ∃ pos1, step 62 sep filetype m =
      .ok (true, { m with file := ⟨m.file.data, m.file.pos + 1, m.file.eof⟩, pos := pos1,
                          state := .ID }) := by
  obtain ⟨pos1, h1⟩ := fgetc_skip_ws_char m.file m.pos [] 62 tl hr (by simp) (by decide)
  refine ⟨pos1, ?_⟩
  simp only [step, hs, h1, if_true, List.length_nil, Nat.zero_add]

theorem unpeek_fileAfter (file : FILE) (k : Nat) (tail : List Int) :
    unpeek (fileAfter file k tail) = ⟨file.data, file.pos + k, decide (tail = [])⟩ := by
  unfold unpeek fileAfter
  by_cases h : tail = []
  · simp [h]
  · simp only [h, if_false, Bool.false_eq_true, not_false_eq_true, if_true, fseek_cur,
      decide_False]
    rw [if_neg (by push_cast; omega)]
    congr 1
    push_cast
    omega

theorem machine_fasta_record (file : FILE) (pos : pos_t) (qid qs : List Int) (seq : seq_t)
    (l : Layout) (tail : List Int)
    (hr : file.rest = l.seqText ++ tail)
    (htail : tail = [] ∨ ∃ t, tail = 62 :: t)
    (hid : l.id ≠ [] ∧ l.id.length ≤ 254 ∧ ∀ c ∈ l.id, c ≠ 10 ∧ c ≠ 0)
    (hne : l.seqLines.flatten ≠ [])
    (hok : ∀ x ∈ l.seqLines, x.length ≤ 254 ∧ ∀ c ∈ x, isLetter c = true) :
    ∃ pos1, machine 62 62 .FASTA 4 ⟨file, pos, .UNKNOWN, qid, qs, seq⟩ =
      .ok (true, ⟨⟨file.data, file.pos + l.seqText.length, decide (tail = [])⟩, pos1, .UNKNOWN,
        qid, qs, { seq with id := seq.id ++ l.id, seq := seq.seq ++ l.seqLines.flatten }⟩) := by
  simp only [Layout.seqText, List.cons_append, List.append_assoc] at hr
  -- the header character
  obtain ⟨pos1, h1⟩ := step_unknown_hdr 62 .FASTA ⟨file, pos, .UNKNOWN, qid, qs, seq⟩ _ rfl hr
  -- the identifier line
  have hr1 : (⟨file.data, file.pos + 1, file.eof⟩ : FILE).rest
      = l.id ++ NL :: (linesText l.seqLines ++ tail) := by
    rw [rest_advance, hr]; rfl
  obtain ⟨pos2, h2⟩ := extend_until_id seq.id ⟨file.data, file.pos + 1, file.eof⟩ pos1 l.id _
    hr1 (fun c hc => hid.2.2 c hc) hid.2.1
  -- the body
  obtain ⟨ln, more, hlines⟩ : ∃ ln more, l.seqLines = ln :: more := by
    cases hl : l.seqLines with
    | nil => rw [hl] at hne; exact absurd rfl hne
    | cons a b => exact ⟨a, b, rfl⟩
  have hr2 : (⟨file.data, file.pos + 1 + (l.id.length + 1), false⟩ : FILE).rest
      = linesText (ln :: more) ++ tail := by
    have := rest_advance ⟨file.data, file.pos + 1, file.eof⟩ (l.id.length + 1) false
    simp only at this
    rw [this, hr1]
    have e : l.id ++ NL :: (linesText l.seqLines ++ tail)
        = (l.id ++ [NL]) ++ (linesText l.seqLines ++ tail) := by simp
    rw [e, List.drop_left' (by simp), hlines]
  obtain ⟨pos3, h3⟩ := extend_until_seq seq.seq ⟨file.data, file.pos + 1 + (l.id.length + 1), false⟩
    pos2 ln more tail hr2 rfl htail (by rw [← hlines]; exact hok)
  refine ⟨{ pos3 with col := pos3.col - 1 }, ?_⟩
  have hn1 : ¬ ((l.id.length : Nat) : Int) < 1 := by
    have : l.id.length ≠ 0 := fun h => hid.1 (List.length_eq_zero.1 h)
    omega
  have hn2 : ¬ (((ln :: more).flatten.length : Nat) : Int) < 1 := by
    have : (ln :: more).flatten.length ≠ 0 := fun h => by
      rw [← hlines] at h
      exact hne (List.length_eq_zero.1 h)
    omega
  simp only [machine, h1]
  simp only [step, h2, hn1, if_false, ne_eq, not_false_eq_true, if_true, reduceCtorEq]
  simp only [h3, hn2, if_false, if_true, unpeek_fileAfter, not_true_eq_false]
  rw [hlines]
  simp only [Layout.seqText, hlines, List.length_cons, List.length_append]
  congr 4
  omega

theorem machine_qual_record (file : FILE) (pos : pos_t) (qid : List Int) (seq : seq_t)
    (l : Layout) (quals : List Int) (tail : List Int)
    (hr : file.rest = l.qualText ++ tail)
    (htail : TailOK tail)
    (hid : l.id ≠ [] ∧ l.id.length ≤ 254 ∧ ∀ c ∈ l.id, c ≠ 10 ∧ c ≠ 0)
    (hwf : ∀ q ∈ l.qualLines, q.WF)
    (htok : l.tokens.map decimalValue = quals.map some)
    (hrange : ∀ q ∈ quals, -2147483648 ≤ q ∧ q ≤ 2147483647)
    (hne : quals ≠ []) :
    ∃ pos1, machine 62 62 .QUAL 4 ⟨file, pos, .UNKNOWN, qid, [], seq⟩ =
      .ok (true, ⟨⟨file.data, file.pos + l.qualText.length, decide (tail = [])⟩, pos1, .UNKNOWN,
        [], [], { seq with quals := seq.quals ++ quals }⟩) := by
  simp only [Layout.qualText, List.cons_append, List.append_assoc] at hr
  obtain ⟨pos1, h1⟩ := step_unknown_hdr 62 .QUAL ⟨file, pos, .UNKNOWN, qid, [], seq⟩ _ rfl hr
  have hr1 : (⟨file.data, file.pos + 1, file.eof⟩ : FILE).rest
      = l.id ++ NL :: (linesText (l.qualLines.map QualLine.text) ++ tail) := by
    rw [rest_advance, hr]; rfl
  obtain ⟨pos2, h2⟩ := extend_until_id qid ⟨file.data, file.pos + 1, file.eof⟩ pos1 l.id _
    hr1 (fun c hc => hid.2.2 c hc) hid.2.1
  have hr2 : (⟨file.data, file.pos + 1 + (l.id.length + 1), false⟩ : FILE).rest
      = linesText (l.qualLines.map QualLine.text) ++ tail := by
    have := rest_advance ⟨file.data, file.pos + 1, file.eof⟩ (l.id.length + 1) false
    simp only at this
    rw [this, hr1]
    have e : l.id ++ NL :: (linesText (l.qualLines.map QualLine.text) ++ tail)
        = (l.id ++ [NL]) ++ (linesText (l.qualLines.map QualLine.text) ++ tail) := by simp
    rw [e, List.drop_left' (by simp)]
  have hlines : ∀ x ∈ l.qualLines.map QualLine.text, LineOK x := by
    intro x hx
    obtain ⟨q, hq, rfl⟩ := List.mem_map.1 hx
    exact qualLine_ok q (hwf q hq)
  obtain ⟨pos3, h3⟩ := extend_until_qual [] ⟨file.data, file.pos + 1 + (l.id.length + 1), false⟩
    pos2 (l.qualLines.map QualLine.text) tail hr2 rfl htail hlines
  refine ⟨{ pos3 with col := pos3.col - 1 }, ?_⟩
  have hn1 : ¬ ((l.id.length : Nat) : Int) < 1 := by
    have : l.id.length ≠ 0 := fun h => hid.1 (List.length_eq_zero.1 h)
    omega
  -- the body holds at least one character, as it holds a token
  have htoks : strtok_all (linesText (l.qualLines.map QualLine.text)) [] = l.tokens :=
    strtok_lines l.qualLines hwf
  have hn2 : ¬ (((l.qualLines.map QualLine.text).flatten.length : Nat) : Int) < 1 := by
    have : (l.qualLines.map QualLine.text).flatten ≠ [] := by
      intro hnil
      have hall : ∀ q ∈ l.qualLines, q.entries = [] := by
        intro q hq
        have : q.text = [] := by
          have := List.flatten_eq_nil_iff.1 hnil q.text (List.mem_map.2 ⟨q, hq, rfl⟩)
          exact this
        simp only [QualLine.text, List.append_eq_nil, List.flatten_eq_nil_iff, List.mem_map,
          forall_exists_index, and_imp, forall_apply_eq_imp_iff₂] at this
        cases hes : q.entries with
        | nil => rfl
        | cons e es =>
          have h5 := this.1 e (by rw [hes]; exact List.mem_cons_self _ _)
          have h6 := (decimalValue_chars ((hwf q hq).2.2.1 e
            (by rw [hes]; exact List.mem_cons_self _ _)).2).1
          simp at h5
          exact absurd h5.2 h6
      have : l.tokens = [] := by
        simp only [Layout.tokens, List.flatten_eq_nil_iff, List.mem_map, forall_exists_index,
          and_imp, forall_apply_eq_imp_iff₂]
        intro q hq
        simp [QualLine.tokens, hall q hq]
      rw [this] at htok
      cases quals with
      | nil => exact hne rfl
      | cons a b => simp at htok
    have : (l.qualLines.map QualLine.text).flatten.length ≠ 0 :=
      fun h => this (List.length_eq_zero.1 h)
    omega
  have hnul : ∀ c ∈ linesText (l.qualLines.map QualLine.text), c ≠ 0 :=
    linesText_no_nul _ (fun x hx c hc => ((hlines x hx).2 c hc).2.2)
  have hdec : (strtok_all (c_str ([] ++ linesText (l.qualLines.map QualLine.text))) []).mapM atoi
      = some quals := by
    rw [List.nil_append, c_str_eq _ hnul, htoks]
    exact mapM_atoi _ _ htok hrange
  simp only [machine, h1]
  simp only [step, h2, hn1, if_false, ne_eq, not_false_eq_true, if_true, reduceCtorEq]
  simp only [h3, hn2, if_false, if_true, unpeek_fileAfter, not_true_eq_false, hdec]
  simp only [Layout.qualText, List.length_cons, List.length_append]
  congr 4
  omega

theorem seqFile_cons (l : Layout) (ls : List Layout) :
    seqFile (l :: ls) = l.seqText ++ seqFile ls := by
  simp [seqFile]

theorem qualFile_cons (l : Layout) (ls : List Layout) :
    qualFile (l :: ls) = l.qualText ++ qualFile ls := by
  simp [qualFile]

theorem seqFile_tail (ls : List Layout) : seqFile ls = [] ∨ ∃ t, seqFile ls = 62 :: t := by
  cases ls with
  | nil => left; rfl
  | cons l ls => right; exact ⟨_, by rw [seqFile_cons]; rfl⟩

theorem fgets_chunk_mem (a b : List Int) :
    ∀ n, ∀ c ∈ fgets_chunk n (a ++ NL :: b), c ∈ a ∨ c = NL := by
  induction a with
  | nil =>
    intro n c hc
    cases n with
    | zero => simp [fgets_chunk] at hc
    | succ n =>
      simp only [List.nil_append, fgets_chunk, if_true, List.mem_singleton] at hc
      right; exact hc
  | cons x xs ih =>
    intro n c hc
    cases n with
    | zero => simp [fgets_chunk] at hc
    | succ n =>
      rw [List.cons_append] at hc
      simp only [fgets_chunk] at hc
      split at hc
      · rename_i hx
        simp only [List.mem_singleton] at hc
        right; rw [hc, hx]
      · rcases List.mem_cons.1 hc with h | h
        · left; rw [h]; exact List.mem_cons_self _ _
        · rcases ih n c h with h1 | h1
          · left; exact List.mem_cons_of_mem _ h1
          · right; exact h1

theorem qualFile_tail (ls : List Layout) (h : ∀ l ∈ ls, ∀ c ∈ l.id, c ≠ 0) :
    TailOK (qualFile ls) := by
  cases ls with
  | nil => left; rfl
  | cons l ls =>
    right
    refine ⟨_, by rw [qualFile_cons]; rfl, ?_⟩
    intro c hc
    rw [qualFile_cons] at hc
    simp only [Layout.qualText, List.cons_append, List.append_assoc] at hc
    have := fgets_chunk_mem (62 :: l.id) _ 255 c (by simpa using hc)
    rcases this with h1 | h1
    · rcases List.mem_cons.1 h1 with h2 | h2
      · rw [h2]; decide
      · exact h l (List.mem_cons_self _ _) c h2
    · rw [h1]; decide

theorem next_record (p : parser_t) (l : Layout) (ls : List Layout) (r : seq_t)
    (hp : Ready p (l :: ls)) (hr : Renders l r) (hls : ∀ x ∈ ls, ∀ c ∈ x.id, c ≠ 0) :
    ∃ p1, next p seq_t.empty = .ok (true, p1, r) ∧ Ready p1 ls := by
  obtain ⟨h1, h2, h3, h4, f, q, hf, hq, hfr, hqr⟩ := hp
  obtain ⟨⟨w1, w2, w3, w4, w5, w6, w7, w8, w9, w10, w11⟩, hidlen, hrange⟩ := hr
  rw [seqFile_cons] at hfr
  rw [qualFile_cons] at hqr
  have hne : l.seqLines.flatten ≠ [] := by rw [← w4]; exact w5
  have hok : ∀ x ∈ l.seqLines, x.length ≤ 254 ∧ ∀ c ∈ x, isLetter c = true := by
    intro x hx
    refine ⟨w7 x hx, fun c hc => w6 c ?_⟩
    rw [w4]
    exact List.mem_flatten.2 ⟨x, hx, hc⟩
  obtain ⟨pos1, hm1⟩ := machine_fasta_record f p.fpos p.qid [] ⟨[], [], [], 0⟩ l (seqFile ls) hfr
    (seqFile_tail ls) ⟨w2, hidlen, w3⟩ hne hok
  have hqne : r.quals ≠ [] := by
    intro h
    have : r.seq.length = 0 := by rw [← w10, h]; rfl
    exact w5 (List.length_eq_zero.1 this)
  obtain ⟨pos2, hm2⟩ := machine_qual_record q p.qpos p.qid
    ⟨l.id, l.seqLines.flatten, [], 0⟩
    l r.quals (qualFile ls) hqr (qualFile_tail ls hls) ⟨w2, hidlen, w3⟩ w8 w9 hrange hqne
  simp only [List.nil_append] at hm1 hm2
  have hread := next_read_fasta p seq_t.empty f q h1 hf hq
  simp only [h2, h3, h4, seq_t.empty] at hread
  rw [hm1] at hread
  simp only [hm2] at hread
  have hnext := next_of_read_true p seq_t.empty _ _ _ hread
  simp only [true_and, ne_eq] at hnext
  rw [if_neg (by rw [← w4, w10]; simp)] at hnext
  refine ⟨{ fastq := p.fastq,
            fasta := some ⟨f.data, f.pos + l.seqText.length, decide (seqFile ls = [])⟩,
            qual := some ⟨q.data, q.pos + l.qualText.length, decide (qualFile ls = [])⟩,
            fpos := pos1, qpos := pos2, fstate := .UNKNOWN, qstate := .UNKNOWN,
            qid := [], qs := [] }, ?_, ?_⟩
  · rw [hnext]
    congr 3
    cases r
    simp only at w1 w4 w11
    simp only [seq_t.mk.injEq]
    exact ⟨w1.symm, w4.symm, trivial, by rw [w11, w4]⟩
  · refine ⟨h1, rfl, rfl, rfl, _, _, rfl, rfl, ?_, ?_⟩
    · have := rest_advance f l.seqText.length (decide (seqFile ls = []))
      rw [this, hfr, List.drop_left]
    · have := rest_advance q l.qualText.length (decide (qualFile ls = []))
      rw [this, hqr, List.drop_left]

theorem next_exhausted (p : parser_t) (hp : Ready p []) :
    ∃ p1, next p seq_t.empty = .ok (false, p1, seq_t.empty) := by
  obtain ⟨h1, h2, _, _, f, q, hf, hq, hfr, _⟩ := hp
  have hws : OnlyWhitespaceLeft f := by
    intro c hc
    rw [hfr] at hc
    simp [seqFile] at hc
  have hm := machine_exhausted 62 62 .FASTA 3 ⟨f, p.fpos, p.fstate, p.qid, p.qs, seq_t.empty⟩
    h2 hws (by decide)
  have hread := next_read_fasta p seq_t.empty f q h1 hf hq
  rw [hm] at hread
  exact ⟨_, next_of_read_false p seq_t.empty _ _ _ hread⟩

theorem renders_ids (ls : List Layout) (rs : List seq_t)
    (h : List.Forall₂ Renders ls rs) : ∀ x ∈ ls, ∀ c ∈ x.id, c ≠ 0 := by
  induction h with
  | nil => intro x hx; simp at hx
  | @cons l r ls rs hlr _ ih =>
    intro x hx
    rcases List.mem_cons.1 hx with h1 | h1
    · subst h1
      exact fun c hc => (hlr.1.2.2.1 c hc).2
    · exact ih x h1

theorem readRecords_all (ls : List Layout) (rs : List seq_t)
    (h : List.Forall₂ Renders ls rs) :
    ∀ p, Ready p ls → ∃ p1, readRecords rs.length p = .ok (rs, p1) ∧ Ready p1 [] := by
  induction h with
  | nil => intro p hp; exact ⟨p, rfl, hp⟩
  | @cons l r ls rs hlr hrest ih =>
    intro p hp
    obtain ⟨p1, hn, hp1⟩ := next_record p l ls r hp hlr (renders_ids ls rs hrest)
    obtain ⟨p2, hr2, hp2⟩ := ih p1 hp1
    refine ⟨p2, ?_, hp2⟩
    simp only [List.length_cons, readRecords, hn, hr2]

theorem fgetc_skip_ws_loop_data (n : Nat) :
    ∀ (file : FILE) (pos : pos_t),
      (fgetc_skip_ws_loop n file pos).2.1.data = file.data ∧
        file.pos ≤ (fgetc_skip_ws_loop n file pos).2.1.pos := by
  induction n with
  | zero => intro file pos; exact ⟨rfl, le_refl _⟩
  | succ n ih =>
    intro file pos
    unfold fgetc_skip_ws_loop
    cases hc : file.data[file.pos]? with
    | none =>
      simp only [fgetc, hc]
      split
      · have := ih { file with eof := true }
          (if EOF = NL then { pos with line := pos.line + 1, col := 0 }
            else if EOF ≠ EOF then { pos with col := pos.col + 1 } else pos)
        exact this
      · exact ⟨rfl, le_refl _⟩
    | some c =>
      simp only [fgetc, hc]
      split
      · have := ih { file with pos := file.pos + 1 }
          (if c = NL then { pos with line := pos.line + 1, col := 0 }
            else if c ≠ EOF then { pos with col := pos.col + 1 } else pos)
        exact ⟨this.1, by have := this.2; simp only at this; omega⟩
      · exact ⟨rfl, by simp⟩

theorem fgets_chunk_length (n : Nat) : ∀ l : List Int, (fgets_chunk n l).length ≤ l.length := by
  induction n with
  | zero => intro l; simp [fgets_chunk]
  | succ n ih =>
    intro l
    cases l with
    | nil => simp [fgets_chunk]
    | cons c cs =>
      simp only [fgets_chunk]
      split
      · simp
      · simp only [List.length_cons]
        have := ih cs
        omega

theorem fgets_some (file file1 : FILE) (buf : List Int)
    (h : fgets 256 file = (some buf, file1)) :
    file1.data = file.data ∧ file.pos < file1.pos ∧ file1.pos ≤ file.data.length := by
  unfold fgets at h
  simp only at h
  split at h
  · cases h
  · rename_i hne
    simp only [Prod.mk.injEq, Option.some.injEq] at h
    obtain ⟨_, h2⟩ := h
    subst h2
    have hl := fgets_chunk_length (256 - 1) (file.data.drop file.pos)
    simp only [List.length_drop] at hl
    refine ⟨rfl, by simp only; omega, by simp only; omega⟩

theorem extend_until_loop_fuel (until_ : Int) (trim : Bool) (n : Nat) :
    ∀ (str : List Int) (total : Int) (file : FILE) (pos : pos_t),
      file.data.length - file.pos < n →
      extend_until_loop until_ trim n str total file pos ≠ .error .fuel := by
  induction n with
  | zero => intro str total file pos h; omega
  | succ n ih =>
    intro str total file pos hlen
    unfold extend_until_loop
    split
    · simp
    · rename_i buf file1 hg
      obtain ⟨hd, hp, hle⟩ := fgets_some file file1 buf hg
      have h1 : file1.data.length - file1.pos < n := by rw [hd]; omega
      dsimp only
      split
      · simp
      · split
        · simp
        · split
          · split
            · exact ih _ _ _ _ h1
            · split
              · simp
              · rename_i p1 _ _ _ _ _
                apply ih
                have := fgetc_skip_ws_loop_data (file1.data.length - file1.pos + 1) file1
                  { p1 with line := p1.line + 1, col := 0 }
                unfold fgetc_skip_ws
                rw [this.1]
                have := this.2
                omega
          · exact ih _ _ _ _ h1

theorem extend_until_fuel (str : List Int) (until_ : Int) (file : FILE) (pos : pos_t)
    (trim : Bool) : extend_until str until_ file pos trim ≠ .error .fuel :=
  extend_until_loop_fuel _ _ _ _ _ _ _ (by omega)

theorem step_fuel (hdr sep : Int) (filetype : filetype_t) (m : Machine) :
    step hdr sep filetype m ≠ .error .fuel := by
  intro h
  unfold step at h
  dsimp only at h
  repeat' first
    | (cases h; done)
    | (rename_i e1 he; cases h; exact extend_until_fuel _ _ _ _ _ he)
    | split at h

theorem step_rank (hdr sep : Int) (filetype : filetype_t) (m m1 : Machine)
    (h : step hdr sep filetype m = .ok (true, m1)) :
    m1.state = .UNKNOWN ∨ m.state.rank < m1.state.rank := by
  unfold step at h
  dsimp only at h
  split at h <;> rename_i hs <;> rw [hs] <;>
    repeat' first
      | (simp only [Except.ok.injEq, Prod.mk.injEq, true_and] at h; subst h;
         simp [state_t.rank])
      | (cases h; done)
      | split at h

theorem machine_fuel (hdr sep : Int) (filetype : filetype_t) (n : Nat) :
    ∀ m : Machine, 4 ≤ n + m.state.rank →
      machine hdr sep filetype n m ≠ .error .fuel := by
  induction n with
  | zero =>
    intro m h
    cases hs : m.state <;> rw [hs] at h <;> simp [state_t.rank] at h
  | succ n ih =>
    intro m h
    unfold machine
    split
    · rename_i e he
      intro h2
      cases h2
      exact step_fuel _ _ _ _ he
    · simp
    · rename_i m1 he
      split
      · rename_i hne
        apply ih
        rcases step_rank _ _ _ _ _ he with h1 | h1
        · exact absurd h1 hne
        · omega
      · simp

theorem next_fuel (p : parser_t) (seq : seq_t) : next p seq ≠ .error .fuel := by
  have hm : ∀ (hdr sep : Int) (ft : filetype_t) (m : Machine),
      machine hdr sep ft 4 m ≠ .error .fuel := fun hdr sep ft m =>
    machine_fuel hdr sep ft 4 m (by omega)
  intro h
  unfold next at h
  split at h
  · rename_i e he
    cases h
    unfold next_read at he
    dsimp only at he
    repeat' first
      | (cases he; done)
      | (rename_i e1 he1; cases he; exact hm _ _ _ _ he1)
      | split at he
  · cases h
  · split at h <;> cases h

theorem fgets_chunk_prefix (u : Int) (tl l : List Int) (hl : ∀ c ∈ l, c ≠ NL) :
    ∀ n, l.length < n → ∃ X, fgets_chunk n (l ++ u :: tl) = l ++ u :: X := by
  induction l with
  | nil =>
    intro n hn
    obtain ⟨m, rfl⟩ : ∃ m, n = m + 1 := ⟨n - 1, by simp at hn; omega⟩
    simp only [List.nil_append, fgets_chunk]
    split
    · exact ⟨[], rfl⟩
    · exact ⟨_, rfl⟩
  | cons c cs ih =>
    intro n hn
    obtain ⟨m, rfl⟩ : ∃ m, n = m + 1 := ⟨n - 1, by simp at hn; omega⟩
    have hc : c ≠ NL := hl c (List.mem_cons_self _ _)
    obtain ⟨X, hX⟩ := ih (fun d hd => hl d (List.mem_cons_of_mem _ hd)) m
      (by simp at hn; omega)
    rw [List.cons_append]
    simp only [fgets_chunk, hc, if_false, hX]
    exact ⟨X, rfl⟩

theorem extend_loop_hit (until_ : Int) (trim : Bool) (n : Nat) (str : List Int) (total : Int)
    (file : FILE) (pos : pos_t) (l tl : List Int) (hr : file.rest = l ++ until_ :: tl)
    (hl : ∀ c ∈ l, c ≠ NL ∧ c ≠ until_) (hlen : l.length ≤ 254)
    (hnul : ∀ c ∈ fgets_chunk 255 file.rest, c ≠ 0) :
    ∃ pos1, extend_until_loop until_ trim (n + 1) str total file pos =
      .ok (total + (l.length : Nat), str ++ l,
        ⟨file.data, file.pos + (l.length + 1), false⟩, pos1) := by
  obtain ⟨X, hX⟩ := fgets_chunk_prefix until_ tl l (fun c hc => (hl c hc).1) 255 (by omega)
  rw [hr, hX] at hnul
  have hd : file.data.drop file.pos = l ++ until_ :: tl := hr
  have hg : fgets 256 file = (some (l ++ until_ :: X),
      ⟨file.data, file.pos + (l ++ until_ :: X).length,
        file.eof || (decide ((l ++ until_ :: X).length < 255) &&
          (l ++ until_ :: X).getLast? != some NL)⟩) := by
    simp only [fgets, hd, hX]
    simp
  have hlen0 : strlen (l ++ until_ :: X) = (l ++ until_ :: X).length := strlen_eq _ hnul
  obtain ⟨pos1, hfor⟩ := forLoop_until until_ (l ++ until_ :: X) (l ++ until_ :: X).length
    ⟨file.data, file.pos + (l ++ until_ :: X).length,
      file.eof || (decide ((l ++ until_ :: X).length < 255) &&
        (l ++ until_ :: X).getLast? != some NL)⟩ l X [] str total pos (by simp) hl
  simp only [List.length_nil, List.nil_append] at hfor
  refine ⟨pos1, ?_⟩
  simp only [extend_until_loop, hg, hlen0]
  rw [List.take_of_length_le (le_refl _), hfor]
  simp only [fseek_cur]
  rw [if_neg (by simp only [List.length_append, List.length_cons]; push_cast; omega)]
  have e : ((((file.pos + (l ++ until_ :: X).length : Nat) : Int)) +
      (((l.length : Nat) : Int) - (((l ++ until_ :: X).length : Nat) : Int) + 1)).toNat
      = file.pos + (l.length + 1) := by
    simp only [List.length_append, List.length_cons]
    push_cast
    omega
  rw [e]

theorem fgetc_skip_ws_first (file : FILE) (pos : pos_t) (c : Int) (tl : List Int)
    (hr : file.rest = c :: tl) (hc : isDelim c = false) (he : c ≠ EOF) :
    fgetc_skip_ws file pos =
      (c, ⟨file.data, file.pos + 1, file.eof⟩, { pos with col := pos.col + 1 }) := by
  have hc' : ¬ (c = 32 ∨ c = 9 ∨ c = NL ∨ c = 13) := by
    simpa [isDelim, NL] using hc
  have hnl : c ≠ NL := fun h => hc' (Or.inr (Or.inr (Or.inl h)))
  simp only [fgetc_skip_ws, fgetc_skip_ws_loop, fgetc_cons hr]
  rw [if_neg hnl, if_pos he, if_neg hc']

theorem machine_malformed (hdr sep : Int) (filetype : filetype_t) (n : Nat) (m : Machine)
    (c : Int) (tl : List Int) (hs : m.state = .UNKNOWN) (hr : m.file.rest = c :: tl)
    (hc : isDelim c = false) (he : c ≠ EOF) (hh : c ≠ hdr) :
    machine hdr sep filetype (n + 1) m =
      .error (.parse { m.pos with col := m.pos.col + 1 } .malformed) := by
  simp only [machine, step, hs, fgetc_skip_ws_first m.file m.pos c tl hr hc he, hh, he,
    if_false]
theorem step_unknown_header (hdr sep : Int) (filetype : filetype_t) (m : Machine)
    (tl : List Int) (hs : m.state = .UNKNOWN) (hr : m.file.rest = hdr :: tl)
    (hh : isDelim hdr = false) (he : hdr ≠ EOF) :
    step hdr sep filetype m =
      .ok (true, { m with file := ⟨m.file.data, m.file.pos + 1, m.file.eof⟩,
                          pos := { m.pos with col := m.pos.col + 1 }, state := .ID }) := by
  simp only [step, hs, fgetc_skip_ws_first m.file m.pos hdr tl hr hh he, if_true]

theorem extend_until_hit (str : List Int) (until_ : Int) (file : FILE) (pos : pos_t)
    (trim : Bool) (l tl : List Int) (hr : file.rest = l ++ until_ :: tl)
    (hl : ∀ c ∈ l, c ≠ NL ∧ c ≠ until_) (hlen : l.length ≤ 254)
    (hnul : ∀ c ∈ fgets_chunk 255 file.rest, c ≠ 0) :
    ∃ pos1, extend_until str until_ file pos trim =
      .ok ((l.length : Nat), str ++ l, ⟨file.data, file.pos + (l.length + 1), false⟩, pos1) := by
  obtain ⟨pos1, h⟩ := extend_loop_hit until_ trim (file.data.length - file.pos) str 0 file pos
    l tl hr hl hlen hnul
  refine ⟨pos1, ?_⟩
  unfold extend_until
  rw [h]
  simp

theorem extend_until_line_sep (str : List Int) (sep : Int) (file : FILE) (pos : pos_t)
    (s X : List Int) (hr : file.rest = s ++ NL :: sep :: X)
    (hs : ∀ c ∈ s, c ≠ NL ∧ c ≠ sep ∧ c ≠ 0) (hlen : s.length ≤ 254)
    (hd : isDelim sep = false) (he : sep ≠ EOF) :
    ∃ pos1, extend_until str sep file pos true =
      .ok ((s.length : Nat), str ++ s,
        ⟨file.data, file.pos + (s.length + 2), file.eof⟩, pos1) := by
  have hu : sep ≠ NL := by
    intro h
    rw [h] at hd
    exact absurd hd (by decide)
  obtain ⟨pos1, h1⟩ := extend_loop_line sep true (file.data.length - file.pos) str 0 file pos
    s (sep :: X) hr hs hlen hu
  have hr1 : (⟨file.data, file.pos + (s.length + 1), file.eof⟩ : FILE).rest = sep :: X := by
    rw [rest_advance, hr]
    have e : s ++ NL :: sep :: X = (s ++ [NL]) ++ sep :: X := by simp
    rw [e, List.drop_left' (by simp)]
  have h2 := fgetc_skip_ws_first ⟨file.data, file.pos + (s.length + 1), file.eof⟩ pos1 sep X
    hr1 hd he
  refine ⟨{ pos1 with col := pos1.col + 1 }, ?_⟩
  unfold extend_until
  rw [h1]
  simp only [if_true, after_eol_trim, h2, true_or]
  simp
  omega

theorem machine_fastq_record (file : FILE) (pos : pos_t) (qid qs : List Int) (seq : seq_t)
    (id s qpre tl : List Int)
    (hr : file.rest = 64 :: (id ++ NL :: (s ++ NL :: 43 :: NL :: (qpre ++ 64 :: tl))))
    (hid : id ≠ [] ∧ id.length ≤ 254 ∧ ∀ c ∈ id, c ≠ NL ∧ c ≠ 0)
    (hs : s ≠ [] ∧ s.length ≤ 254 ∧ ∀ c ∈ s, c ≠ NL ∧ c ≠ 43 ∧ c ≠ 0)
    (hq : qpre ≠ [] ∧ qpre.length ≤ 254 ∧ ∀ c ∈ qpre, c ≠ NL ∧ c ≠ 64)
    (hnul : ∀ c ∈ fgets_chunk 255 (qpre ++ 64 :: tl), c ≠ 0) :
    ∃ pos1, machine 64 43 .FASTQ 4 ⟨file, pos, .UNKNOWN, qid, qs, seq⟩ =
      .ok (true, ⟨⟨file.data, file.pos + (id.length + s.length + qpre.length + 5), false⟩,
        pos1, .UNKNOWN, qid, [],
        { seq with id := seq.id ++ id, seq := seq.seq ++ s,
                   quals := seq.quals ++ (qs ++ NL :: qpre).map (fun c => c - 33) }⟩) := by
  -- the header character
  have h1 := step_unknown_header 64 43 .FASTQ ⟨file, pos, .UNKNOWN, qid, qs, seq⟩ _ rfl hr
    (by decide) (by decide)
  -- the identifier line
  have hr1 : (⟨file.data, file.pos + 1, file.eof⟩ : FILE).rest
      = id ++ NL :: (s ++ NL :: 43 :: NL :: (qpre ++ 64 :: tl)) := by
    rw [rest_advance, hr]; rfl
  obtain ⟨pos2, h2⟩ := extend_until_id seq.id ⟨file.data, file.pos + 1, file.eof⟩
    { pos with col := pos.col + 1 } id _ hr1 hid.2.2 hid.2.1
  -- the letters and the separator line
  have hr2 : (⟨file.data, file.pos + 1 + (id.length + 1), false⟩ : FILE).rest
      = s ++ NL :: 43 :: NL :: (qpre ++ 64 :: tl) := by
    have := rest_advance ⟨file.data, file.pos + 1, file.eof⟩ (id.length + 1) false
    simp only at this
    rw [this, hr1]
    have e : id ++ NL :: (s ++ NL :: 43 :: NL :: (qpre ++ 64 :: tl))
        = (id ++ [NL]) ++ (s ++ NL :: 43 :: NL :: (qpre ++ 64 :: tl)) := by simp
    rw [e, List.drop_left' (by simp)]
  obtain ⟨pos3, h3⟩ := extend_until_line_sep seq.seq 43
    ⟨file.data, file.pos + 1 + (id.length + 1), false⟩ pos2 s _ hr2 hs.2.2 hs.2.1
    (by decide) (by decide)
  -- the quality line up to the header character
  have hr3 : (⟨file.data, file.pos + 1 + (id.length + 1) + (s.length + 2), false⟩ : FILE).rest
      = [] ++ NL :: (qpre ++ 64 :: tl) := by
    have := rest_advance ⟨file.data, file.pos + 1 + (id.length + 1), false⟩ (s.length + 2) false
    simp only at this
    rw [this, hr2]
    have e : s ++ NL :: 43 :: NL :: (qpre ++ 64 :: tl)
        = (s ++ [NL, 43]) ++ (NL :: (qpre ++ 64 :: tl)) := by simp
    rw [e, List.drop_left' (by simp)]
    rfl
  obtain ⟨m, hm⟩ : ∃ m, file.data.length - (file.pos + 1 + (id.length + 1) + (s.length + 2))
      = m + 1 := by
    have := rest_length ⟨file.data, file.pos + 1 + (id.length + 1) + (s.length + 2), false⟩
    simp only at this
    rw [this, hr3]
    exact ⟨_, rfl⟩
  obtain ⟨pos4, h4⟩ := extend_loop_line 64 false (m + 1) qs 0
    ⟨file.data, file.pos + 1 + (id.length + 1) + (s.length + 2), false⟩ pos3 [] _ hr3
    (by simp) (by simp) (by decide)
  have hr4 : (⟨file.data, file.pos + 1 + (id.length + 1) + (s.length + 2) + 1, false⟩ : FILE).rest
      = qpre ++ 64 :: tl := by
    have := rest_advance ⟨file.data, file.pos + 1 + (id.length + 1) + (s.length + 2), false⟩ 1
      false
    simp only at this
    rw [this, hr3]
    rfl
  obtain ⟨pos5, h5⟩ := extend_loop_hit 64 false m (qs ++ [NL]) 0
    ⟨file.data, file.pos + 1 + (id.length + 1) + (s.length + 2) + 1, false⟩ pos4 qpre tl hr4
    hq.2.2 hq.2.1 (by rw [hr4]; exact hnul)
  have h6 : extend_until qs 64
      ⟨file.data, file.pos + 1 + (id.length + 1) + (s.length + 2), false⟩ pos3 false
      = .ok ((qpre.length : Nat), qs ++ [NL] ++ qpre,
        ⟨file.data, file.pos + 1 + (id.length + 1) + (s.length + 2) + 1 + (qpre.length + 1),
          false⟩, pos5) := by
    unfold extend_until
    simp only [hm]
    rw [h4]
    simp only [Bool.false_eq_true, if_false, List.append_nil, List.length_nil, Nat.cast_zero,
      add_zero, Nat.zero_add]
    rw [h5]
    simp
  refine ⟨{ pos5 with col := pos5.col - 1 }, ?_⟩
  have hn1 : ¬ ((id.length : Nat) : Int) < 1 := by
    have : id.length ≠ 0 := fun h => hid.1 (List.length_eq_zero.1 h)
    omega
  have hn2 : ¬ ((s.length : Nat) : Int) < 1 := by
    have : s.length ≠ 0 := fun h => hs.1 (List.length_eq_zero.1 h)
    omega
  have hn3 : ¬ ((qpre.length : Nat) : Int) < 1 := by
    have : qpre.length ≠ 0 := fun h => hq.1 (List.length_eq_zero.1 h)
    omega
  simp only [machine, h1]
  simp only [step, h2, hn1, if_false, ne_eq, not_false_eq_true, if_true, reduceCtorEq]
  simp only [h3, hn2, if_false, if_true, not_true_eq_false, not_false_eq_true, reduceCtorEq]
  simp only [h6, hn3, if_false, if_true, not_true_eq_false, not_false_eq_true, reduceCtorEq,
    unpeek, fseek_cur, Bool.false_eq_true]
  rw [if_neg (by push_cast; omega)]
  have e : ((((file.pos + 1 + (id.length + 1) + (s.length + 2) + 1 + (qpre.length + 1) : Nat)
      : Int)) + (-1)).toNat = file.pos + (id.length + s.length + qpre.length + 5) := by
    push_cast
    omega
  rw [e]
  simp
theorem isBodyChar_facts {sep c : Int} (h : isBodyChar sep c = true) :
    c ≠ NL ∧ c ≠ sep ∧ c ≠ 0 ∧ c ≠ EOF ∧ isDelim c = false := by
  simpa [isBodyChar] using h

theorem after_eol_lines_sep (sep : Int) (hd : isDelim sep = false) (t : List Int)
    (more : List (List Int)) :
    ∀ (ws : List Int) (n : Nat) (str : List Int) (total : Int) (file : FILE) (pos : pos_t),
      file.rest = ws ++ (linesText more ++ sep :: t) →
      (∀ w ∈ ws, isDelim w = true) →
      (∀ l ∈ more, l.length ≤ 254 ∧ ∀ c ∈ l, isBodyChar sep c = true) → more.length ≤ n →
      ∃ pos1, after_eol_trim sep n str total file pos =
        .ok (total + (more.flatten.length : Nat), str ++ more.flatten,
          ⟨file.data, file.pos + (ws.length + (linesText more).length + 1), file.eof⟩,
          pos1) := by
  have hu : sep ≠ NL := by
    intro h
    rw [h] at hd
    exact absurd hd (by decide)
  induction more with
  | nil =>
    intro ws n str total file pos hr hws _ _
    simp only [linesText_nil, List.nil_append] at hr
    obtain ⟨pos1, h1⟩ := fgetc_skip_ws_char file pos ws sep t hr hws hd
    refine ⟨pos1, ?_⟩
    simp [after_eol_trim, h1, linesText_nil]
  | cons l more ih =>
    intro ws n str total file pos hr hws hok hn
    cases l with
    | nil =>
      simp only [linesText_cons, List.nil_append, List.cons_append] at hr
      have hr' : file.rest = (ws ++ [NL]) ++ (linesText more ++ sep :: t) := by
        rw [hr]; simp
      obtain ⟨pos1, h1⟩ := ih (ws ++ [NL]) n str total file pos hr'
        (by
          intro w hw
          rcases List.mem_append.1 hw with h | h
          · exact hws w h
          · simp at h; subst h; decide)
        (fun x hx => hok x (List.mem_cons_of_mem _ hx)) (by simp at hn; omega)
      refine ⟨pos1, ?_⟩
      rw [h1]
      simp only [List.flatten_cons, List.nil_append, linesText_cons, List.length_append,
        List.length_cons, List.length_nil, Nat.zero_add]
      have e : file.pos + (ws.length + 1 + (linesText more).length + 1)
          = file.pos + (ws.length + ((linesText more).length + 1) + 1) := by omega
      rw [e]
    | cons c body =>
      obtain ⟨m, rfl⟩ : ∃ m, n = m + 1 := ⟨n - 1, by simp at hn; omega⟩
      have hl := hok (c :: body) (List.mem_cons_self _ _)
      have hc := isBodyChar_facts (hl.2 c (List.mem_cons_self _ _))
      simp only [linesText_cons, List.cons_append, List.append_assoc] at hr
      obtain ⟨pos1, h1⟩ := fgetc_skip_ws_char file pos ws c _ hr hws hc.2.2.2.2
      have hr1 : (⟨file.data, file.pos + (ws.length + 1), file.eof⟩ : FILE).rest
          = body ++ NL :: (linesText more ++ sep :: t) := by
        rw [rest_advance, hr]
        have : ws ++ c :: (body ++ NL :: (linesText more ++ sep :: t))
            = (ws ++ [c]) ++ (body ++ NL :: (linesText more ++ sep :: t)) := by simp
        rw [this, List.drop_left' (by simp)]
      obtain ⟨pos2, h2⟩ := extend_loop_line sep true m (str ++ [c]) (total + 1)
        ⟨file.data, file.pos + (ws.length + 1), file.eof⟩ pos1 body _ hr1
        (by
          intro d hd
          have := isBodyChar_facts (hl.2 d (List.mem_cons_of_mem _ hd))
          exact ⟨this.1, this.2.1, this.2.2.1⟩)
        (by have := hl.1; simp at this; omega) hu
      simp only [if_true] at h2
      have hr2 : (⟨file.data, file.pos + (ws.length + 1) + (body.length + 1), file.eof⟩ : FILE).rest
          = [] ++ (linesText more ++ sep :: t) := by
        have := rest_advance ⟨file.data, file.pos + (ws.length + 1), file.eof⟩
          (body.length + 1) file.eof
        simp only at this
        rw [this, hr1]
        have : body ++ NL :: (linesText more ++ sep :: t)
            = (body ++ [NL]) ++ (linesText more ++ sep :: t) := by simp
        rw [this, List.drop_left' (by simp)]
        rfl
      obtain ⟨pos3, h3⟩ := ih [] m (str ++ [c] ++ body) (total + 1 + (body.length : Nat))
        ⟨file.data, file.pos + (ws.length + 1) + (body.length + 1), file.eof⟩ pos2 hr2
        (by simp) (fun x hx => hok x (List.mem_cons_of_mem _ hx)) (by simp at hn; omega)
      refine ⟨pos3, ?_⟩
      have hne1 : ¬ (c = sep ∨ c = EOF) := by
        intro h; rcases h with h | h
        · exact hc.2.1 h
        · exact hc.2.2.2.1 h
      simp only [after_eol_trim, h1, hne1, if_false]
      rw [h2, h3]
      simp only [List.flatten_cons, linesText_cons, List.length_append, List.length_cons,
        List.length_nil]
      congr 2
      · push_cast; ring
      · congr 1
        · simp
        · congr 2
          omega

theorem extend_until_seq_sep (sep : Int) (hd : isDelim sep = false) (str : List Int)
    (file : FILE) (pos : pos_t) (l : List Int) (more : List (List Int)) (t : List Int)
    (hr : file.rest = linesText (l :: more) ++ sep :: t)
    (hok : ∀ x ∈ l :: more, x.length ≤ 254 ∧ ∀ c ∈ x, isBodyChar sep c = true) :
    ∃ pos1, extend_until str sep file pos true =
      .ok (((l :: more).flatten.length : Nat), str ++ (l :: more).flatten,
        ⟨file.data, file.pos + ((linesText (l :: more)).length + 1), file.eof⟩, pos1) := by
  have hu : sep ≠ NL := by
    intro h
    rw [h] at hd
    exact absurd hd (by decide)
  have hl := hok l (List.mem_cons_self _ _)
  have hr0 := hr
  simp only [linesText_cons, List.cons_append, List.append_assoc] at hr
  have hfuel : file.data.length - file.pos + 1 = file.rest.length + 1 := by
    rw [rest_length]
  obtain ⟨pos1, h1⟩ := extend_loop_line sep true file.rest.length str 0 file pos l _ hr
    (by
      intro d hd
      have := isBodyChar_facts (hl.2 d hd)
      exact ⟨this.1, this.2.1, this.2.2.1⟩)
    hl.1 hu
  simp only [if_true] at h1
  have hr1 : (⟨file.data, file.pos + (l.length + 1), file.eof⟩ : FILE).rest
      = [] ++ (linesText more ++ sep :: t) := by
    rw [rest_advance, hr]
    have : l ++ NL :: (linesText more ++ sep :: t)
        = (l ++ [NL]) ++ (linesText more ++ sep :: t) := by
      simp
    rw [this, List.drop_left' (by simp)]
    rfl
  have hlen : more.length ≤ file.rest.length := by
    rw [hr0]
    simp only [List.length_append, linesText_length, List.length_cons]
    omega
  obtain ⟨pos2, h2⟩ := after_eol_lines_sep sep hd t more [] file.rest.length (str ++ l)
    (0 + (l.length : Nat)) ⟨file.data, file.pos + (l.length + 1), file.eof⟩ pos1 hr1
    (by simp) (fun x hx => hok x (List.mem_cons_of_mem _ hx)) hlen
  refine ⟨pos2, ?_⟩
  unfold extend_until
  rw [hfuel, h1, h2]
  simp only [List.flatten_cons, linesText_cons, List.length_append, List.length_cons,
    List.length_nil]
  congr 2
  · push_cast; ring
  · congr 1
    · simp
    · congr 2
      omega

theorem extend_loop_lines_hit (until_ : Int) (hu : until_ ≠ NL) (qpre tl : List Int)
    (hq : qpre.length ≤ 254 ∧ ∀ c ∈ qpre, c ≠ NL ∧ c ≠ until_)
    (hnul : ∀ c ∈ fgets_chunk 255 (qpre ++ until_ :: tl), c ≠ 0)
    (lines : List (List Int)) :
    ∀ (n : Nat) (str : List Int) (total : Int) (file : FILE) (pos : pos_t),
      file.rest = linesText lines ++ (qpre ++ until_ :: tl) →
      (∀ l ∈ lines, l.length ≤ 254 ∧ ∀ c ∈ l, c ≠ NL ∧ c ≠ until_ ∧ c ≠ 0) →
      lines.length < n →
      ∃ pos1, extend_until_loop until_ false n str total file pos =
        .ok (total + ((lines.flatten.length + qpre.length : Nat) : Int),
          str ++ linesText lines ++ qpre,
          ⟨file.data, file.pos + ((linesText lines).length + qpre.length + 1), false⟩,
          pos1) := by
  induction lines with
  | nil =>
    intro n str total file pos hr _ hn
    obtain ⟨m, rfl⟩ : ∃ m, n = m + 1 := ⟨n - 1, by simp at hn; omega⟩
    simp only [linesText_nil, List.nil_append] at hr
    obtain ⟨pos1, h1⟩ := extend_loop_hit until_ false m str total file pos qpre tl hr hq.2 hq.1
      (by rw [hr]; exact hnul)
    refine ⟨pos1, ?_⟩
    rw [h1]
    simp [linesText_nil]
  | cons l more ih =>
    intro n str total file pos hr hok hn
    obtain ⟨m, rfl⟩ : ∃ m, n = m + 1 := ⟨n - 1, by simp at hn; omega⟩
    have hl := hok l (List.mem_cons_self _ _)
    rw [linesText_cons, List.append_assoc, List.cons_append] at hr
    obtain ⟨pos1, h1⟩ := extend_loop_line until_ false m str total file pos l _ hr
      (fun c hc => hl.2 c hc) hl.1 hu
    simp only [Bool.false_eq_true, if_false] at h1
    have hr1 : (⟨file.data, file.pos + (l.length + 1), file.eof⟩ : FILE).rest
        = linesText more ++ (qpre ++ until_ :: tl) := by
      rw [rest_advance, hr]
      have : l ++ NL :: (linesText more ++ (qpre ++ until_ :: tl))
          = (l ++ [NL]) ++ (linesText more ++ (qpre ++ until_ :: tl)) := by
        simp
      rw [this, List.drop_left' (by simp)]
    obtain ⟨pos2, h2⟩ := ih m (str ++ l ++ [NL]) (total + (l.length : Nat))
      ⟨file.data, file.pos + (l.length + 1), file.eof⟩ pos1 hr1
      (fun x hx => hok x (List.mem_cons_of_mem _ hx)) (by simp at hn; omega)
    refine ⟨pos2, ?_⟩
    rw [h1, h2]
    simp only [linesText_cons, List.flatten_cons, List.length_append, List.length_cons]
    congr 2
    · push_cast; ring
    · congr 1
      · simp
      · congr 2
        omega

theorem extend_until_lines_hit (until_ : Int) (hu : until_ ≠ NL) (str : List Int)
    (file : FILE) (pos : pos_t) (lines : List (List Int)) (qpre tl : List Int)
    (hr : file.rest = linesText lines ++ (qpre ++ until_ :: tl))
    (hok : ∀ l ∈ lines, l.length ≤ 254 ∧ ∀ c ∈ l, c ≠ NL ∧ c ≠ until_ ∧ c ≠ 0)
    (hq : qpre.length ≤ 254 ∧ ∀ c ∈ qpre, c ≠ NL ∧ c ≠ until_)
    (hnul : ∀ c ∈ fgets_chunk 255 (qpre ++ until_ :: tl), c ≠ 0) :
    ∃ pos1, extend_until str until_ file pos false =
      .ok (((lines.flatten.length + qpre.length : Nat) : Int),
        str ++ linesText lines ++ qpre,
        ⟨file.data, file.pos + ((linesText lines).length + qpre.length + 1), false⟩,
        pos1) := by
  have hlen : lines.length < file.data.length - file.pos + 1 := by
    rw [rest_length, hr]
    simp only [List.length_append, linesText_length]
    omega
  obtain ⟨pos1, h1⟩ := extend_loop_lines_hit until_ hu qpre tl hq hnul lines _ str 0 file pos
    hr hok hlen
  refine ⟨pos1, ?_⟩
  unfold extend_until
  rw [h1]
  simp

theorem machine_interleaved (file : FILE) (pos : pos_t) (qid qs : List Int) (seq : seq_t)
    (l : Interleaved) (tl : List Int) (hr : file.rest = l.text tl) (hwf : l.WF tl) :
    ∃ pos1, machine 64 43 .FASTQ 4 ⟨file, pos, .UNKNOWN, qid, qs, seq⟩ =
      if l.scoreChars = [] then .error (.parse pos1 .missing_quality)
      else .ok (true, ⟨⟨file.data, file.pos + (l.id.length + (linesText l.seqLines).length +
            (linesText l.plusLines).length + l.qpre.length + 3), false⟩,
          { pos1 with col := pos1.col - 1 }, .UNKNOWN, qid, [],
          { seq with id := seq.id ++ l.id, seq := seq.seq ++ l.seqLines.flatten,
                     quals := seq.quals ++
                       (qs ++ linesText l.plusLines ++ l.qpre).map (fun c => c - 33) }⟩) := by
  obtain ⟨hid, hseq, hplus, hq, hnul⟩ := hwf
  simp only [Interleaved.text] at hr
  -- the header character
  have h1 := step_unknown_header 64 43 .FASTQ ⟨file, pos, .UNKNOWN, qid, qs, seq⟩ _ rfl hr
    (by decide) (by decide)
  -- the identifier line
  have hr1 : (⟨file.data, file.pos + 1, file.eof⟩ : FILE).rest
      = l.id ++ NL :: (linesText l.seqLines ++ 43 :: (linesText l.plusLines ++
          (l.qpre ++ 64 :: tl))) := by
    rw [rest_advance, hr]; rfl
  obtain ⟨pos2, h2⟩ := extend_until_id seq.id ⟨file.data, file.pos + 1, file.eof⟩
    { pos with col := pos.col + 1 } l.id _ hr1 hid.2.2 hid.2.1
  -- the lines of the sequence and the separator
  obtain ⟨ln, more, hlines⟩ : ∃ ln more, l.seqLines = ln :: more := by
    cases hl : l.seqLines with
    | nil => rw [hl] at hseq; exact absurd rfl hseq.1
    | cons a b => exact ⟨a, b, rfl⟩
  have hr2 : (⟨file.data, file.pos + 1 + (l.id.length + 1), false⟩ : FILE).rest
      = linesText (ln :: more) ++ 43 :: (linesText l.plusLines ++ (l.qpre ++ 64 :: tl)) := by
    have := rest_advance ⟨file.data, file.pos + 1, file.eof⟩ (l.id.length + 1) false
    simp only at this
    rw [this, hr1]
    have e : l.id ++ NL :: (linesText l.seqLines ++ 43 :: (linesText l.plusLines ++
          (l.qpre ++ 64 :: tl)))
        = (l.id ++ [NL]) ++ (linesText l.seqLines ++ 43 :: (linesText l.plusLines ++
          (l.qpre ++ 64 :: tl))) := by simp
    rw [e, List.drop_left' (by simp), hlines]
  obtain ⟨pos3, h3⟩ := extend_until_seq_sep 43 (by decide) seq.seq
    ⟨file.data, file.pos + 1 + (l.id.length + 1), false⟩ pos2 ln more _ hr2
    (by rw [← hlines]; exact hseq.2)
  -- the text between the separator and the header character
  have hr3 : (⟨file.data, file.pos + 1 + (l.id.length + 1) +
        ((linesText (ln :: more)).length + 1), false⟩ : FILE).rest
      = linesText l.plusLines ++ (l.qpre ++ 64 :: tl) := by
    have := rest_advance ⟨file.data, file.pos + 1 + (l.id.length + 1), false⟩
      ((linesText (ln :: more)).length + 1) false
    simp only at this
    rw [this, hr2]
    have e : linesText (ln :: more) ++ 43 :: (linesText l.plusLines ++ (l.qpre ++ 64 :: tl))
        = (linesText (ln :: more) ++ [43]) ++ (linesText l.plusLines ++ (l.qpre ++ 64 :: tl)) := by
      simp
    rw [e, List.drop_left' (by simp)]
  obtain ⟨pos4, h4⟩ := extend_until_lines_hit 64 (by decide) qs
    ⟨file.data, file.pos + 1 + (l.id.length + 1) + ((linesText (ln :: more)).length + 1), false⟩
    pos3 l.plusLines l.qpre tl hr3 hplus hq hnul
  refine ⟨pos4, ?_⟩
  have hn1 : ¬ ((l.id.length : Nat) : Int) < 1 := by
    have : l.id.length ≠ 0 := fun h => hid.1 (List.length_eq_zero.1 h)
    omega
  have hn2 : ¬ (((ln :: more).flatten.length : Nat) : Int) < 1 := by
    have : (ln :: more).flatten.length ≠ 0 := fun h => by
      rw [← hlines] at h
      exact hseq.1 (List.length_eq_zero.1 h)
    omega
  simp only [machine, h1]
  simp only [step, h2, hn1, if_false, ne_eq, not_false_eq_true, if_true, reduceCtorEq]
  simp only [h3, hn2, if_false, if_true, not_true_eq_false, not_false_eq_true, reduceCtorEq]
  simp only [h4]
  by_cases hz : l.scoreChars = []
  · have hlt : ((l.plusLines.flatten.length + l.qpre.length : Nat) : Int) < 1 := by
      have : (l.plusLines.flatten ++ l.qpre).length = 0 := by
        rw [show l.plusLines.flatten ++ l.qpre = l.scoreChars from rfl, hz]; rfl
      simp only [List.length_append] at this
      omega
    simp only [hlt, if_true, hz]
  · have hge : ¬ ((l.plusLines.flatten.length + l.qpre.length : Nat) : Int) < 1 := by
      have : (l.plusLines.flatten ++ l.qpre).length ≠ 0 := fun h =>
        hz (List.length_eq_zero.1 h)
      simp only [List.length_append] at this
      omega
    simp only [hge, hz, if_false, if_true, not_true_eq_false, not_false_eq_true, reduceCtorEq,
      unpeek, fseek_cur, Bool.false_eq_true]
    rw [if_neg (by push_cast; omega)]
    have e : ((((file.pos + 1 + (l.id.length + 1) + ((linesText (ln :: more)).length + 1) +
        ((linesText l.plusLines).length + l.qpre.length + 1) : Nat) : Int)) + (-1)).toNat
        = file.pos + (l.id.length + (linesText l.seqLines).length +
            (linesText l.plusLines).length + l.qpre.length + 3) := by
      rw [hlines]
      push_cast
      omega
    rw [e, hlines]

theorem interleaved_rest (file : FILE) (l : Interleaved) (tl : List Int)
    (hr : file.rest = l.text tl) (e : Bool) :
    (⟨file.data, file.pos + (l.id.length + (linesText l.seqLines).length +
        (linesText l.plusLines).length + l.qpre.length + 3), e⟩ : FILE).rest = 64 :: tl := by
  rw [rest_advance, hr]
  have h : l.text tl = (64 :: (l.id ++ NL :: (linesText l.seqLines ++ 43 ::
      (linesText l.plusLines ++ l.qpre)))) ++ 64 :: tl := by
    simp [Interleaved.text]
  rw [h, List.drop_left' (by simp; omega)]
/-! ## The claims -/

/-- C1: every fragment emitted for a record, under every policy and however
long the fragment loop runs, has `end - start - ambiguousCount >= min_length`
and `start <= maxStart`, where `maxStart = length - min_length`. -/
theorem C1_fragment_bounds (fuel : Nat) (args : args_t) (seq : seq_t) :
    ∀ f ∈ (extract fuel args seq).frags,
      f.stop - f.start - f.nambigs ≥ args.min_length ∧
      f.start ≤ seq.length - args.min_length := by
  intro f hf
  unfold extract at hf
  simp only at hf
  split at hf
  · split at hf
    · simp at hf
    · split at hf
      · simp at hf
      · exact fragmentLoop_bounds args seq _ fuel _ f hf
  · exact fragmentLoop_bounds args seq _ fuel _ f hf

/-- C2: with splitting disabled at most one fragment is emitted for a record,
under every other policy setting. -/
theorem C2_nosplit_at_most_one (fuel : Nat) (args : args_t) (seq : seq_t)
    (hs : args.split = false) : (extract fuel args seq).frags.length ≤ 1 := by
  unfold extract
  simp only
  split
  · split
    · simp
    · split
      · simp
      · exact fragmentLoop_nosplit args seq _ fuel hs _
  · exact fragmentLoop_nosplit args seq _ fuel hs _

/-- C3: when a tag is configured and the first `tag_length` letters of the
record differ from the tag, case-insensitively and position by position, in
more positions than `tag_mismatch`, no fragment is emitted, whatever the
quality scores are. -/
theorem C3_tag_rejection (fuel : Nat) (args : args_t) (seq : seq_t)
    (htag : args.tag_length ≠ 0)
    (hmis : (mismatchCount seq.seq args.tag args.tag_length.toNat : Int) > args.tag_mismatch) :
    (extract fuel args seq).frags = [] := by
  unfold extract
  simp only [htag, ne_eq, not_false_eq_true, if_true]
  split
  · rfl
  · rename_i m hm
    have := tagLoop_count args seq _ 0 0 m hm
    simp only [List.drop_zero, zero_add] at this
    rw [if_pos (by omega)]

/-- C4: a record of length `n` whose quality is below the threshold at exactly
one position `p`, with no tag, homopolymer and ambiguous tolerance disabled and
`min_length = L >= 1`.  With splitting the fragments emitted are, in order,
`[0,p)` when `p >= L` and `[p+1,n)` when `n-p-1 >= L`; without splitting only
the first of these is emitted.  Three passes through the loop are enough. -/
theorem C4_single_low_base (args : args_t) (seq : seq_t) (n p fuel : Nat)
    (h : SingleLow args seq n p) (htag : args.tag_length = 0)
    (hh : args.hpoly = false) (ha : args.ambig = false)
    (hL : 1 ≤ args.min_length) (hfuel : 3 ≤ fuel) :
    extract fuel args seq =
      ⟨if args.split then singleLowFragments args.min_length n p
        else (singleLowFragments args.min_length n p).take 1, .done⟩ := by
  obtain ⟨k, rfl⟩ : ∃ k, fuel = k + 3 := ⟨fuel - 3, by omega⟩
  have hn : seq.length = n := h.1
  unfold extract
  simp only [htag, ne_eq, not_true_eq_false, if_false, hn]
  exact fragmentLoop_single_low args seq n p k h hh ha hL

/-- The bounds of C1 on the fragment `[5,9)` of the nine-base record. -/
theorem C1_fragment_bounds_witness :
    (⟨5, 9, 0⟩ : Fragment) ∈ (extract 3 (scenarioArgs true) nineBases).frags ∧
      ((9 : Int) - 5 - 0 ≥ 4 ∧ (5 : Int) ≤ 9 - 4) :=
  ⟨by decide, C1_fragment_bounds 3 (scenarioArgs true) nineBases ⟨5, 9, 0⟩ (by decide)⟩

/-- At most one fragment for the nine-base record without splitting. -/
theorem C2_nosplit_at_most_one_witness :
    (scenarioArgs false).split = false ∧
      (extract 9 (scenarioArgs false) nineBases).frags.length ≤ 1 :=
  ⟨rfl, C2_nosplit_at_most_one 9 (scenarioArgs false) nineBases rfl⟩

/-- The record `AGGTACGT` is rejected by the tag `ACG` with no mismatch tolerated. -/
theorem C3_tag_rejection_witness :
    tagArgs.tag_length ≠ 0 ∧
      (mismatchCount tagRecord.seq tagArgs.tag tagArgs.tag_length.toNat : Int)
        > tagArgs.tag_mismatch ∧
      (extract 9 tagArgs tagRecord).frags = [] :=
  ⟨by decide, by decide, C3_tag_rejection 9 tagArgs tagRecord (by decide) (by decide)⟩

/-- The nine-base scenario: `[0,4)` and `[5,9)` with splitting, `[0,4)` alone without. -/
theorem C4_single_low_base_witness :
    SingleLow (scenarioArgs true) nineBases 9 4 ∧
      extract 3 (scenarioArgs true) nineBases = ⟨[⟨0, 4, 0⟩, ⟨5, 9, 0⟩], .done⟩ ∧
      extract 3 (scenarioArgs false) nineBases = ⟨[⟨0, 4, 0⟩], .done⟩ :=
  ⟨by decide,
   (C4_single_low_base (scenarioArgs true) nineBases 9 4 3 (by decide) rfl rfl rfl
      (by decide) (by decide)).trans (by decide),
   (C4_single_low_base (scenarioArgs false) nineBases 9 4 3 (by decide) rfl rfl rfl
      (by decide) (by decide)).trans (by decide)⟩

/-- C5 (evaluation at the scenario): on `@r1\nACGTACGT\n+\nIIIIIIII\n` the
parser returns eight letters and ten scores, the newline after `+` and the one
after the quality line being decoded like quality characters (`10 - 33`), and
the extractor with threshold 20, minimum length 4, no splitting and no
tolerance emits the single fragment `[1,8)`, not `[0,8)`. -/
theorem C5_fastq_scenario_fragment :
    (next fastqScenario seq_t.empty).map (fun r => (r.1, r.2.2)) =
        .ok (true, ⟨cstr "r1", cstr "ACGTACGT",
          [-23, 40, 40, 40, 40, 40, 40, 40, 40, -23], 8⟩) ∧
      ∀ fuel, extract (fuel + 1) (scenarioArgs false)
          ⟨cstr "r1", cstr "ACGTACGT", [-23, 40, 40, 40, 40, 40, 40, 40, 40, -23], 8⟩ =
        ⟨[⟨1, 8, 0⟩], .done⟩ :=
  ⟨by rfl, fun _ => by rfl⟩

/-- C6 (counterexample): on the interleaved record `@r1\nACGT\n+\nI\n`, whose
quality line is shorter than its sequence, `next` succeeds, with four letters
and three scores, and reports no consistency error. -/
theorem C6_counts_differ :
    (next fastqShortQuality seq_t.empty).map (fun r => (r.1, r.2.2)) =
      .ok (true, ⟨cstr "r1", cstr "ACGT", [-23, 40, -23], 4⟩) := by
  rfl

/-- C6 (amended): in interleaved mode a call of `next` that succeeds sets the
length of the record to its number of sequence letters, and no call fails with
the consistency error: the number of scores is compared with the number of
letters in two-file mode only. -/
theorem C6_fastq_no_consistency_check (p : parser_t) (seq : seq_t)
    (hq : p.fastq.isSome = true) :
    (∀ p1 s1, next p seq = .ok (true, p1, s1) → s1.length = s1.seq.length) ∧
      (∀ e, next p seq = .error e → e.isMismatch = false) := by
  constructor
  · intro p1 s1 h
    unfold next at h
    repeat' first
      | (cases h; done)
      | (cases h; rfl)
      | split at h
  · intro e h
    unfold next at h
    split at h
    · rename_i e1 he
      cases h
      exact next_read_error p seq _ he
    · cases h
    · rename_i flag p1 s1 he
      have hf := next_read_fastq_flag p seq hq _ _ _ _ he
      subst hf
      simp at h

/-- The amended C6 on the interleaved record with a short quality line. -/
theorem C6_fastq_no_consistency_check_witness :
    fastqShortQuality.fastq.isSome = true ∧
      ((∀ p1 s1, next fastqShortQuality seq_t.empty = .ok (true, p1, s1) →
          s1.length = s1.seq.length) ∧
        (∀ e, next fastqShortQuality seq_t.empty = .error e → e.isMismatch = false)) :=
  ⟨rfl, C6_fastq_no_consistency_check fastqShortQuality seq_t.empty rfl⟩

/-- C7: in two-file mode a call of `next` succeeds only with a record whose
number of quality scores equals its number of sequence letters, and the length
of the record is then that number; when both files have been read and the two
numbers differ the call fails with the consistency error, whose message holds
both numbers. -/
theorem C7_two_file_consistency (p : parser_t) (seq : seq_t)
    (h1 : p.fastq = none) (h2 : p.qual.isSome = true) :
    (∀ p1 s1, next p seq = .ok (true, p1, s1) →
        s1.quals.length = s1.seq.length ∧ s1.length = s1.seq.length) ∧
      (∀ flag p1 s1, next_read p seq = .ok (true, flag, p1, s1) →
        s1.seq.length ≠ s1.quals.length →
        next p seq =
          .error (.parse p1.qpos (.length_mismatch s1.seq.length s1.quals.length))) ∧
      (∀ a b : Nat, (Msg.length_mismatch a b).text =
        "malformed file: sequence length (" ++ toString a ++
          ") does not match the number of quality scores (" ++ toString b ++ ")") := by
  refine ⟨?_, ?_, fun _ _ => rfl⟩
  · intro p1 s1 h
    cases hr : next_read p seq with
    | error e => simp [next, hr] at h
    | ok r =>
      obtain ⟨more, flag, p2, s2⟩ := r
      cases more
      · simp [next, hr] at h
      · have hf := next_read_fasta_flag p seq h1 h2 flag p2 s2 hr
        subst hf
        rw [next_of_read_true p seq true p2 s2 hr] at h
        split at h
        · cases h
        · rename_i hne
          simp only [true_and, ne_eq, Decidable.not_not] at hne
          cases h
          exact ⟨hne.symm, rfl⟩
  · intro flag p1 s1 hr hne
    have hf := next_read_fasta_flag p seq h1 h2 flag p1 s1 hr
    subst hf
    rw [next_of_read_true p seq true p1 s1 hr, if_pos ⟨rfl, hne⟩]

/-- Four letters and three scores in two-file mode: the call fails and the message holds 4 and 3. -/
theorem C7_two_file_consistency_witness :
    fastaQualOneFewer.fastq = none ∧ fastaQualOneFewer.qual.isSome = true ∧
      next fastaQualOneFewer seq_t.empty =
        .error (.parse ⟨some "in.qual", 1, -1⟩ (.length_mismatch 4 3)) ∧
      (Msg.length_mismatch 4 3).text =
        "malformed file: sequence length (4) does not match the number of quality scores (3)" ∧
      (∀ p1 s1, next fastaQualOneFewer seq_t.empty = .ok (true, p1, s1) →
        s1.quals.length = s1.seq.length ∧ s1.length = s1.seq.length) :=
  ⟨rfl, rfl, by rfl, by decide,
    (C7_two_file_consistency fastaQualOneFewer seq_t.empty rfl rfl).1⟩

/-- C8 (counterexample): two records written as the round trip asks, for
which the first call of `next` does not return the record.  The score
2147483648 of the first does not fit in the `int` that `atoi` returns (C leaves
the result undefined).  The identifier of the second has 255 characters:
`fgets` returns them without the newline, `extend_until` appends nothing, and
`next` fails with "missing ID". -/
theorem C8_round_trip_fails :
    (Written bigScoreLayout bigScoreRecord ∧
      next (parser_t.open_fasta_qual "in.fasta" (seqFile [bigScoreLayout]) "in.qual"
        (qualFile [bigScoreLayout])) seq_t.empty = .error .undefined) ∧
    (Written longIdLayout longIdRecord ∧
      next (parser_t.open_fasta_qual "in.fasta" (seqFile [longIdLayout]) "in.qual"
        (qualFile [longIdLayout])) seq_t.empty =
        .error (.parse ⟨some "in.fasta", 0, 256⟩ .missing_id)) :=
  ⟨⟨by decide, by rfl⟩, ⟨by decide, by rfl⟩⟩

/-- C8 (amended): round trip in two-file mode.  For every list of records
whose identifier is a non-empty text of at most 254 characters without
newline, whose sequence is a non-empty string of letters and which has one
score per letter, each fitting in `int`, and for every sequence file and
quality file that write the records in order (a `>` identifier line, then the
body on newline-terminated lines of at most 254 characters, the scores in
decimal separated by spaces or newlines), successive calls of `next`, each on
a cleared record, return exactly those records in order, and the call after
the last returns `false`. -/
theorem C8_two_file_round_trip (ls : List Layout) (rs : List seq_t) (fname qname : String)
    (h : List.Forall₂ Renders ls rs) :
    ∃ p1, readRecords rs.length
        (parser_t.open_fasta_qual fname (seqFile ls) qname (qualFile ls)) = .ok (rs, p1) ∧
      ∃ p2, next p1 seq_t.empty = .ok (false, p2, seq_t.empty) := by
  have h0 : Ready (parser_t.open_fasta_qual fname (seqFile ls) qname (qualFile ls)) ls :=
    ⟨rfl, rfl, rfl, rfl, _, _, rfl, rfl, rfl, rfl⟩
  obtain ⟨p1, h1, h2⟩ := readRecords_all ls rs h _ h0
  exact ⟨p1, h1, next_exhausted p1 h2⟩

/-- The round trip on two records, the first wrapped over two lines in both files. -/
theorem C8_two_file_round_trip_witness :
    List.Forall₂ Renders twoLayouts twoRecords ∧
      seqFile twoLayouts = cstr ">r1\nACGT\nAC\n>r2\nGG\n" ∧
      qualFile twoLayouts = cstr ">r1\n40 40 40\n40 30  20 \n>r2\n10 -5\n" ∧
      ∃ p1, readRecords 2
          (parser_t.open_fasta_qual "in.fasta" (seqFile twoLayouts) "in.qual"
            (qualFile twoLayouts)) = .ok (twoRecords, p1) ∧
        ∃ p2, next p1 seq_t.empty = .ok (false, p2, seq_t.empty) :=
  ⟨.cons (by decide) (.cons (by decide) .nil), by decide, by decide,
    C8_two_file_round_trip twoLayouts twoRecords "in.fasta" "in.qual"
      (.cons (by decide) (.cons (by decide) .nil))⟩

/-- C9 (evaluation at the failing input): on a sequence body of one line of
255 letters followed by a newline and the end of the input, `extend_until`
with end-trimming appends nothing and returns 0. -/
theorem C9_long_line_dropped :
    extend_until [] 62 longLine ⟨none, 0, 0⟩ true =
      .ok (0, [], ⟨List.replicate 255 65 ++ [10], 256, true⟩, ⟨none, 1, 0⟩) := by
  rfl

/-- C10: in the state `UNKNOWN`, when only white space is left on the handle
being read, `next` returns `false` (no more records) and raises no error.
This holds on the primary file, and on the quality file after the loop on the
sequence file has read a record. -/
theorem C10_exhausted (p : parser_t) (seq : seq_t) :
    (∀ file, (if p.fastq.isSome then p.fastq else p.fasta) = some file →
        p.fstate = .UNKNOWN → OnlyWhitespaceLeft file →
        ∃ p1, next p seq = .ok (false, p1, seq)) ∧
      (∀ file qfile m, p.fastq = none → p.fasta = some file → p.qual = some qfile →
        machine 62 62 .FASTA 4 ⟨file, p.fpos, p.fstate, p.qid, p.qs, seq⟩ = .ok (true, m) →
        p.qstate = .UNKNOWN → OnlyWhitespaceLeft qfile →
        ∃ p1, next p seq = .ok (false, p1, m.seq)) := by
  constructor
  · intro file hf hs hws
    cases hq : p.fastq with
    | some f =>
      simp only [hq, Option.isSome_some, if_true] at hf
      cases hf
      have hm := machine_exhausted 64 43 .FASTQ 3 ⟨file, p.fpos, p.fstate, p.qid, p.qs, seq⟩
        hs hws (by decide)
      have hr := next_read_fastq p seq file hq
      rw [hm] at hr
      exact ⟨_, next_of_read_false p seq _ _ _ hr⟩
    | none =>
      simp only [hq, Option.isSome_none, Bool.false_eq_true, if_false] at hf
      have hm := machine_exhausted 62 62 .FASTA 3 ⟨file, p.fpos, p.fstate, p.qid, p.qs, seq⟩
        hs hws (by decide)
      unfold next next_read
      simp only [hq, hf, Option.isSome_none, Bool.false_eq_true, if_false, hm]
      exact ⟨_, rfl⟩
  · intro file qfile m h1 h2 h3 hm hs hws
    have hm2 := machine_exhausted 62 62 .QUAL 3 ⟨qfile, p.qpos, p.qstate, m.qid, m.qs, m.seq⟩
      hs hws (by decide)
    have hr := next_read_fasta p seq file qfile h1 h2 h3
    rw [hm] at hr
    simp only [hm2] at hr
    exact ⟨_, next_of_read_false p seq _ _ _ hr⟩

/-- A blank interleaved file, and a blank quality file after one sequence record: both calls return `false`. -/
theorem C10_exhausted_witness :
    (OnlyWhitespaceLeft ⟨cstr " \n\t\r\n", 0, false⟩ ∧
      ∃ p1, next fastqBlank seq_t.empty = .ok (false, p1, seq_t.empty)) ∧
    (OnlyWhitespaceLeft ⟨cstr "\n \n", 0, false⟩ ∧
      ∃ p1, next fastaQualBlank seq_t.empty =
        .ok (false, p1, ⟨cstr "r1", cstr "ACGT", [], 0⟩)) :=
  ⟨⟨by decide,
    (C10_exhausted fastqBlank seq_t.empty).1 ⟨cstr " \n\t\r\n", 0, false⟩ rfl rfl
      (by decide)⟩,
   ⟨by decide,
    (C10_exhausted fastaQualBlank seq_t.empty).2 ⟨cstr ">r1\nACGT\n", 0, false⟩
      ⟨cstr "\n \n", 0, false⟩
      ⟨⟨cstr ">r1\nACGT\n", 9, true⟩, ⟨some "in.fasta", 1, -1⟩, .UNKNOWN, [], [],
        ⟨cstr "r1", cstr "ACGT", [], 0⟩⟩
      rfl rfl rfl (by rfl) rfl (by decide)⟩⟩

/-! ## The claims, continued -/

/-- C13: for a record whose letters are ASCII characters, extraction with
homopolymer tolerance enabled gives the same output (the same fragments, with
the same starts, ends and ambiguous counts, and the same end of the run) as
extraction with it disabled, whatever the other policy fields are. -/
theorem C13_hpoly_never_matches (fuel : Nat) (args : args_t) (seq : seq_t)
    (hascii : ∀ c ∈ seq.seq, 0 ≤ c ∧ c ≤ 127) :
    extract fuel { args with hpoly := true } seq =
      extract fuel { args with hpoly := false } seq := by
  simp only [extract]
  rw [tagLoop_congr { args with hpoly := true } { args with hpoly := false } seq rfl]
  simp only [fragmentLoop_hpoly { args with hpoly := true } { args with hpoly := false } seq _
    rfl rfl rfl rfl hascii]

/-- The homopolymer flag changes nothing on the nine-base record `AAAAAAAAA`. -/
theorem C13_hpoly_never_matches_witness :
    (∀ c ∈ nineA.seq, 0 ≤ c ∧ c ≤ 127) ∧
      extract 3 { hpolyArgs false with hpoly := true } nineA =
        extract 3 { hpolyArgs false with hpoly := false } nineA :=
  ⟨by decide, C13_hpoly_never_matches 3 (hpolyArgs false) nineA (by decide)⟩

/-- C12 (evaluation at the failing input): on nine bases `A` whose position 4
alone is below the threshold, with homopolymer tolerance enabled (and no
splitting), the scan stops at position 4 although its letter equals the
previous retained letter: the fragment emitted is `[0,4)`, as with the
tolerance disabled. -/
theorem C12_hpoly_run_ends_fragment :
    ∀ fuel, extract (fuel + 1) (hpolyArgs true) nineA = ⟨[⟨0, 4, 0⟩], .done⟩ ∧
      extract (fuel + 1) (hpolyArgs false) nineA = ⟨[⟨0, 4, 0⟩], .done⟩ :=
  fun _ => ⟨by rfl, by rfl⟩

/-- C14: for a record with ASCII letters and every policy, each emitted
fragment starts at a position whose quality is at or above the threshold,
every position of `[start,end)` whose quality is below the threshold holds `N`
or `n` and occurs only with ambiguous tolerance enabled, and `nambigs` is the
number of those positions; with ambiguous tolerance disabled every position of
the fragment is at or above the threshold and `nambigs` is 0. -/
theorem C14_fragment_sound (fuel : Nat) (args : args_t) (seq : seq_t)
    (hascii : ∀ c ∈ seq.seq, 0 ≤ c ∧ c ≤ 127) :
    ∀ f ∈ (extract fuel args seq).frags,
      FragmentSound args seq f ∧
      (args.ambig = false → f.nambigs = 0 ∧
        ∀ i : Nat, f.start ≤ i → (i : Int) < f.stop →
          ∃ q, seq.quals[i]? = some q ∧ args.min_qscore ≤ q) := by
  intro f hf
  have hs : FragmentSound args seq f := by
    unfold extract at hf
    simp only at hf
    split at hf
    · split at hf
      · simp at hf
      · split at hf
        · simp at hf
        · exact fragmentLoop_sound args seq _ hascii fuel _ f hf
    · exact fragmentLoop_sound args seq _ hascii fuel _ f hf
  refine ⟨hs, ?_⟩
  intro ha
  obtain ⟨a, b, h1, h2, _, h4, h5⟩ := hs
  have hall : ∀ i, a ≤ i → i < b → ∃ q, seq.quals[i]? = some q ∧ args.min_qscore ≤ q := by
    intro i hi1 hi2
    obtain ⟨q, c, hq, _, himp⟩ := h4 i hi1 hi2
    refine ⟨q, hq, ?_⟩
    by_contra hlow
    have := (himp (by omega)).1
    rw [ha] at this
    cases this
  constructor
  · rw [h5, lowCount_zero args seq a b]
    · rfl
    · intro i hi1 hi2
      obtain ⟨q, hq, hok⟩ := hall i hi1 hi2
      simp [isLow, hq, hok]
  · intro i hi1 hi2
    exact hall i (by omega) (by omega)

/-- The fragment `[0,8)` of `ACGNACGT` with one ambiguous base counted. -/
theorem C14_fragment_sound_witness :
    (∀ c ∈ ambigRecord.seq, 0 ≤ c ∧ c ≤ 127) ∧
      (⟨0, 8, 1⟩ : Fragment) ∈ (extract 3 ambigArgs ambigRecord).frags ∧
      FragmentSound ambigArgs ambigRecord ⟨0, 8, 1⟩ :=
  ⟨by decide, by decide,
    (C14_fragment_sound 3 ambigArgs ambigRecord (by decide) ⟨0, 8, 1⟩ (by decide)).1⟩

/-- C16: with `min_length >= 1` the fragment loop terminates.  A pass that
does not leave the loop hands a cursor to the next pass that is strictly
larger than the one it started with, whether the candidate was emitted or
discarded, and after at most `length + 1` passes the loop has been left.  (In
the embedding a read outside the arrays ends the run, so nothing is asked of
the quality count.) -/
theorem C16_loop_terminates (args : args_t) (seq : seq_t) (hL : 1 ≤ args.min_length) :
    (∀ (to_ to1 to2 : Nat) (nambigs : Int),
        startSearch args seq (seq.length - args.min_length)
          (seq.length - args.min_length + 1 - to_).toNat to_ = some to1 →
        ¬ ((to1 : Int) > seq.length - args.min_length) →
        innerScan args seq (seq.length - to1).toNat to1 0 = some (to2, nambigs) →
        to_ < to2) ∧
      (∀ fuel, seq.length.toNat + 1 ≤ fuel → (extract fuel args seq).status ≠ .running) := by
  constructor
  · intro to_ to1 to2 nambigs hs hle hi
    obtain ⟨h1, q, hq, hok⟩ := startSearch_start args seq _ to_ to1 hs (by omega)
    obtain ⟨_, _, _, _, _, _, h7⟩ := innerScan_general args seq _ _ _ _ _ hi
    have := h7 q (by omega) (by omega) hq hok
    omega
  · intro fuel hfuel
    unfold extract
    simp only
    split
    · split
      · simp
      · split
        · simp
        · exact fragmentLoop_terminates args seq hL fuel _ (by omega) (by omega)
    · exact fragmentLoop_terminates args seq hL fuel _ (by omega) (by omega)

/-- Ten passes are enough for the nine-base record. -/
theorem C16_loop_terminates_witness :
    (1 : Int) ≤ (scenarioArgs true).min_length ∧
      (extract 10 (scenarioArgs true) nineBases).status ≠ .running :=
  ⟨by decide, (C16_loop_terminates (scenarioArgs true) nineBases (by decide)).2 10 (by decide)⟩

/-- C17: with `min_length >= 1` the fragments emitted for a record satisfy
`0 <= start < end <= length`, and in emission order each fragment starts
strictly after the end of the one before it. -/
theorem C17_fragments_ordered (fuel : Nat) (args : args_t) (seq : seq_t)
    (hL : 1 ≤ args.min_length) :
    (∀ f ∈ (extract fuel args seq).frags,
        0 ≤ f.start ∧ f.start < f.stop ∧ f.stop ≤ seq.length) ∧
      List.Chain' (fun a b : Fragment => a.stop < b.start) (extract fuel args seq).frags := by
  have key : ∀ to_ : Nat,
      (∀ f ∈ (fragmentLoop args seq (seq.length - args.min_length) fuel to_).frags,
        0 ≤ f.start ∧ f.start < f.stop ∧ f.stop ≤ seq.length) ∧
      List.Chain' (fun a b : Fragment => a.stop < b.start)
        (fragmentLoop args seq (seq.length - args.min_length) fuel to_).frags := by
    intro to_
    refine ⟨?_, (fragmentLoop_pairwise args seq hL fuel to_).chain'⟩
    intro f hf
    have h1 := fragmentLoop_start_ge args seq _ fuel to_ f hf
    have h2 := fragmentLoop_range args seq hL fuel to_ f hf
    exact ⟨by omega, h2.1, h2.2⟩
  unfold extract
  simp only
  split
  · split
    · simp
    · split
      · simp
      · exact key _
  · exact key _

/-- The two fragments of the nine-base record: `[0,4)` then `[5,9)`. -/
theorem C17_fragments_ordered_witness :
    (1 : Int) ≤ (scenarioArgs true).min_length ∧
      (extract 3 (scenarioArgs true) nineBases).frags = [⟨0, 4, 0⟩, ⟨5, 9, 0⟩] ∧
      List.Chain' (fun a b : Fragment => a.stop < b.start)
        (extract 3 (scenarioArgs true) nineBases).frags :=
  ⟨by decide, by decide, (C17_fragments_ordered 3 (scenarioArgs true) nineBases (by decide)).2⟩

/-- C18: when a tag is configured and the record passes the tag check, the
fragment loop starts with the cursor at `tag_length`; with no tag it starts at
0; and every emitted fragment has `start >= tag_length`. -/
theorem C18_scan_starts_after_tag (fuel : Nat) (args : args_t) (seq : seq_t) :
    (∀ m, args.tag_length ≠ 0 →
        tagLoop args seq args.tag_length.toNat 0 0 = some m → ¬ (m > args.tag_mismatch) →
        extract fuel args seq =
          fragmentLoop args seq (seq.length - args.min_length) fuel args.tag_length.toNat) ∧
      (args.tag_length = 0 →
        extract fuel args seq = fragmentLoop args seq (seq.length - args.min_length) fuel 0) ∧
      (∀ f ∈ (extract fuel args seq).frags, args.tag_length ≤ f.start) := by
  refine ⟨?_, ?_, ?_⟩
  · intro m ht hm hle
    simp only [extract, ht, ne_eq, not_false_eq_true, if_true, hm, hle, if_false]
  · intro ht
    simp only [extract, ht, ne_eq, not_true_eq_false, if_false]
  · intro f hf
    unfold extract at hf
    simp only at hf
    split at hf
    · split at hf
      · simp at hf
      · split at hf
        · simp at hf
        · have := fragmentLoop_start_ge args seq _ fuel _ f hf
          omega
    · rename_i ht
      simp only [ne_eq, Decidable.not_not] at ht
      have := fragmentLoop_start_ge args seq _ fuel _ f hf
      omega

/-- The record `ACGTACGT` passes the tag `ACG` and gives the fragment `[3,8)`. -/
theorem C18_scan_starts_after_tag_witness :
    (⟨3, 8, 0⟩ : Fragment) ∈ (extract 3 tagArgs tagMatchRecord).frags ∧
      tagArgs.tag_length ≤ (3 : Int) :=
  ⟨by decide, (C18_scan_starts_after_tag 3 tagArgs tagMatchRecord).2.2 ⟨3, 8, 0⟩ (by decide)⟩

/-- C20: for a record whose sequence and quality both have exactly `length`
elements and a policy with `min_length >= 1` and `tag_length <= length` (the
tag holding at least `tag_length` characters), no read of the extractor falls
outside its array: the run never ends in a fault. -/
theorem C20_reads_in_range (fuel : Nat) (args : args_t) (seq : seq_t)
    (hs : (seq.seq.length : Int) = seq.length) (hq : (seq.quals.length : Int) = seq.length)
    (hL : 1 ≤ args.min_length) (ht : args.tag_length ≤ seq.length)
    (htag : args.tag_length ≤ args.tag.length) :
    (extract fuel args seq).status ≠ .fault := by
  unfold extract
  simp only
  split
  · obtain ⟨m, hm⟩ := tagLoop_some args seq args.tag_length.toNat 0 0 (by omega) (by omega)
    rw [hm]
    simp only
    split
    · simp
    · exact fragmentLoop_no_fault args seq hs hq hL fuel _
  · exact fragmentLoop_no_fault args seq hs hq hL fuel _

/-- No fault on `ACGTACGT` with the tag `ACG`. -/
theorem C20_reads_in_range_witness :
    ((tagMatchRecord.seq.length : Int) = tagMatchRecord.length ∧
      (tagMatchRecord.quals.length : Int) = tagMatchRecord.length ∧
      (1 : Int) ≤ tagArgs.min_length ∧ tagArgs.tag_length ≤ tagMatchRecord.length ∧
      tagArgs.tag_length ≤ tagArgs.tag.length) ∧
      (extract 3 tagArgs tagMatchRecord).status ≠ .fault :=
  ⟨by decide, C20_reads_in_range 3 tagArgs tagMatchRecord (by decide) (by decide) (by decide)
    (by decide) (by decide)⟩


/-- C11 (as the code has it): a file that starts with a letter where the header
character is expected is reported at line 0, column 1, in both input modes, not at
line 1; and a first byte 0xFF, which is neither white space nor `@`, makes the call
return `false` with no error at all. -/
theorem C11_position_is_line_zero :
    next noHeaderFastq seq_t.empty = .error (.parse ⟨some "in.fastq", 0, 1⟩ .malformed) ∧
    next noHeaderFasta seq_t.empty = .error (.parse ⟨some "in.fasta", 0, 1⟩ .malformed) ∧
    next firstByteFF seq_t.empty =
      .ok (false, { firstByteFF with fastq := some ⟨[-1] ++ cstr "r1\nACGT\n+\nIIII\n", 1, false⟩ },
        seq_t.empty) :=
  ⟨by rfl, by rfl, by rfl⟩

/-- C11 (amended): when the first character of the input is not white space, not the
header character of the mode (`@` interleaved, `>` two-file) and not the byte that
reads as `EOF`, the first call of `next` stops with the message "malformed file" at
line 0, column 1 of the primary file. -/
theorem C11_malformed_first_char (name qname : String) (c : Int) (rest qdata : List Int)
    (seq : seq_t) (hws : isDelim c = false) (heof : c ≠ EOF) :
    (c ≠ 64 → next (parser_t.open_fastq name (c :: rest)) seq =
        .error (.parse ⟨some name, 0, 1⟩ .malformed)) ∧
    (c ≠ 62 → next (parser_t.open_fasta_qual name (c :: rest) qname qdata) seq =
        .error (.parse ⟨some name, 0, 1⟩ .malformed)) ∧
    Msg.malformed.text = "malformed file" := by
  refine ⟨?_, ?_, rfl⟩
  · intro hh
    have hm := machine_malformed 64 43 .FASTQ 3
      ⟨⟨c :: rest, 0, false⟩, ⟨some name, 0, 0⟩, .UNKNOWN, [], [], seq⟩ c rest rfl rfl hws heof hh
    have hr := next_read_fastq (parser_t.open_fastq name (c :: rest)) seq ⟨c :: rest, 0, false⟩ rfl
    simp only [parser_t.open_fastq] at hr
    rw [hm] at hr
    simp only [next, parser_t.open_fastq, hr]
    rfl
  · intro hh
    have hm := machine_malformed 62 62 .FASTA 3
      ⟨⟨c :: rest, 0, false⟩, ⟨some name, 0, 0⟩, .UNKNOWN, [], [], seq⟩ c rest rfl rfl hws heof hh
    have hr := next_read_fasta (parser_t.open_fasta_qual name (c :: rest) qname qdata) seq
      ⟨c :: rest, 0, false⟩ ⟨qdata, 0, false⟩ rfl rfl rfl
    simp only [parser_t.open_fasta_qual] at hr
    rw [hm] at hr
    simp only [next, parser_t.open_fasta_qual, hr]
    rfl

/-- The file `ACGT` in both modes: the letter `A` is no white space, header or `EOF`. -/
theorem C11_malformed_first_char_witness :
    (isDelim 65 = false ∧ (65 : Int) ≠ EOF ∧ (65 : Int) ≠ 64 ∧ (65 : Int) ≠ 62) ∧
    next (parser_t.open_fastq "in.fastq" (65 :: cstr "CGT\n")) seq_t.empty =
      .error (.parse ⟨some "in.fastq", 0, 1⟩ .malformed) ∧
    next (parser_t.open_fasta_qual "in.fasta" (65 :: cstr "CGT\n") "in.qual" (cstr ">r1\n40\n"))
        seq_t.empty =
      .error (.parse ⟨some "in.fasta", 0, 1⟩ .malformed) :=
  ⟨⟨by decide, by decide, by decide, by decide⟩,
   (C11_malformed_first_char "in.fastq" "in.qual" 65 (cstr "CGT\n") (cstr ">r1\n40\n")
      seq_t.empty (by decide) (by decide)).1 (by decide),
   (C11_malformed_first_char "in.fasta" "in.qual" 65 (cstr "CGT\n") (cstr ">r1\n40\n")
      seq_t.empty (by decide) (by decide)).2.1 (by decide)⟩

/-- C15 (as the code has it): on the line `AC>id` with delimiter `>`, the call
appends `AC`, returns 2 and leaves the stream at offset 3, after the delimiter: the
next character read is `i`, not `>`. -/
theorem C15_stream_left_after_delimiter :
    extend_until [] 62 delimiterInLine ⟨none, 0, 0⟩ true =
      .ok (2, cstr "AC", ⟨cstr "AC>id\n", 3, false⟩, ⟨none, 0, 2⟩) ∧
    (fgetc ⟨cstr "AC>id\n", 3, false⟩).1 = 105 ∧ (105 : Int) ≠ 62 :=
  ⟨by rfl, by rfl, by decide⟩

/-- C15 (amended): when the delimiter occurs in the unread input after `l`, with no
newline and no delimiter in `l`, at most 254 characters in `l` and no NUL in the
piece `fgets` reads, `extend_until` appends `l`, returns its length and leaves the
stream just after the delimiter: what is left to read is what follows the
delimiter, and the delimiter is the character one step back. -/
theorem C15_delimiter_consumed (str : List Int) (until_ : Int) (file : FILE) (pos : pos_t)
    (trim : Bool) (l tl : List Int) (hr : file.rest = l ++ until_ :: tl)
    (hl : ∀ c ∈ l, c ≠ NL ∧ c ≠ until_) (hlen : l.length ≤ 254)
    (hnul : ∀ c ∈ fgets_chunk 255 file.rest, c ≠ 0) :
    ∃ file1 pos1, extend_until str until_ file pos trim =
        .ok ((l.length : Nat), str ++ l, file1, pos1) ∧
      file1.pos = file.pos + l.length + 1 ∧ file1.rest = tl ∧
      (fgetc (fseek_cur file1 (-1))).1 = until_ := by
  obtain ⟨pos1, h⟩ := extend_until_hit str until_ file pos trim l tl hr hl hlen hnul
  have hrest : (⟨file.data, file.pos + (l.length + 1), false⟩ : FILE).rest = tl := by
    rw [rest_advance, hr]
    have e : l ++ until_ :: tl = (l ++ [until_]) ++ tl := by simp
    rw [e, List.drop_left' (by simp)]
  have hback : fseek_cur ⟨file.data, file.pos + (l.length + 1), false⟩ (-1)
      = ⟨file.data, file.pos + l.length, false⟩ := by
    simp only [fseek_cur]
    rw [if_neg (by push_cast; omega)]
    congr 1
    push_cast
    omega
  have hrest2 : (⟨file.data, file.pos + l.length, false⟩ : FILE).rest = until_ :: tl := by
    rw [rest_advance, hr, List.drop_left' rfl]
  refine ⟨_, pos1, h, by simp only; omega, hrest, ?_⟩
  rw [hback, fgetc_cons hrest2]

/-- The line `AC>id` with delimiter `>`: two letters appended, `id` and the newline
left to read. -/
theorem C15_delimiter_consumed_witness :
    ∃ file1 pos1, extend_until [] 62 delimiterInLine ⟨none, 0, 0⟩ true =
        .ok (((cstr "AC").length : Nat), [] ++ cstr "AC", file1, pos1) ∧
      file1.pos = delimiterInLine.pos + (cstr "AC").length + 1 ∧ file1.rest = cstr "id\n" ∧
      (fgetc (fseek_cur file1 (-1))).1 = 62 :=
  C15_delimiter_consumed [] 62 delimiterInLine ⟨none, 0, 0⟩ true (cstr "AC") (cstr "id\n")
    (by rfl) (by decide) (by decide) (by decide)

/-- C19 (as the code has it): when `@` is the first character of the quality line,
the count returned for the quality step is 0 and the call stops with "malformed
file: missing quality scores" instead of returning a record. -/
theorem C19_at_sign_first_is_error :
    next atFirstInQuality seq_t.empty =
      .error (.parse ⟨some "in.fastq", 2, 0⟩ .missing_quality) :=
  by rfl

/-- C19 (amended): take an interleaved record whose text is `@`, an identifier of 1
to 254 characters, lines of sequence characters, `+`, and then, up to the first `@`
that follows, lines of at most 254 characters (`Interleaved.WF` holds the bounds),
read by `next` in the state `UNKNOWN`.  If at least one character other than a
newline stands between the `+` and that `@`, the call returns `true`: the scores
appended to the record are the decoded characters between the `+` and the `@`
(newlines included) and end before the `@`, the stream is left at that `@` in the
state `UNKNOWN`, and the next pass of the state machine takes it as a header and
moves to the state `ID`.  If no such character stands there (the `@` is the first
character of the quality line after a bare `+` line), the call stops with
"malformed file: missing quality scores". -/
theorem C19_at_sign_ends_quality (p : parser_t) (seq : seq_t) (file : FILE) (l : Interleaved)
    (tl : List Int) (hf : p.fastq = some file) (hs : p.fstate = .UNKNOWN)
    (hr : file.rest = l.text tl) (hwf : l.WF tl) :
    (l.scoreChars ≠ [] →
      ∃ p1 file1 m,
        next p seq = .ok (true, p1,
          ⟨seq.id ++ l.id, seq.seq ++ l.seqLines.flatten,
            seq.quals ++ (p.qs ++ linesText l.plusLines ++ l.qpre).map (fun c => c - 33),
            (seq.seq ++ l.seqLines.flatten).length⟩) ∧
        p1.fastq = some file1 ∧ file1.rest = 64 :: tl ∧ p1.fstate = .UNKNOWN ∧
        step 64 43 .FASTQ ⟨file1, p1.fpos, p1.fstate, p1.qid, p1.qs, seq_t.empty⟩ =
          .ok (true, m) ∧
        m.state = .ID ∧ m.file.rest = tl) ∧
    (l.scoreChars = [] →
      ∃ pos, next p seq = .error (.parse pos .missing_quality) ∧
        Msg.missing_quality.text = "malformed file: missing quality scores") := by
  obtain ⟨pos1, hm⟩ := machine_interleaved file p.fpos p.qid p.qs seq l tl hr hwf
  have hread := next_read_fastq p seq file hf
  rw [hs, hm] at hread
  constructor
  · intro hne
    rw [if_neg hne] at hread
    have hn := next_of_read_true _ _ _ _ _ hread
    simp only [Bool.false_eq_true, false_and, if_false] at hn
    have hrest := interleaved_rest file l tl hr false
    have hstep := step_unknown_header 64 43 .FASTQ
      ⟨⟨file.data, file.pos + (l.id.length + (linesText l.seqLines).length +
          (linesText l.plusLines).length + l.qpre.length + 3), false⟩,
        { pos1 with col := pos1.col - 1 }, .UNKNOWN, p.qid, [], seq_t.empty⟩ tl rfl hrest
      (by decide) (by decide)
    refine ⟨⟨some ⟨file.data, file.pos + (l.id.length +
          (linesText l.seqLines).length + (linesText l.plusLines).length + l.qpre.length + 3),
          false⟩, p.fasta, p.qual, { pos1 with col := pos1.col - 1 }, p.qpos, .UNKNOWN,
          p.qstate, p.qid, []⟩,
      ⟨file.data, file.pos + (l.id.length + (linesText l.seqLines).length +
        (linesText l.plusLines).length + l.qpre.length + 3), false⟩, _, ?_, rfl, hrest, rfl,
      hstep, ?_, ?_⟩
    · rw [hn]
    · rfl
    · have := rest_advance ⟨file.data, file.pos + (l.id.length + (linesText l.seqLines).length +
        (linesText l.plusLines).length + l.qpre.length + 3), false⟩ 1 false
      simp only at this
      simp only
      rw [this, hrest]
      rfl
  · intro hz
    rw [if_pos hz] at hread
    refine ⟨pos1, ?_, rfl⟩
    simp only [next, hread]

/-- The record `r1` with its letters on two lines and the quality line `II@II` is
read with the scores -23, 40, 40 and the stream left at the `@`; the record whose
quality line starts with `@` stops the call with the missing-scores message. -/
theorem C19_at_sign_ends_quality_witness :
    (atInsideTwoLines.WF (cstr "II\n") ∧ atInsideTwoLines.scoreChars ≠ [] ∧
      ∃ p1 file1 m,
        next (parser_t.open_fastq "in.fastq" (cstr "@r1\nAC\nGT\n+\nII@II\n")) seq_t.empty =
          .ok (true, p1, ⟨cstr "r1", cstr "ACGT", [-23, 40, 40], 4⟩) ∧
        p1.fastq = some file1 ∧ file1.rest = 64 :: cstr "II\n" ∧ p1.fstate = .UNKNOWN ∧
        step 64 43 .FASTQ ⟨file1, p1.fpos, p1.fstate, p1.qid, p1.qs, seq_t.empty⟩ =
          .ok (true, m) ∧
        m.state = .ID ∧ m.file.rest = cstr "II\n") ∧
    (atFirstLayout.WF (cstr "III\n") ∧ atFirstLayout.scoreChars = [] ∧
      ∃ pos, next atFirstInQuality seq_t.empty = .error (.parse pos .missing_quality) ∧
        Msg.missing_quality.text = "malformed file: missing quality scores") :=
  ⟨⟨by unfold Interleaved.WF; decide, by decide,
    (C19_at_sign_ends_quality (parser_t.open_fastq "in.fastq" (cstr "@r1\nAC\nGT\n+\nII@II\n"))
      seq_t.empty ⟨cstr "@r1\nAC\nGT\n+\nII@II\n", 0, false⟩ atInsideTwoLines (cstr "II\n")
      rfl rfl (by rfl) (by unfold Interleaved.WF; decide)).1 (by decide)⟩,
   ⟨by unfold Interleaved.WF; decide, by decide,
    (C19_at_sign_ends_quality atFirstInQuality seq_t.empty
      ⟨cstr "@r1\nACGT\n+\n@III\n", 0, false⟩ atFirstLayout (cstr "III\n")
      rfl rfl (by rfl) (by unfold Interleaved.WF; decide)).2 (by decide)⟩⟩
end Qfilt
